import Mathlib

/-!
# rsv2ce: reference parser, verse matcher and context iterator

A shallow embedding of `src/rsv2ce.c` (with the types of `src/data.h`).

Conventions of the embedding:

* a C string is a `List Char`; the end of the list plays the role of the
  terminating NUL, so `s[i]` is `List.head?` of the remaining suffix and
  `none` stands for the terminator;
* `int` values are `Int`, `unsigned int` values are `Nat` below `2^32`; a
  comparison between the two converts the `int` side with `toU32`, as the
  usual arithmetic conversions do;
* the corpus (`rsv2ce_verses`, `rsv2ce_books`) and the regular-expression
  library are parameters.
-/

namespace Rsv2ce

/-! ## Data model (`data.h`, `rsv2ce.c` lines 25-49) -/

/-- A book record: `rsv2ce_book` of `data.h`. -/
structure rsv2ce_book where
  number : Int
  name : List Char
  abbr : List Char
  deriving DecidableEq

/-- A verse record: `rsv2ce_verse` of `data.h`. -/
structure rsv2ce_verse where
  book : Int
  chapter : Int
  verse : Int
  text : List Char
  deriving DecidableEq

/-- The configuration record `rsv2ce_config`. -/
structure rsv2ce_config where
  maximum_line_length : Int
  context_before : Int
  context_after : Int
  context_chapter : Bool
  deriving DecidableEq

def RSV2CE_REF_SEARCH : Nat := 1
def RSV2CE_REF_EXACT : Nat := 2
def RSV2CE_REF_EXACT_SET : Nat := 3
def RSV2CE_REF_RANGE : Nat := 4
def RSV2CE_REF_RANGE_EXT : Nat := 5

/-- Modelled from the spec: `intset.h` is not part of the sources; the spec
only says that a query carries "an explicit set of verse numbers" and that a
verse matches when its number "is a member of the verse set".  A set is the
list of the numbers added so far. -/
abbrev intset := List Nat

/-- Modelled from the spec: `intset_new` of the absent `intset.h`, the empty set. -/
def intset_new : intset := []

/-- Modelled from the spec: `intset_add` of the absent `intset.h`. -/
def intset_add (s : intset) (x : Nat) : intset := if x ∈ s then s else s ++ [x]

/-- Modelled from the spec: `intset_contains` of the absent `intset.h`. -/
def intset_contains (s : intset) (x : Nat) : Bool := decide (x ∈ s)

/-- The query record `rsv2ce_ref`.  `verse_set` and `search_str` are pointers
in the source (`none` is `NULL`); the compiled `regex_t` is represented by the
pattern text it was compiled from (`none` before any successful `regcomp`). -/
structure rsv2ce_ref where
  type : Nat
  book : Nat
  chapter : Nat
  chapter_end : Nat
  verse : Nat
  verse_end : Nat
  verse_set : Option intset
  search_str : Option (List Char)
  search : Option (List Char)
  deriving DecidableEq

/-- The POSIX regular-expression library, abstractly: `compiles p` says that
`regcomp` with `REG_EXTENDED|REG_ICASE|REG_NOSUB` returns 0 on `p`, and
`exec p text` that `regexec` of the compiled `p` returns 0 on `text`. -/
structure RegexLib where
  compiles : List Char → Bool
  exec : List Char → List Char → Bool

/-- Conversion of an `int` to `unsigned int`. -/
def toU32 (x : Int) : Nat := (x % 4294967296).toNat

/-! ## Book resolver (`rsv2ce.c` lines 68-105) -/

/-- The C library `tolower` in the "C" locale, on the character under the
cursor (`none` is the terminator, which `tolower` leaves alone). -/
def tolower (c : Option Char) : Option Char := c.map Char.toLower

/-- The loop of `rsv2ce_bookequal`; `a` and `b` are the suffixes at `i` and
`j`.  Every iteration that does not return advances `i` or `j`, so
`a.length + b.length + 1` iterations always suffice. -/
def rsv2ce_bookequal_loop (short_match : Bool) : Nat → List Char → List Char → Bool
  | 0, _, _ => false
  | fuel + 1, a, b =>
    if (a.head? = none ∧ b.head? = none) ∨ (short_match = true ∧ b.head? = none) then
      true
    else if a.head? = some ' ' then
      rsv2ce_bookequal_loop short_match fuel a.tail b
    else if b.head? = some ' ' then
      rsv2ce_bookequal_loop short_match fuel a b.tail
    else if tolower a.head? ≠ tolower b.head? then
      false
    else
      rsv2ce_bookequal_loop short_match fuel a.tail b.tail

/-- The function `rsv2ce_bookequal`. -/
def rsv2ce_bookequal (a b : List Char) (short_match : Bool) : Bool :=
  rsv2ce_bookequal_loop short_match (a.length + b.length + 1) a b

/-- The function `rsv2ce_book_matches`. -/
def rsv2ce_book_matches (book : rsv2ce_book) (s : List Char) : Bool :=
  rsv2ce_bookequal book.name s false ||
    rsv2ce_bookequal book.abbr s false ||
    rsv2ce_bookequal book.name s true

/-- The function `rsv2ce_book_fromname`, over the book table `books`. -/
def rsv2ce_book_fromname : List rsv2ce_book → List Char → Int
  | [], _ => 0
  | book :: rest, s =>
    if rsv2ce_book_matches book s then book.number else rsv2ce_book_fromname rest s

/-! ## Reference parser (`rsv2ce.c` lines 107-254) -/

/-- The letter test of `rsv2ce_scanbook`: `a`..`z` or `A`..`Z`. -/
def isLetter (c : Char) : Bool :=
  decide (('a' ≤ c ∧ c ≤ 'z') ∨ ('A' ≤ c ∧ c ≤ 'Z'))

/-- The digit test of `rsv2ce_scanbook`: `0`..`9`. -/
def isDigit (c : Char) : Bool := decide ('0' ≤ c ∧ c ≤ '9')

/-- The loop of `rsv2ce_scanbook`: the suffix still to scan, the index `i`
and `mode`; returns the final `i` and `mode`. -/
def rsv2ce_scanbook_loop : List Char → Nat → Nat → Nat × Nat
  | [], i, mode => (i, mode)
  | c :: s, i, mode =>
    if c = ' ' then rsv2ce_scanbook_loop s (i + 1) mode
    else if isLetter c then rsv2ce_scanbook_loop s (i + 1) 1
    else if isDigit c ∧ mode = 0 then rsv2ce_scanbook_loop s (i + 1) mode
    else (i, mode)

/-- The function `rsv2ce_scanbook`: the returned flag (`mode >= 1`) and the
value stored in `*n`. -/
def rsv2ce_scanbook (s : List Char) : Bool × Nat :=
  let r := rsv2ce_scanbook_loop s 0 0
  (decide (r.2 ≥ 1), r.1)

/-- The C library `isspace` in the "C" locale. -/
def isspace (c : Char) : Bool :=
  c = ' ' || c = '\t' || c = '\n' || c = Char.ofNat 11 || c = Char.ofNat 12 || c = '\r'

/-- Value of a digit string read left to right, starting from `acc`. -/
def digitsValue (acc : Nat) : List Char → Nat
  | [] => acc
  | c :: s => digitsValue (10 * acc + (c.toNat - 48)) s

/-- The value `%u` stores for an optionally negated digit string of value
`d`: the `strtoul` result (saturating at `ULONG_MAX = 2^64 - 1`, negation in
`unsigned long`) truncated to `unsigned int`. -/
def storeU (neg : Bool) (d : Nat) : Nat :=
  if d ≥ 18446744073709551616 then 4294967295
  else if neg then (18446744073709551616 - d) % 4294967296
  else d % 4294967296

/-- The input after an optional sign `+` or `-`. -/
def afterSign (s : List Char) : List Char :=
  if s.head? = some '-' ∨ s.head? = some '+' then s.tail else s

/-- The digits-and-sign part of a `%u` conversion: an optional `+` or `-`,
then at least one decimal digit.  Returns the stored value and the input left. -/
def scanSigned (s : List Char) : Option (Nat × List Char) :=
  let neg := decide (s.head? = some '-')
  let body := afterSign s
  let ds := body.takeWhile isDigit
  if ds = [] then none else some (storeU neg (digitsValue 0 ds), body.dropWhile isDigit)

/-- The `sscanf` conversion `%u%n`: white space is skipped, then an optionally
signed decimal number is read.  `none` when no item is assigned; otherwise the
value and the unread input (what `%n` locates). -/
def scanU (s : List Char) : Option (Nat × List Char) :=
  scanSigned (s.dropWhile isspace)

/-- The call `sscanf(s, "<lit>%u%n", ..)` for a one-character literal `lit`
(`:`, `-` or `,`): the literal must be the first character. -/
def scanLitU (lit : Char) (s : List Char) : Option (Nat × List Char) :=
  match s with
  | c :: rest => if c = lit then scanU rest else none
  | [] => none

/-- The record as `rsv2ce_parseref` leaves it after its reset block
(lines 141-151). -/
def ref_cleared : rsv2ce_ref :=
  { type := 0, book := 0, chapter := 0, chapter_end := 0, verse := 0, verse_end := 0,
    verse_set := none, search_str := none, search := none }

/-- The code at label `search:` (lines 247-253); `ref_str` starts with `/`. -/
def parseref_search (re : RegexLib) (ref : rsv2ce_ref) (ref_str : List Char) :
    Int × rsv2ce_ref :=
  let ref := { ref with type := RSV2CE_REF_SEARCH }
  if re.compiles ref_str.tail = false then (2, ref)
  else (0, { ref with search := some ref_str.tail, search_str := some ref_str.tail })

/-- The loop of form 3a (lines 223-229): further `,<number>` items are added
to the set until one fails to scan.  The first argument bounds the number of
iterations; the caller passes the input length, and each item consumes at
least two characters, so the bound is never reached. -/
def parseref_setloop : Nat → intset → List Char → intset × List Char
  | 0, set, s => (set, s)
  | fuel + 1, set, s =>
    match scanLitU ',' s with
    | none => (set, s)
    | some (value, rest) => parseref_setloop fuel (intset_add set value) rest

/-- Lines 239-245 of `rsv2ce_parseref`: the closing `:<verse>` of form 6. -/
def parseref_ext (ref : rsv2ce_ref) (ref_str : List Char) : Int × rsv2ce_ref :=
  match scanLitU ':' ref_str with
  | some (verse_end, rest) =>
    let ref := { ref with verse_end := verse_end }
    if rest.head? = none then
      -- 6
      (0, { ref with type := RSV2CE_REF_RANGE_EXT })
    else (1, ref)
  | none => (1, ref)

/-- Lines 202-245 of `rsv2ce_parseref`: what follows `<chapter>:<verse>`. -/
def parseref_afterverse (ref : rsv2ce_ref) (ref_str : List Char) : Int × rsv2ce_ref :=
  match scanLitU '-' ref_str with
  | some (value, rest) =>
    if rest.head? = none then
      -- 5
      (0, { ref with verse_end := value, type := RSV2CE_REF_RANGE })
    else
      -- 6
      parseref_ext { ref with chapter_end := value } rest
  | none =>
    if ref_str.head? = none then
      -- 3
      (0, { ref with type := RSV2CE_REF_EXACT })
    else
      match scanLitU ',' ref_str with
      | some (value, rest) =>
        -- 3a
        let set := intset_add (intset_add intset_new ref.verse) value
        let r := parseref_setloop rest.length set rest
        let ref := { ref with verse_set := some r.1 }
        if r.2.head? ≠ none then (1, ref)
        else (0, { ref with type := RSV2CE_REF_EXACT_SET })
      | none => (1, ref)

/-- Lines 181-245 of `rsv2ce_parseref`: what follows `<chapter>`. -/
def parseref_afterchapter (re : RegexLib) (ref : rsv2ce_ref) (ref_str : List Char) :
    Int × rsv2ce_ref :=
  match scanLitU ':' ref_str with
  | some (verse, rest) =>
    -- 3, 3a, 5, 6
    parseref_afterverse { ref with verse := verse } rest
  | none =>
    match scanLitU '-' ref_str with
    | some (chapter_end, rest) =>
      -- 4
      let ref := { ref with chapter_end := chapter_end }
      if rest.head? ≠ none then (1, ref)
      else (0, { ref with type := RSV2CE_REF_RANGE })
    | none =>
      if ref_str.head? = some '/' then
        -- 9
        parseref_search re ref ref_str
      else if ref_str.head? = none then
        -- 2
        (0, { ref with type := RSV2CE_REF_EXACT })
      else (1, ref)

/-- Lines 167-245 of `rsv2ce_parseref`: what follows the book token. -/
def parseref_afterbook (re : RegexLib) (ref : rsv2ce_ref) (ref_str : List Char) :
    Int × rsv2ce_ref :=
  match (scanLitU ':' ref_str).orElse (fun _ => scanU ref_str) with
  | some (chapter, rest) =>
    -- 2, 3, 3a, 4, 5, 6, 9
    parseref_afterchapter re { ref with chapter := chapter } rest
  | none =>
    if ref_str.head? = some '/' then
      -- 8
      parseref_search re ref ref_str
    else if ref_str.head? = none then
      -- 1
      (0, { ref with type := RSV2CE_REF_EXACT })
    else (1, ref)

/-- The function `rsv2ce_parseref`: the return value and the record as it is
left.  The record passed in is reset field by field before anything else
(lines 141-151), so it is not an argument.  The body is cut at the places
where the source advances `ref_str`; each piece is one of the functions
above. -/
def rsv2ce_parseref (re : RegexLib) (books : List rsv2ce_book) (ref_str : List Char) :
    Int × rsv2ce_ref :=
  let sb := rsv2ce_scanbook ref_str
  if sb.1 = true then
    -- 1, 2, 3, 3a, 4, 5, 6, 8, 9
    parseref_afterbook re
      { ref_cleared with book := toU32 (rsv2ce_book_fromname books (ref_str.take sb.2)) }
      (ref_str.drop sb.2)
  else if ref_str.head? = some '/' then
    -- 7
    parseref_search re ref_cleared ref_str
  else
    (1, ref_cleared)

/-! ## Verse matcher (`rsv2ce.c` lines 277-315) -/

/-- The function `rsv2ce_verse_matches`.  The `int` fields of the verse are
converted to `unsigned int` where they meet a field of the query. -/
def rsv2ce_verse_matches (re : RegexLib) (ref : rsv2ce_ref) (verse : rsv2ce_verse) : Bool :=
  let vbook := toU32 verse.book
  let vchapter := toU32 verse.chapter
  let vverse := toU32 verse.verse
  if ref.type = RSV2CE_REF_SEARCH then
    (ref.book = 0 || ref.book = vbook) &&
      (ref.chapter = 0 || vchapter = ref.chapter) &&
      (match ref.search with
       | some p => re.exec p verse.text
       | none => false)
  else if ref.type = RSV2CE_REF_EXACT then
    ref.book = vbook &&
      (ref.chapter = 0 || ref.chapter = vchapter) &&
      (ref.verse = 0 || ref.verse = vverse)
  else if ref.type = RSV2CE_REF_EXACT_SET then
    ref.book = vbook &&
      (ref.chapter = 0 || vchapter = ref.chapter) &&
      (match ref.verse_set with
       | some set => intset_contains set vverse
       | none => false)
  else if ref.type = RSV2CE_REF_RANGE then
    ref.book = vbook &&
      ((ref.chapter_end = 0 && ref.chapter = vchapter) ||
        (decide (vchapter ≥ ref.chapter) && decide (vchapter ≤ ref.chapter_end))) &&
      (ref.verse = 0 || decide (vverse ≥ ref.verse)) &&
      (ref.verse_end = 0 || decide (vverse ≤ ref.verse_end))
  else if ref.type = RSV2CE_REF_RANGE_EXT then
    ref.book = vbook &&
      ((vchapter = ref.chapter && decide (vverse ≥ ref.verse) &&
          ref.chapter ≠ ref.chapter_end) ||
        (decide (vchapter > ref.chapter) && decide (vchapter < ref.chapter_end)) ||
        (vchapter = ref.chapter_end && decide (vverse ≤ ref.verse_end) &&
          ref.chapter ≠ ref.chapter_end) ||
        (ref.chapter = ref.chapter_end && vchapter = ref.chapter &&
          decide (vverse ≥ ref.verse) && decide (vverse ≤ ref.verse_end)))
  else
    false

/-! ## Context window iterator (`rsv2ce.c` lines 317-411) -/

def RSV2CE_DIRECTION_BEFORE : Int := -1
def RSV2CE_DIRECTION_AFTER : Int := 1

/-- The array access `rsv2ce_verses[i]`, used only for `0 <= i < length`. -/
def verseAt (verses : List rsv2ce_verse) (i : Int) : rsv2ce_verse :=
  verses.getD i.toNat { book := 0, chapter := 0, verse := 0, text := [] }

/-- The loop of `rsv2ce_chapter_bounds` with its variables `i` and `steps`.
Every iteration that does not leave the loop moves `i` by `direction` inside
`[0, length)`, so `length + 1` iterations always suffice. -/
def rsv2ce_chapter_bounds_loop (verses : List rsv2ce_verse) (direction maximum_steps : Int) :
    Nat → Int → Int → Int
  | 0, i, _ => i
  | fuel + 1, i, steps =>
    if 0 ≤ i ∧ i < verses.length then
      if maximum_steps ≠ -1 ∧ steps ≥ maximum_steps then i
      else if (direction = -1 ∧ i = 0) ∨ (direction = 1 ∧ i + 1 = verses.length) then i
      else if (verseAt verses i).book ≠ (verseAt verses (i + direction)).book ∨
          (verseAt verses i).chapter ≠ (verseAt verses (i + direction)).chapter then i
      else rsv2ce_chapter_bounds_loop verses direction maximum_steps fuel (i + direction) (steps + 1)
    else i

/-- The function `rsv2ce_chapter_bounds`. -/
def rsv2ce_chapter_bounds (verses : List rsv2ce_verse) (i direction maximum_steps : Int) : Int :=
  rsv2ce_chapter_bounds_loop verses direction maximum_steps (verses.length + 1) i 0

/-- The loop of `rsv2ce_next_match` over the verses from position `i` on. -/
def rsv2ce_next_match_loop (re : RegexLib) (ref : rsv2ce_ref) : List rsv2ce_verse → Int → Int
  | [], _ => -1
  | verse :: rest, i =>
    if rsv2ce_verse_matches re ref verse then i else rsv2ce_next_match_loop re ref rest (i + 1)

/-- The function `rsv2ce_next_match`, for a start position `i >= 0`. -/
def rsv2ce_next_match (re : RegexLib) (ref : rsv2ce_ref) (verses : List rsv2ce_verse)
    (i : Int) : Int :=
  rsv2ce_next_match_loop re ref (verses.drop i.toNat) i

/-- The record `rsv2ce_range`; `end_` is the source's field `end`. -/
structure rsv2ce_range where
  start : Int
  end_ : Int
  deriving DecidableEq

/-- The record `rsv2ce_next_data`; `matches0` and `matches1` are `matches[0]`
and `matches[1]`. -/
structure rsv2ce_next_data where
  current : Int
  next_match : Int
  matches0 : rsv2ce_range
  matches1 : rsv2ce_range
  deriving DecidableEq

/-- The function `rsv2ce_next_addrange`. -/
def rsv2ce_next_addrange (next : rsv2ce_next_data) (range : rsv2ce_range) : rsv2ce_next_data :=
  if next.matches0.start = -1 ∧ next.matches0.end_ = -1 then
    { next with matches0 := range }
  else if range.start < next.matches0.end_ then
    { next with matches0 := range }
  else
    { next with matches1 := range }

/-- The function `rsv2ce_next_verse`: the returned position and the state left. -/
def rsv2ce_next_verse (re : RegexLib) (verses : List rsv2ce_verse) (ref : rsv2ce_ref)
    (config : rsv2ce_config) (next : rsv2ce_next_data) : Int × rsv2ce_next_data :=
  if next.current ≥ verses.length then (-1, next)
  else
    let next :=
      if next.matches0.start ≠ -1 ∧ next.matches0.end_ ≠ -1 ∧
          next.current ≥ next.matches0.end_ then
        { next with matches0 := next.matches1, matches1 := { start := -1, end_ := -1 } }
      else next
    let next :=
      if (next.next_match = -1 ∨ next.next_match < next.current) ∧
          next.next_match < verses.length then
        let next_match := rsv2ce_next_match re ref verses next.current
        if next_match ≥ 0 then
          let bounds : rsv2ce_range :=
            { start := rsv2ce_chapter_bounds verses next_match RSV2CE_DIRECTION_BEFORE
                (if config.context_chapter then -1 else config.context_before),
              end_ := rsv2ce_chapter_bounds verses next_match RSV2CE_DIRECTION_AFTER
                (if config.context_chapter then -1 else config.context_after) + 1 }
          rsv2ce_next_addrange { next with next_match := next_match } bounds
        else next
      else next
    if next.matches0.start = -1 ∧ next.matches0.end_ = -1 then (-1, next)
    else
      let next :=
        if next.current < next.matches0.start then { next with current := next.matches0.start }
        else next
      (next.current, { next with current := next.current + 1 })

/-- The state `rsv2ce_output` starts the iteration from. -/
def next_initial : rsv2ce_next_data :=
  { current := 0, next_match := -1,
    matches0 := { start := -1, end_ := -1 }, matches1 := { start := -1, end_ := -1 } }

/-- The positions returned by repeated calls of `rsv2ce_next_verse` from the
state `next` until a call returns -1, as the loop of `rsv2ce_output` sees
them; `none` when `fuel` calls did not reach the -1. -/
def rsv2ce_positions (re : RegexLib) (verses : List rsv2ce_verse) (ref : rsv2ce_ref)
    (config : rsv2ce_config) : Nat → rsv2ce_next_data → Option (List Int)
  | 0, _ => none
  | fuel + 1, next =>
    let r := rsv2ce_next_verse re verses ref config next
    if r.1 = -1 then some []
    else (rsv2ce_positions re verses ref config fuel r.2).map (fun l => r.1 :: l)

/-! ## Specification-side definitions -/

/-- The context window of a match at position `m`, as the claim words it: from
`rsv2ce_chapter_bounds(m, BEFORE, before)` to
`rsv2ce_chapter_bounds(m, AFTER, after)`, both inclusive, with -1 steps when
`context_chapter` is set. -/
def inWindow (verses : List rsv2ce_verse) (config : rsv2ce_config) (m p : Int) : Bool :=
  decide (rsv2ce_chapter_bounds verses m RSV2CE_DIRECTION_BEFORE
      (if config.context_chapter then -1 else config.context_before) ≤ p) &&
    decide (p ≤ rsv2ce_chapter_bounds verses m RSV2CE_DIRECTION_AFTER
      (if config.context_chapter then -1 else config.context_after))

/-- The ascending, repetition-free list of all positions that lie in the
window of at least one matching position. -/
def windowPositions (re : RegexLib) (verses : List rsv2ce_verse) (ref : rsv2ce_ref)
    (config : rsv2ce_config) : List Int :=
  ((List.range verses.length).filter (fun p =>
    (List.range verses.length).any (fun m =>
      rsv2ce_verse_matches re ref (verseAt verses m) && inWindow verses config m p))).map
    (fun p => (p : Int))

/-- A stand-in regular-expression library for evaluating examples: it
compiles exactly the patterns made of ASCII letters and digits, which as
extended regular expressions with `REG_ICASE` match the texts that contain
the pattern as a substring up to letter case.  Every other pattern is
rejected, as `regcomp` rejects `[`. -/
def literalRegex : RegexLib :=
  { compiles := fun p => p.all (fun c => isLetter c || isDigit c),
    exec := fun p text =>
      (text.map Char.toLower).tails.any (fun t => (p.map Char.toLower).isPrefixOf t) }

/-- A one-book table used in the examples. -/
def sampleBooks : List rsv2ce_book :=
  [{ number := 1, name := "Genesis".toList, abbr := "Gen".toList }]

/-- A corpus of one chapter with four verses, used in the examples. -/
def sampleVerses : List rsv2ce_verse :=
  [{ book := 1, chapter := 1, verse := 1, text := "alpha".toList },
   { book := 1, chapter := 1, verse := 2, text := "beta".toList },
   { book := 1, chapter := 1, verse := 3, text := "gamma".toList },
   { book := 1, chapter := 1, verse := 4, text := "delta".toList }]

/-- The normal form of a name in the claims: every space removed and every
letter lower-cased. -/
def norm (s : List Char) : List Char := (s.filter (fun c => c ≠ ' ')).map Char.toLower

/-- A book qualifies for a token when the normal form of the token equals that
of the abbreviation or is a prefix of that of the name (equality with the full
name included). -/
def qualifies (token : List Char) (b : rsv2ce_book) : Bool :=
  decide (norm token = norm b.abbr) || (norm token).isPrefixOf (norm b.name)

/-- The resolver as the specification words it: the `number` of the first book,
in list order, whose abbreviation equals the token or whose name has the token
as a prefix, both after normalisation; 0 when there is none. -/
def resolveSpec (books : List rsv2ce_book) (token : List Char) : Int :=
  match books.find? (qualifies token) with
  | some b => b.number
  | none => 0

/-- The first character of `r`, if any, fails `p`: scanning with `p` stops at `r`. -/
def stopsAt (p : Char → Bool) (r : List Char) : Bool :=
  match r with
  | [] => true
  | c :: _ => !p c

/-- A decimal numeral: a non-empty string of digits. -/
def isNumeral (ds : List Char) : Bool := !ds.isEmpty && ds.all isDigit

/-- The value of a decimal numeral. -/
def numVal (ds : List Char) : Nat := digitsValue 0 ds

/-- A character that `rsv2ce_scanbook` passes over in every mode: a letter or
a space. -/
def isBookChar (c : Char) : Bool := isLetter c || c = ' '

/-- A book token as the parser's grammar describes it: optional leading
digits and spaces, then letters and spaces with at least one letter. -/
def isBookToken (t : List Char) : Bool :=
  let post := t.dropWhile (fun c => isDigit c || c = ' ')
  post.all isBookChar && post.any isLetter

/-- The optional colon between the book token and the chapter. -/
def optColon (colon : Bool) : List Char := if colon then [':'] else []

/-- The data-model invariant on a book table: numbers are positive `int`s. -/
abbrev booksOneBased (books : List rsv2ce_book) : Prop :=
  ∀ b ∈ books, 1 ≤ b.number ∧ b.number ≤ 2147483647

/-- The data-model invariant on a verse: book, chapter and verse numbers are
positive `int`s. -/
abbrev verseOneBased (v : rsv2ce_verse) : Prop :=
  1 ≤ v.book ∧ v.book ≤ 2147483647 ∧ 1 ≤ v.chapter ∧ v.chapter ≤ 2147483647 ∧
    1 ≤ v.verse ∧ v.verse ≤ 2147483647

/-- The order of the corpus: lexicographic on (book, chapter, verse). -/
abbrev verseLt (a b : rsv2ce_verse) : Prop :=
  a.book < b.book ∨ (a.book = b.book ∧
    (a.chapter < b.chapter ∨ (a.chapter = b.chapter ∧ a.verse < b.verse)))

/-- What the conversion `%u` reads to the end of the string: optional white
space, an optional sign, then a numeral and nothing else. -/
def isUnsignedField (s : List Char) : Bool :=
  isNumeral (afterSign (s.dropWhile isspace))

/-- The input that closes form 6 after the dash-number: a colon followed by a
field that `%u` reads to the end of the string. -/
def isExtTail (r : List Char) : Bool :=
  match r with
  | c :: rest => decide (c = ':') && isUnsignedField rest
  | [] => false

/-- The text `,w1,w2,...,wk` of a comma-separated list of fields. -/
def commaList : List (List Char) → List Char
  | [] => []
  | w :: ws => ',' :: (w ++ commaList ws)

/-- The set the parser builds for the verse `v` and the further numerals `ws`. -/
def verseSetOf (v : List Char) (ws : List (List Char)) : intset :=
  ws.foldl (fun s w => intset_add s (numVal w)) (intset_add intset_new (numVal v))

/-- The input starts with something `%u` converts: optional white space, an
optional sign, then a digit. -/
def startsNumber (s : List Char) : Bool :=
  match afterSign (s.dropWhile isspace) with
  | d :: _ => isDigit d
  | [] => false

/-- The input starts with a further comma-number as the scanner reads it. -/
def startsCommaNumber (r : List Char) : Bool :=
  match r with
  | c :: rest => decide (c = ',') && startsNumber rest
  | [] => false

/-- A two-book table in which the abbreviation of the second book is a prefix
of the name of the first. -/
def prefixBooks : List rsv2ce_book :=
  [{ number := 1, name := "Joshua".toList, abbr := "Josh".toList },
   { number := 2, name := "Job".toList, abbr := "Jo".toList }]

/-- The inclusive lexicographic span `(c1, v1) <= (chapter, verse) <= (c2, v2)`
of the RangeExt claim. -/
def inSpan (c1 v1 c2 v2 : Nat) (chapter verse : Int) : Bool :=
  (decide ((c1 : Int) < chapter) || (decide ((c1 : Int) = chapter) && decide ((v1 : Int) ≤ verse))) &&
    (decide (chapter < (c2 : Int)) || (decide (chapter = (c2 : Int)) && decide (verse ≤ (v2 : Int))))

/-- The configuration of `-A 2`: two verses of context after each match, none
before, no whole-chapter context. -/
def afterTwoConfig : rsv2ce_config :=
  { maximum_line_length := 80, context_before := 0, context_after := 2,
    context_chapter := false }

/-! ## Specification-side definitions for the iterator -/

/-- The step limit passed to `rsv2ce_chapter_bounds` for the context before a
match: -1 (unlimited) when `context_chapter` is set. -/
def ctxBefore (config : rsv2ce_config) : Int :=
  if config.context_chapter then -1 else config.context_before

/-- The step limit passed to `rsv2ce_chapter_bounds` for the context after a
match. -/
def ctxAfter (config : rsv2ce_config) : Int :=
  if config.context_chapter then -1 else config.context_after

/-- First position of the context window of a match at `m`. -/
def winLo (verses : List rsv2ce_verse) (config : rsv2ce_config) (m : Int) : Int :=
  rsv2ce_chapter_bounds verses m RSV2CE_DIRECTION_BEFORE (ctxBefore config)

/-- Last position of the context window of a match at `m`. -/
def winHi (verses : List rsv2ce_verse) (config : rsv2ce_config) (m : Int) : Int :=
  rsv2ce_chapter_bounds verses m RSV2CE_DIRECTION_AFTER (ctxAfter config)

/-- The range `rsv2ce_next_verse` computes for a match at `m`: half-open, from
`winLo` to `winHi + 1`. -/
def windowOf (verses : List rsv2ce_verse) (config : rsv2ce_config) (m : Int) : rsv2ce_range :=
  { start := winLo verses config m, end_ := winHi verses config m + 1 }

/-- The position `j` exists in the corpus and its verse satisfies
`rsv2ce_verse_matches`. -/
def matchAt (re : RegexLib) (verses : List rsv2ce_verse) (ref : rsv2ce_ref) (j : Int) : Prop :=
  0 ≤ j ∧ j < verses.length ∧ rsv2ce_verse_matches re ref (verseAt verses j) = true

/-- The corpus entries at `j` and `j + 1` have equal book and chapter. -/
def adjSame (verses : List rsv2ce_verse) (j : Int) : Bool :=
  decide ((verseAt verses j).book = (verseAt verses (j + 1)).book ∧
    (verseAt verses j).chapter = (verseAt verses (j + 1)).chapter)

/-- The empty slot `{-1, -1}` of the iterator. -/
def emptyRange : rsv2ce_range := { start := -1, end_ := -1 }

/-- Lines 383-386 of `rsv2ce_next_verse`: slot B is promoted to slot A once
the cursor has reached the end of slot A. -/
def next_promote (next : rsv2ce_next_data) : rsv2ce_next_data :=
  if next.matches0.start ≠ -1 ∧ next.matches0.end_ ≠ -1 ∧
      next.current ≥ next.matches0.end_ then
    { next with matches0 := next.matches1, matches1 := { start := -1, end_ := -1 } }
  else next

/-- The test of line 388: a new match has to be looked for. -/
def scanNeeded (verses : List rsv2ce_verse) (next : rsv2ce_next_data) : Prop :=
  (next.next_match = -1 ∨ next.next_match < next.current) ∧
    next.next_match < verses.length

/-- Lines 388-400 of `rsv2ce_next_verse`: the next match is located and its
window handed to `rsv2ce_next_addrange`. -/
def next_scan (re : RegexLib) (verses : List rsv2ce_verse) (ref : rsv2ce_ref)
    (config : rsv2ce_config) (next : rsv2ce_next_data) : rsv2ce_next_data :=
  if (next.next_match = -1 ∨ next.next_match < next.current) ∧
      next.next_match < verses.length then
    if rsv2ce_next_match re ref verses next.current ≥ 0 then
      rsv2ce_next_addrange
        { next with next_match := rsv2ce_next_match re ref verses next.current }
        (windowOf verses config (rsv2ce_next_match re ref verses next.current))
    else next
  else next

/-- Lines 402-410 of `rsv2ce_next_verse`: -1 when slot A is empty, otherwise
the cursor is moved up to the start of slot A, returned and incremented. -/
def next_emit (next : rsv2ce_next_data) : Int × rsv2ce_next_data :=
  if next.matches0.start = -1 ∧ next.matches0.end_ = -1 then (-1, next)
  else
    let next :=
      if next.current < next.matches0.start then { next with current := next.matches0.start }
      else next
    (next.current, { next with current := next.current + 1 })

/-- The call of `rsv2ce_next_verse` on `next` reaches the last branch of
`rsv2ce_next_addrange`, which stores the new window in slot B. -/
def storesInB (re : RegexLib) (verses : List rsv2ce_verse) (ref : rsv2ce_ref)
    (config : rsv2ce_config) (next : rsv2ce_next_data) : Prop :=
  next.current < verses.length ∧ scanNeeded verses (next_promote next) ∧
    rsv2ce_next_match re ref verses (next_promote next).current ≥ 0 ∧
    ¬ ((next_promote next).matches0.start = -1 ∧ (next_promote next).matches0.end_ = -1) ∧
    ¬ ((windowOf verses config
          (rsv2ce_next_match re ref verses (next_promote next).current)).start <
        (next_promote next).matches0.end_)

/-- A position is covered when it lies in the window of a matching position. -/
def covered (re : RegexLib) (verses : List rsv2ce_verse) (ref : rsv2ce_ref)
    (config : rsv2ce_config) (p : Int) : Prop :=
  ∃ m, matchAt re verses ref m ∧ winLo verses config m ≤ p ∧ p ≤ winHi verses config m

/-- No window of a later match starts inside the window of an earlier match
but after the position that follows the earlier match. -/
def noLoss (re : RegexLib) (verses : List rsv2ce_verse) (ref : rsv2ce_ref)
    (config : rsv2ce_config) : Prop :=
  ∀ m m', matchAt re verses ref m → matchAt re verses ref m' → m < m' →
    winLo verses config m' < winHi verses config m + 1 → winLo verses config m' ≤ m + 1

/-- The windows of the matches before the cursor `cur` end before the cursor
or inside slot A. -/
def pastCovered (re : RegexLib) (verses : List rsv2ce_verse) (ref : rsv2ce_ref)
    (config : rsv2ce_config) (cur : Int) (slotA : rsv2ce_range) : Prop :=
  ∀ m, matchAt re verses ref m → m < cur →
    winHi verses config m < cur ∨ winHi verses config m < slotA.end_

/-- The invariant of the iterator between calls, on the four fields of the
state: no pending window; one pending window, that of `next_match`; or two,
slot B being the window of `next_match` and lying after slot A. -/
def IterInvF (re : RegexLib) (verses : List rsv2ce_verse) (ref : rsv2ce_ref)
    (config : rsv2ce_config) (cur nm : Int) (slotA slotB : rsv2ce_range) : Prop :=
  0 ≤ cur ∧ pastCovered re verses ref config cur slotA ∧
  ((slotA = emptyRange ∧ slotB = emptyRange ∧
      (nm = -1 ∨ (matchAt re verses ref nm ∧ nm < cur))) ∨
   (matchAt re verses ref nm ∧ slotA = windowOf verses config nm ∧ slotB = emptyRange ∧
      winLo verses config nm < cur ∧ cur ≤ winHi verses config nm + 1 ∧
      (∀ j, cur ≤ j → j < nm → ¬ matchAt re verses ref j)) ∨
   (∃ a, matchAt re verses ref a ∧ slotA = windowOf verses config a ∧
      matchAt re verses ref nm ∧ slotB = windowOf verses config nm ∧
      winLo verses config a < cur ∧ cur ≤ winHi verses config a + 1 ∧
      winHi verses config a + 1 ≤ winLo verses config nm ∧
      (∀ j, cur ≤ j → j < nm → ¬ matchAt re verses ref j)))

/-- The invariant of the iterator between calls of `rsv2ce_next_verse`. -/
def IterInv (re : RegexLib) (verses : List rsv2ce_verse) (ref : rsv2ce_ref)
    (config : rsv2ce_config) (s : rsv2ce_next_data) : Prop :=
  IterInvF re verses ref config s.current s.next_match s.matches0 s.matches1

/-- The states of the iterator inside a call, after promotion and scan and
before the position is returned, on the four fields of the state. -/
def MidInvF (re : RegexLib) (verses : List rsv2ce_verse) (ref : rsv2ce_ref)
    (config : rsv2ce_config) (cur nm : Int) (slotA slotB : rsv2ce_range) : Prop :=
  0 ≤ cur ∧ cur < verses.length ∧ pastCovered re verses ref config cur slotA ∧
  ((slotA = emptyRange ∧ slotB = emptyRange ∧
      (nm = -1 ∨ (matchAt re verses ref nm ∧ nm < cur)) ∧
      (∀ j, cur ≤ j → ¬ matchAt re verses ref j) ∧
      (∀ j, cur ≤ j → ¬ covered re verses ref config j)) ∨
   (matchAt re verses ref nm ∧ slotA = windowOf verses config nm ∧ slotB = emptyRange ∧
      cur ≤ nm ∧
      (∀ j, cur ≤ j → j < nm → ¬ matchAt re verses ref j) ∧
      (noLoss re verses ref config →
        ∀ j, cur ≤ j → j < winLo verses config nm → ¬ covered re verses ref config j)) ∨
   (matchAt re verses ref nm ∧ slotA = windowOf verses config nm ∧ slotB = emptyRange ∧
      nm < cur ∧ winLo verses config nm < cur ∧ cur < winHi verses config nm + 1 ∧
      (∀ j, cur ≤ j → ¬ matchAt re verses ref j)) ∨
   (∃ a, matchAt re verses ref a ∧ slotA = windowOf verses config a ∧
      matchAt re verses ref nm ∧ slotB = windowOf verses config nm ∧
      winLo verses config a < cur ∧ cur < winHi verses config a + 1 ∧
      winHi verses config a + 1 ≤ winLo verses config nm ∧
      (∀ j, cur ≤ j → j < nm → ¬ matchAt re verses ref j)))

/-- The states of the iterator inside a call, before the position is returned. -/
def MidInv (re : RegexLib) (verses : List rsv2ce_verse) (ref : rsv2ce_ref)
    (config : rsv2ce_config) (s : rsv2ce_next_data) : Prop :=
  MidInvF re verses ref config s.current s.next_match s.matches0 s.matches1

/-- The states reachable from the initial state by calls of
`rsv2ce_next_verse`. -/
inductive Reachable (re : RegexLib) (verses : List rsv2ce_verse) (ref : rsv2ce_ref)
    (config : rsv2ce_config) : rsv2ce_next_data → Prop
  | init : Reachable re verses ref config next_initial
  | step (s : rsv2ce_next_data) :
      Reachable re verses ref config s →
      Reachable re verses ref config (rsv2ce_next_verse re verses ref config s).2

/-- The states of the iterator inside a call after the promotion block, on
the four fields of the state. -/
def PreInvF (re : RegexLib) (verses : List rsv2ce_verse) (ref : rsv2ce_ref)
    (config : rsv2ce_config) (cur nm : Int) (slotA slotB : rsv2ce_range) : Prop :=
  0 ≤ cur ∧ cur < verses.length ∧
  ((slotA = emptyRange ∧ slotB = emptyRange ∧
      (nm = -1 ∨ (matchAt re verses ref nm ∧ nm < cur)) ∧
      (∀ m, matchAt re verses ref m → m < cur → winHi verses config m < cur)) ∨
   (matchAt re verses ref nm ∧ slotA = windowOf verses config nm ∧ slotB = emptyRange ∧
      winLo verses config nm < cur ∧ cur < winHi verses config nm + 1 ∧
      (∀ j, cur ≤ j → j < nm → ¬ matchAt re verses ref j) ∧
      pastCovered re verses ref config cur slotA) ∨
   (matchAt re verses ref nm ∧ slotA = windowOf verses config nm ∧ slotB = emptyRange ∧
      cur ≤ nm ∧
      (∀ j, cur ≤ j → j < nm → ¬ matchAt re verses ref j) ∧
      (∀ m, matchAt re verses ref m → m < cur → winHi verses config m < cur)) ∨
   (∃ a, matchAt re verses ref a ∧ slotA = windowOf verses config a ∧
      matchAt re verses ref nm ∧ slotB = windowOf verses config nm ∧
      winLo verses config a < cur ∧ cur < winHi verses config a + 1 ∧
      winHi verses config a + 1 ≤ winLo verses config nm ∧
      (∀ j, cur ≤ j → j < nm → ¬ matchAt re verses ref j) ∧
      pastCovered re verses ref config cur slotA))

/-- The states of the iterator inside a call after the promotion block. -/
def PreInv (re : RegexLib) (verses : List rsv2ce_verse) (ref : rsv2ce_ref)
    (config : rsv2ce_config) (s : rsv2ce_next_data) : Prop :=
  PreInvF re verses ref config s.current s.next_match s.matches0 s.matches1


/-- The configuration of `-A 1`: one verse of context after each match, none
before, no whole-chapter context. -/
def afterOneConfig : rsv2ce_config :=
  { maximum_line_length := 80, context_before := 0, context_after := 1,
    context_chapter := false }


/-- All adjacent corpus entries between the positions `m` and `p` have equal
book and chapter: `m` and `p` lie in one run of adjacent entries of one chapter. -/
def sameRun (verses : List rsv2ce_verse) (m p : Int) : Bool :=
  (List.range verses.length).all (fun (j : Nat) =>
    !(decide (min m p ≤ Int.ofNat j ∧ Int.ofNat j < max m p)) || adjSame verses (Int.ofNat j))

/-- The ascending list of the positions that lie in a maximal run of adjacent
corpus entries with equal book and chapter in which some position matches. -/
def chapterRunPositions (re : RegexLib) (verses : List rsv2ce_verse) (ref : rsv2ce_ref) :
    List Int :=
  ((List.range verses.length).filter (fun (p : Nat) =>
    (List.range verses.length).any (fun (m : Nat) =>
      rsv2ce_verse_matches re ref (verseAt verses (Int.ofNat m)) &&
        sameRun verses (Int.ofNat m) (Int.ofNat p)))).map Int.ofNat

/-- The configuration of `-C`: whole-chapter context. -/
def chapterConfig : rsv2ce_config :=
  { maximum_line_length := 80, context_before := 0, context_after := 0,
    context_chapter := true }

/-- A corpus of two chapters with two verses each, used in the examples. -/
def twoChapterVerses : List rsv2ce_verse :=
  [{ book := 1, chapter := 1, verse := 1, text := "alpha".toList },
   { book := 1, chapter := 1, verse := 2, text := "beta".toList },
   { book := 1, chapter := 2, verse := 1, text := "gamma".toList },
   { book := 1, chapter := 2, verse := 2, text := "delta".toList }]

/-! ## Renderer (`rsv2ce.c` lines 413-467) -/

def ESC_BOLD : List Char := [Char.ofNat 27, '[', '1', 'm']
def ESC_UNDERLINE : List Char := [Char.ofNat 27, '[', '4', 'm']
def ESC_RESET : List Char := [Char.ofNat 27, '[', 'm']

/-- The conversion `%d` of `fprintf`. -/
def fmtInt (x : Int) : List Char :=
  if x < 0 then '-' :: Nat.toDigits 10 x.natAbs else Nat.toDigits 10 x.toNat

/-- Conversion of an `int` to `size_t` (64 bits). -/
def toU64 (x : Int) : Nat := (x % 18446744073709551616).toNat

/-- The tokens `strtok(.., " ")` returns one after the other: the maximal
runs of characters other than the space.  The second argument is the token
being read. -/
def strtok_loop : List Char → List Char → List (List Char)
  | [], token => if token = [] then [] else [token]
  | c :: s, token =>
    if c = ' ' then
      if token = [] then strtok_loop s [] else token :: strtok_loop s []
    else strtok_loop s (token ++ [c])

/-- The words of a verse text as `rsv2ce_output_verse` sees them. -/
def strtok_words (text : List Char) : List (List Char) := strtok_loop text []

/-- The `while` loop of `rsv2ce_output_verse` over the remaining words, with
`characters_printed`; `limit` is the right-hand side of the comparison of line
427 after its conversion to `size_t`.  Returns the characters written. -/
def output_verse_loop (limit : Nat) : List (List Char) → Nat → List Char
  | [], _ => []
  | word :: rest, characters_printed =>
    let word_length := word.length
    let wrap : Bool :=
      decide (characters_printed + word_length + (if characters_printed > 0 then 1 else 0) >
        limit)
    let characters_printed := if wrap then 0 else characters_printed
    (if wrap then ['\n', '\t'] else []) ++
      (if characters_printed > 0 then [' '] else []) ++ word ++
      output_verse_loop limit rest
        ((if characters_printed > 0 then characters_printed + 1 else characters_printed) +
          word_length)

/-- The label `rsv2ce_output_verse` writes first: bold `chapter:verse`, then a
tab. -/
def verseLabel (verse : rsv2ce_verse) : List Char :=
  ESC_BOLD ++ fmtInt verse.chapter ++ [':'] ++ fmtInt verse.verse ++ ESC_RESET ++ ['\t']

/-- The function `rsv2ce_output_verse`: the characters written to `f`, for a
text that fits the 1024-byte buffer. -/
def rsv2ce_output_verse (verse : rsv2ce_verse) (config : rsv2ce_config) : List Char :=
  verseLabel verse ++
    output_verse_loop (toU64 (config.maximum_line_length - 8 - 2)) (strtok_words verse.text) 0 ++
    ['\n']

/-- What one `fprintf` call of `rsv2ce_output` (or its call of
`rsv2ce_output_verse`) writes: the blank line between books, the header of a
book, or the verse at a position. -/
inductive rsv2ce_emitted where
  | blank : rsv2ce_emitted
  | header (book : Int) : rsv2ce_emitted
  | verse (position : Int) : rsv2ce_emitted
  deriving DecidableEq

/-- The characters of an emitted item; the header prints
`rsv2ce_books[book - 1].name`. -/
def emitted_text (books : List rsv2ce_book) (verses : List rsv2ce_verse)
    (config : rsv2ce_config) : rsv2ce_emitted → List Char
  | rsv2ce_emitted.blank => ['\n']
  | rsv2ce_emitted.header book =>
    ESC_UNDERLINE ++
      (books.getD (book - 1).toNat { number := 0, name := [], abbr := [] }).name ++
      ESC_RESET ++ ['\n', '\n']
  | rsv2ce_emitted.verse position => rsv2ce_output_verse (verseAt verses position) config

/-- The loop of `rsv2ce_output`: the iterator state, `last_printed` (the
position of the verse it points to, `none` for `NULL`); returns what is
written and the final `last_printed`, or `none` when `fuel` calls of
`rsv2ce_next_verse` did not reach the -1. -/
def rsv2ce_output_loop (re : RegexLib) (verses : List rsv2ce_verse) (ref : rsv2ce_ref)
    (config : rsv2ce_config) :
    Nat → rsv2ce_next_data → Option Int → Option (List rsv2ce_emitted × Option Int)
  | 0, _, _ => none
  | fuel + 1, next, last_printed =>
    let r := rsv2ce_next_verse re verses ref config next
    if r.1 = -1 then some ([], last_printed)
    else
      let head : List rsv2ce_emitted :=
        match last_printed with
        | none => [rsv2ce_emitted.header (verseAt verses r.1).book]
        | some last =>
          if (verseAt verses r.1).book ≠ (verseAt verses last).book then
            [rsv2ce_emitted.blank, rsv2ce_emitted.header (verseAt verses r.1).book]
          else []
      (rsv2ce_output_loop re verses ref config fuel r.2 (some r.1)).map
        (fun rest => (head ++ rsv2ce_emitted.verse r.1 :: rest.1, rest.2))

/-- The function `rsv2ce_output`: the items written and the return value
`last_printed != NULL`.  The loop is given `length + 1` calls of
`rsv2ce_next_verse`, which always suffice. -/
def rsv2ce_output (re : RegexLib) (verses : List rsv2ce_verse) (ref : rsv2ce_ref)
    (config : rsv2ce_config) : Option (List rsv2ce_emitted × Bool) :=
  (rsv2ce_output_loop re verses ref config (verses.length + 1) next_initial none).map
    (fun r => (r.1, r.2.isSome))

/-- The characters `rsv2ce_output` writes to `f`. -/
def rsv2ce_output_text (re : RegexLib) (books : List rsv2ce_book) (verses : List rsv2ce_verse)
    (ref : rsv2ce_ref) (config : rsv2ce_config) : Option (List Char) :=
  (rsv2ce_output re verses ref config).map
    (fun r => (r.1.map (emitted_text books verses config)).flatten)

/-! ## Specification-side definitions for the renderer -/

/-- The words of a line joined by a separator. -/
def joinWith (sep : List Char) : List (List Char) → List Char
  | [] => []
  | [w] => w
  | w :: w' :: rest => w ++ sep ++ joinWith sep (w' :: rest)

/-- The text of a line: its words joined by single spaces. -/
def lineText (line : List (List Char)) : List Char := joinWith [' '] line

/-- The verse text as laid out in lines: consecutive lines are separated by a
newline and a tab. -/
def linesText (lines : List (List (List Char))) : List Char :=
  joinWith ['\n', '\t'] (lines.map lineText)

/-- The books for which a header is written when verses with the books `bs`
are printed in this order after a verse of book `prev` (`none`: no verse yet). -/
def headerBooks : Option Int → List Int → List Int
  | _, [] => []
  | prev, b :: bs =>
    (if prev = some b then [] else [b]) ++ headerBooks (some b) bs

/-- The books of the header items among the items written. -/
def headersOf : List rsv2ce_emitted → List Int
  | [] => []
  | rsv2ce_emitted.header b :: rest => b :: headersOf rest
  | _ :: rest => headersOf rest

/-- A verse and a configuration with a 12-column limit, used in the examples. -/
def narrowConfig : rsv2ce_config :=
  { maximum_line_length := 12, context_before := 0, context_after := 0,
    context_chapter := false }

/-- The items written for the positions `l` returned one after the other,
when `last` is the position printed before them (`none`: nothing yet). -/
def itemsOf (verses : List rsv2ce_verse) : Option Int → List Int → List rsv2ce_emitted
  | _, [] => []
  | last, i :: rest =>
    (match last with
      | none => [rsv2ce_emitted.header (verseAt verses i).book]
      | some j =>
        if (verseAt verses i).book ≠ (verseAt verses j).book then
          [rsv2ce_emitted.blank, rsv2ce_emitted.header (verseAt verses i).book]
        else []) ++ rsv2ce_emitted.verse i :: itemsOf verses (some i) rest

/-- The value of `last_printed` after the positions `l` have been printed. -/
def finalLast : Option Int → List Int → Option Int
  | last, [] => last
  | _, i :: rest => finalLast (some i) rest

/-- A configuration with a 5-column limit, below the 10 columns the wrap
computation subtracts. -/
def tinyConfig : rsv2ce_config :=
  { maximum_line_length := 5, context_before := 0, context_after := 0,
    context_chapter := false }

/-- A configuration with a 20-column limit. -/
def twentyConfig : rsv2ce_config :=
  { maximum_line_length := 20, context_before := 0, context_after := 0,
    context_chapter := false }

/-! ## The book resolver: lemmas -/

theorem norm_nil : norm [] = [] := rfl

theorem norm_cons_space (s : List Char) : norm (' ' :: s) = norm s := by
  simp [norm]

theorem norm_cons_of_ne (c : Char) (s : List Char) (h : c ≠ ' ') :
    norm (c :: s) = c.toLower :: norm s := by
  simp [norm, h]

/-- The loop without `short_match` decides equality of the normal forms. -/
theorem bookequal_loop_false (fuel : Nat) :
    ∀ a b : List Char, a.length + b.length < fuel →
      rsv2ce_bookequal_loop false fuel a b = decide (norm a = norm b) := by
  induction fuel with
  | zero => intro a b h; omega
  | succ n ih =>
    intro a b h
    unfold rsv2ce_bookequal_loop
    cases a with
    | nil =>
      cases b with
      | nil => simp
      | cons y b =>
        by_cases hy : y = ' '
        · subst hy
          have := ih [] b (by simp at h ⊢; omega)
          simp [this, norm_cons_space]
        · simp [hy, tolower, norm_cons_of_ne, norm_nil]
    | cons x a =>
      by_cases hx : x = ' '
      · subst hx
        have := ih a b (by simp at h ⊢; omega)
        simp [this, norm_cons_space]
      · cases b with
        | nil => simp [hx, tolower, norm_cons_of_ne, norm_nil]
        | cons y b =>
          by_cases hy : y = ' '
          · subst hy
            have := ih (x :: a) b (by simp at h ⊢; omega)
            simp [hx, this, norm_cons_space]
          · by_cases hxy : x.toLower = y.toLower
            · have := ih a b (by simp at h ⊢; omega)
              simp [hx, hy, tolower, hxy, this, norm_cons_of_ne]
            · simp [hx, hy, tolower, hxy, norm_cons_of_ne]

/-- The loop with `short_match` decides whether the normal form of `b` is a
prefix of the normal form of `a`. -/
theorem bookequal_loop_true (fuel : Nat) :
    ∀ a b : List Char, a.length + b.length < fuel →
      rsv2ce_bookequal_loop true fuel a b = (norm b).isPrefixOf (norm a) := by
  induction fuel with
  | zero => intro a b h; omega
  | succ n ih =>
    intro a b h
    unfold rsv2ce_bookequal_loop
    cases a with
    | nil =>
      cases b with
      | nil => simp [norm_nil]
      | cons y b =>
        by_cases hy : y = ' '
        · subst hy
          have := ih [] b (by simp at h ⊢; omega)
          simp [this, norm_cons_space]
        · simp [hy, tolower, norm_cons_of_ne, norm_nil]
    | cons x a =>
      by_cases hx : x = ' '
      · subst hx
        cases b with
        | nil => simp [norm_nil]
        | cons y b =>
          have := ih a (y :: b) (by simp at h ⊢; omega)
          simp [this, norm_cons_space]
      · cases b with
        | nil => simp [norm_nil]
        | cons y b =>
          by_cases hy : y = ' '
          · subst hy
            have := ih (x :: a) b (by simp at h ⊢; omega)
            simp [hx, this, norm_cons_space]
          · by_cases hxy : x.toLower = y.toLower
            · have := ih a b (by simp at h ⊢; omega)
              simp [hx, hy, tolower, hxy, this, norm_cons_of_ne]
            · have hyx : ¬ y.toLower = x.toLower := fun h => hxy h.symm
              simp [hx, hy, tolower, hxy, hyx, norm_cons_of_ne, List.isPrefixOf]

theorem bookequal_false_eq (a b : List Char) :
    rsv2ce_bookequal a b false = decide (norm a = norm b) :=
  bookequal_loop_false _ a b (Nat.lt_succ_self _)

theorem bookequal_true_eq (a b : List Char) :
    rsv2ce_bookequal a b true = (norm b).isPrefixOf (norm a) :=
  bookequal_loop_true _ a b (Nat.lt_succ_self _)

/-- What `rsv2ce_book_matches` decides, in terms of normal forms. -/
theorem book_matches_eq (book : rsv2ce_book) (s : List Char) :
    rsv2ce_book_matches book s = qualifies s book := by
  unfold rsv2ce_book_matches qualifies
  rw [bookequal_false_eq, bookequal_false_eq, bookequal_true_eq]
  by_cases h1 : norm book.name = norm s
  · simp [h1, List.isPrefixOf_iff_prefix]
  · by_cases h2 : norm book.abbr = norm s
    · simp [h2]
    · have h3 : ¬ norm s = norm book.abbr := fun h => h2 h.symm
      simp [h1, h2, h3]

theorem book_fromname_eq_resolveSpec (books : List rsv2ce_book) (token : List Char) :
    rsv2ce_book_fromname books token = resolveSpec books token := by
  induction books with
  | nil => rfl
  | cons b rest ih =>
    unfold rsv2ce_book_fromname resolveSpec
    rw [book_matches_eq, List.find?_cons]
    cases hq : qualifies token b
    · simpa [resolveSpec] using ih
    · simp

/-- The resolver depends on its token only through the normal form. -/
theorem book_fromname_congr (books : List rsv2ce_book) (s t : List Char)
    (h : norm s = norm t) :
    rsv2ce_book_fromname books s = rsv2ce_book_fromname books t := by
  rw [book_fromname_eq_resolveSpec, book_fromname_eq_resolveSpec]
  have hq : qualifies s = qualifies t := by
    funext b
    simp [qualifies, h]
  unfold resolveSpec
  rw [hq]

/-! ## Scanning: lemmas -/

theorem digit_toNat (c : Char) (h : isDigit c = true) : 48 ≤ c.toNat ∧ c.toNat ≤ 57 := by
  simp only [isDigit, decide_eq_true_eq] at h
  have h1 : ('0' : Char).toNat ≤ c.toNat := h.1
  have h2 : c.toNat ≤ ('9' : Char).toNat := h.2
  exact ⟨h1, h2⟩

theorem letter_toNat (c : Char) (h : isLetter c = true) :
    (97 ≤ c.toNat ∧ c.toNat ≤ 122) ∨ (65 ≤ c.toNat ∧ c.toNat ≤ 90) := by
  simp only [isLetter, decide_eq_true_eq] at h
  rcases h with h | h
  · left; exact ⟨(h.1 : ('a' : Char).toNat ≤ c.toNat), (h.2 : c.toNat ≤ ('z' : Char).toNat)⟩
  · right; exact ⟨(h.1 : ('A' : Char).toNat ≤ c.toNat), (h.2 : c.toNat ≤ ('Z' : Char).toNat)⟩

theorem digit_not_letter (c : Char) (h : isDigit c = true) : isLetter c = false := by
  have hd := digit_toNat c h
  cases hl : isLetter c
  · rfl
  · have := letter_toNat c hl
    omega

theorem digit_ne (c d : Char) (h : isDigit c = true) (hd : isDigit d = false) : c ≠ d := by
  intro e; subst e; rw [h] at hd; cases hd

theorem digit_not_space (c : Char) (h : isDigit c = true) : isspace c = false := by
  have hd := digit_toNat c h
  cases hs : isspace c
  · rfl
  · simp only [isspace, Bool.or_eq_true, decide_eq_true_eq] at hs
    rcases hs with ((((hs | hs) | hs) | hs) | hs) | hs <;> (subst hs; revert h; decide)

theorem takeWhile_append_stop (p : Char → Bool) (l r : List Char)
    (hl : ∀ c ∈ l, p c = true) (hr : stopsAt p r = true) :
    (l ++ r).takeWhile p = l := by
  induction l with
  | nil =>
    cases r with
    | nil => rfl
    | cons c r => simp [stopsAt] at hr; simp [List.takeWhile, hr]
  | cons x l ih =>
    have hx : p x = true := hl x (List.mem_cons_self _ _)
    simp [List.takeWhile, hx, ih (fun c hc => hl c (List.mem_cons_of_mem _ hc))]

theorem dropWhile_append_stop (p : Char → Bool) (l r : List Char)
    (hl : ∀ c ∈ l, p c = true) (hr : stopsAt p r = true) :
    (l ++ r).dropWhile p = r := by
  induction l with
  | nil =>
    cases r with
    | nil => rfl
    | cons c r => simp [stopsAt] at hr; simp [List.dropWhile, hr]
  | cons x l ih =>
    have hx : p x = true := hl x (List.mem_cons_self _ _)
    simp [List.dropWhile, hx, ih (fun c hc => hl c (List.mem_cons_of_mem _ hc))]

theorem storeU_small (d : Nat) (h : d < 4294967296) : storeU false d = d := by
  unfold storeU
  rw [if_neg (by omega)]
  simp
  omega

theorem numeral_cons (ds : List Char) (h : isNumeral ds = true) :
    ∃ d rest, ds = d :: rest ∧ isDigit d = true ∧ ∀ c ∈ ds, isDigit c = true := by
  cases ds with
  | nil => simp [isNumeral] at h
  | cons d rest =>
    simp [isNumeral] at h
    exact ⟨d, rest, rfl, h.1, by simpa using h⟩

/-- The conversion `%u` on a numeral followed by a non-digit reads the numeral. -/
theorem scanU_numeral (ds r : List Char) (h : isNumeral ds = true)
    (hr : stopsAt isDigit r = true) :
    scanU (ds ++ r) = some (storeU false (numVal ds), r) := by
  obtain ⟨d, rest, rfl, hd, hall⟩ := numeral_cons ds h
  have hsp : isspace d = false := digit_not_space d hd
  have hm : d ≠ '-' := digit_ne d '-' hd (by decide)
  have hp : d ≠ '+' := digit_ne d '+' hd (by decide)
  have htw := takeWhile_append_stop isDigit (d :: rest) r hall hr
  have hdw := dropWhile_append_stop isDigit (d :: rest) r hall hr
  simp only [List.cons_append] at htw hdw
  unfold scanU scanSigned
  simp [List.dropWhile, afterSign, hsp, hm, hp, htw, hdw, numVal]

theorem scanLitU_numeral (lit : Char) (ds r : List Char) (h : isNumeral ds = true)
    (hr : stopsAt isDigit r = true) :
    scanLitU lit (lit :: (ds ++ r)) = some (storeU false (numVal ds), r) := by
  simp [scanLitU, scanU_numeral ds r h hr]

theorem scanLitU_of_head_ne (lit : Char) (s : List Char) (h : s.head? ≠ some lit) :
    scanLitU lit s = none := by
  cases s with
  | nil => rfl
  | cons c s =>
    have : c ≠ lit := by simpa using h
    simp [scanLitU, this]

theorem scanU_nil : scanU [] = none := by decide

/-- The chapter scan of line 167 on an optional colon and a numeral. -/
theorem scan_chapter (colon : Bool) (ds r : List Char) (h : isNumeral ds = true)
    (hr : stopsAt isDigit r = true) :
    (scanLitU ':' (optColon colon ++ (ds ++ r))).orElse (fun _ => scanU (optColon colon ++ (ds ++ r)))
      = some (storeU false (numVal ds), r) := by
  cases colon with
  | true =>
    simp [optColon, scanLitU, scanU_numeral ds r h hr]
  | false =>
    obtain ⟨d, rest, rfl, hd, _⟩ := numeral_cons ds h
    have hc : d ≠ ':' := digit_ne d ':' hd (by decide)
    have := scanU_numeral (d :: rest) r h hr
    simp only [List.cons_append] at this
    simp [optColon, scanLitU, hc, this]
theorem scanbook_loop_pre (pre s : List Char) :
    ∀ i : Nat, (∀ c ∈ pre, (isDigit c || decide (c = ' ')) = true) →
      rsv2ce_scanbook_loop (pre ++ s) i 0 = rsv2ce_scanbook_loop s (i + pre.length) 0 := by
  induction pre with
  | nil => intro i _; simp
  | cons c pre ih =>
    intro i h
    have hc := h c (List.mem_cons_self _ _)
    have ih2 := ih (i + 1) (fun x hx => h x (List.mem_cons_of_mem _ hx))
    simp only [List.cons_append, List.length_cons]
    have hi : i + 1 + pre.length = i + (pre.length + 1) := by omega
    rw [hi] at ih2
    by_cases hs : c = ' '
    · simp [rsv2ce_scanbook_loop, hs, ih2]
    · have hd : isDigit c = true := by simpa [hs] using hc
      have hl := digit_not_letter c hd
      simp [rsv2ce_scanbook_loop, hs, hl, hd, ih2]

theorem scanbook_loop_post1 (post r : List Char) (hr : stopsAt isBookChar r = true) :
    ∀ i : Nat, (∀ c ∈ post, isBookChar c = true) →
      rsv2ce_scanbook_loop (post ++ r) i 1 = (i + post.length, 1) := by
  induction post with
  | nil =>
    intro i _
    cases r with
    | nil => simp [rsv2ce_scanbook_loop]
    | cons c r =>
      simp [stopsAt, isBookChar] at hr
      simp [rsv2ce_scanbook_loop, hr.1, hr.2]
  | cons c post ih =>
    intro i h
    have hc := h c (List.mem_cons_self _ _)
    have ih2 := ih (i + 1) (fun x hx => h x (List.mem_cons_of_mem _ hx))
    simp only [List.cons_append, List.length_cons]
    unfold rsv2ce_scanbook_loop
    by_cases hs : c = ' '
    · simp [hs, ih2]; omega
    · have hl : isLetter c = true := by simpa [isBookChar, hs] using hc
      simp [hs, hl, ih2]; omega

theorem scanbook_loop_post0 (post r : List Char) (hr : stopsAt isBookChar r = true) :
    ∀ i : Nat, (∀ c ∈ post, isBookChar c = true) → post.any isLetter = true →
      rsv2ce_scanbook_loop (post ++ r) i 0 = (i + post.length, 1) := by
  induction post with
  | nil => intro i _ h; simp at h
  | cons c post ih =>
    intro i h hany
    have hc := h c (List.mem_cons_self _ _)
    have hrest : ∀ x ∈ post, isBookChar x = true := fun x hx => h x (List.mem_cons_of_mem _ hx)
    simp only [List.cons_append, List.length_cons]
    unfold rsv2ce_scanbook_loop
    by_cases hs : c = ' '
    · have hany2 : post.any isLetter = true := by
        subst hs
        simpa [show isLetter ' ' = false by decide] using hany
      simp [hs, ih (i + 1) hrest hany2]; omega
    · have hl : isLetter c = true := by simpa [isBookChar, hs] using hc
      simp [hs, hl, scanbook_loop_post1 post r hr (i + 1) hrest]; omega

/-- On a book token followed by a character that is neither a letter nor a
space (or by nothing), `rsv2ce_scanbook` reports a book and stops right after
the token. -/
theorem scanbook_token (t r : List Char) (ht : isBookToken t = true)
    (hr : stopsAt isBookChar r = true) :
    rsv2ce_scanbook (t ++ r) = (true, t.length) := by
  simp only [isBookToken, Bool.and_eq_true] at ht
  have hsplit := List.takeWhile_append_dropWhile (fun c => isDigit c || decide (c = ' ')) t
  have hpre : ∀ c ∈ t.takeWhile (fun c => isDigit c || decide (c = ' ')),
      (isDigit c || decide (c = ' ')) = true := fun c hc =>
    List.mem_takeWhile_imp (p := fun c => isDigit c || decide (c = ' ')) hc
  have hpost : ∀ c ∈ t.dropWhile (fun c => isDigit c || decide (c = ' ')),
      isBookChar c = true := by simpa using ht.1
  have hlen : t.length = (t.takeWhile (fun c => isDigit c || decide (c = ' '))).length +
      (t.dropWhile (fun c => isDigit c || decide (c = ' '))).length := by
    rw [← List.length_append, hsplit]
  unfold rsv2ce_scanbook
  conv_lhs => rw [← hsplit]
  rw [List.append_assoc, scanbook_loop_pre _ _ 0 hpre,
    scanbook_loop_post0 _ r hr _ hpost ht.2]
  simp [hlen]

/-- The parser after a book token: the book is resolved from the token and
parsing goes on with the rest of the input. -/
theorem parseref_book (re : RegexLib) (books : List rsv2ce_book) (t r : List Char)
    (ht : isBookToken t = true) (hr : stopsAt isBookChar r = true) :
    rsv2ce_parseref re books (t ++ r) =
      parseref_afterbook re
        { ref_cleared with book := toU32 (rsv2ce_book_fromname books t) } r := by
  unfold rsv2ce_parseref
  simp [scanbook_token t r ht hr]
/-! ## Parser stages on well-formed input -/

theorem stopsAt_bookChar_chapter (colon : Bool) (ds r : List Char) (h : isNumeral ds = true) :
    stopsAt isBookChar (optColon colon ++ (ds ++ r)) = true := by
  obtain ⟨d, rest, rfl, hd, _⟩ := numeral_cons ds h
  have hl := digit_not_letter d hd
  have hs : d ≠ ' ' := digit_ne d ' ' hd (by decide)
  cases colon
  · simp [optColon, stopsAt, isBookChar, hl, hs]
  · simp [optColon, stopsAt, isBookChar]
    decide

theorem stopsAt_digit_cons (c : Char) (r : List Char) (h : isDigit c = false) :
    stopsAt isDigit (c :: r) = true := by
  simp [stopsAt, h]

theorem afterbook_nil (re : RegexLib) (ref : rsv2ce_ref) :
    parseref_afterbook re ref [] = (0, { ref with type := RSV2CE_REF_EXACT }) := by
  simp [parseref_afterbook, scanLitU, scanU_nil]

theorem afterbook_chapter (re : RegexLib) (ref : rsv2ce_ref) (colon : Bool) (ds r : List Char)
    (h : isNumeral ds = true) (hr : stopsAt isDigit r = true) :
    parseref_afterbook re ref (optColon colon ++ (ds ++ r)) =
      parseref_afterchapter re { ref with chapter := storeU false (numVal ds) } r := by
  unfold parseref_afterbook
  rw [scan_chapter colon ds r h hr]

theorem afterbook_search (re : RegexLib) (ref : rsv2ce_ref) (p : List Char) :
    parseref_afterbook re ref ('/' :: p) = parseref_search re ref ('/' :: p) := by
  have h1 : scanLitU ':' ('/' :: p) = none := scanLitU_of_head_ne _ _ (by simp)
  have h2 : scanU ('/' :: p) = none := by
    simp [scanU, scanSigned, afterSign, List.dropWhile, show isspace '/' = false by decide,
      List.takeWhile, show isDigit '/' = false by decide]
  simp [parseref_afterbook, h1, h2]

theorem afterchapter_nil (re : RegexLib) (ref : rsv2ce_ref) :
    parseref_afterchapter re ref [] = (0, { ref with type := RSV2CE_REF_EXACT }) := by
  simp [parseref_afterchapter, scanLitU]

theorem afterchapter_verse (re : RegexLib) (ref : rsv2ce_ref) (ds r : List Char)
    (h : isNumeral ds = true) (hr : stopsAt isDigit r = true) :
    parseref_afterchapter re ref (':' :: (ds ++ r)) =
      parseref_afterverse { ref with verse := storeU false (numVal ds) } r := by
  unfold parseref_afterchapter
  rw [scanLitU_numeral ':' ds r h hr]

theorem afterchapter_range (re : RegexLib) (ref : rsv2ce_ref) (ds : List Char)
    (h : isNumeral ds = true) :
    parseref_afterchapter re ref ('-' :: ds) =
      (0, { ref with chapter_end := storeU false (numVal ds), type := RSV2CE_REF_RANGE }) := by
  have h1 : scanLitU ':' ('-' :: ds) = none := scanLitU_of_head_ne _ _ (by simp)
  have h2 := scanLitU_numeral '-' ds [] h rfl
  simp only [List.append_nil] at h2
  simp [parseref_afterchapter, h1, h2]

theorem afterchapter_search (re : RegexLib) (ref : rsv2ce_ref) (p : List Char) :
    parseref_afterchapter re ref ('/' :: p) = parseref_search re ref ('/' :: p) := by
  have h1 : scanLitU ':' ('/' :: p) = none := scanLitU_of_head_ne _ _ (by simp)
  have h2 : scanLitU '-' ('/' :: p) = none := scanLitU_of_head_ne _ _ (by simp)
  simp [parseref_afterchapter, h1, h2]

theorem afterverse_nil (ref : rsv2ce_ref) :
    parseref_afterverse ref [] = (0, { ref with type := RSV2CE_REF_EXACT }) := by
  simp [parseref_afterverse, scanLitU]

theorem afterverse_range (ref : rsv2ce_ref) (ds : List Char) (h : isNumeral ds = true) :
    parseref_afterverse ref ('-' :: ds) =
      (0, { ref with verse_end := storeU false (numVal ds), type := RSV2CE_REF_RANGE }) := by
  have h2 := scanLitU_numeral '-' ds [] h rfl
  simp only [List.append_nil] at h2
  simp [parseref_afterverse, h2]

theorem afterverse_ext (ref : rsv2ce_ref) (ds r : List Char) (h : isNumeral ds = true)
    (hr : stopsAt isDigit r = true) (hne : r ≠ []) :
    parseref_afterverse ref ('-' :: (ds ++ r)) =
      parseref_ext { ref with chapter_end := storeU false (numVal ds) } r := by
  have h2 := scanLitU_numeral '-' ds r h hr
  have h3 : r.head? ≠ none := by
    cases r with
    | nil => exact absurd rfl hne
    | cons c r => simp
  simp [parseref_afterverse, h2, h3]

theorem ext_verse (ref : rsv2ce_ref) (ds : List Char) (h : isNumeral ds = true) :
    parseref_ext ref (':' :: ds) =
      (0, { ref with verse_end := storeU false (numVal ds), type := RSV2CE_REF_RANGE_EXT }) := by
  have h2 := scanLitU_numeral ':' ds [] h rfl
  simp only [List.append_nil] at h2
  simp [parseref_ext, h2]
theorem toU32_pos (x : Int) (h0 : 0 ≤ x) (h1 : x ≤ 2147483647) : toU32 x = x.toNat := by
  unfold toU32
  omega

theorem book_fromname_range (books : List rsv2ce_book) (s : List Char)
    (hb : booksOneBased books) :
    0 ≤ rsv2ce_book_fromname books s ∧ rsv2ce_book_fromname books s ≤ 2147483647 := by
  induction books with
  | nil => simp [rsv2ce_book_fromname]
  | cons b rest ih =>
    unfold rsv2ce_book_fromname
    split
    · have := hb b (List.mem_cons_self _ _)
      omega
    · exact ih (fun x hx => hb x (List.mem_cons_of_mem _ hx))

/-- What an Exact query decides on a verse of the data model. -/
theorem exact_matches_iff (re : RegexLib) (ref : rsv2ce_ref) (verse : rsv2ce_verse)
    (ht : ref.type = RSV2CE_REF_EXACT) (hv : verseOneBased verse) :
    rsv2ce_verse_matches re ref verse = true ↔
      (verse.book = (ref.book : Int)) ∧
      (ref.chapter = 0 ∨ verse.chapter = (ref.chapter : Int)) ∧
      (ref.verse = 0 ∨ verse.verse = (ref.verse : Int)) := by
  obtain ⟨b0, b1, c0, c1, v0, v1⟩ := hv
  unfold rsv2ce_verse_matches
  simp only [ht, RSV2CE_REF_EXACT, RSV2CE_REF_SEARCH]
  simp only [toU32_pos verse.book (by omega) b1, toU32_pos verse.chapter (by omega) c1,
    toU32_pos verse.verse (by omega) v1]
  simp
  omega
/-- What a Range query decides on a verse of the data model. -/
theorem range_matches_iff (re : RegexLib) (ref : rsv2ce_ref) (verse : rsv2ce_verse)
    (ht : ref.type = RSV2CE_REF_RANGE) (hv : verseOneBased verse) :
    rsv2ce_verse_matches re ref verse = true ↔
      (verse.book = (ref.book : Int)) ∧
      ((ref.chapter_end = 0 ∧ verse.chapter = (ref.chapter : Int)) ∨
        ((ref.chapter : Int) ≤ verse.chapter ∧ verse.chapter ≤ (ref.chapter_end : Int))) ∧
      (ref.verse = 0 ∨ (ref.verse : Int) ≤ verse.verse) ∧
      (ref.verse_end = 0 ∨ verse.verse ≤ (ref.verse_end : Int)) := by
  obtain ⟨b0, b1, c0, c1, v0, v1⟩ := hv
  unfold rsv2ce_verse_matches
  simp only [ht, RSV2CE_REF_EXACT, RSV2CE_REF_SEARCH, RSV2CE_REF_RANGE, RSV2CE_REF_EXACT_SET]
  simp only [toU32_pos verse.book (by omega) b1, toU32_pos verse.chapter (by omega) c1,
    toU32_pos verse.verse (by omega) v1]
  simp
  omega
theorem scanSigned_end (s : List Char) :
    (∃ w, scanSigned s = some (w, [])) ↔
      isNumeral (afterSign s) = true := by
  unfold scanSigned
  generalize afterSign s = body
  cases body with
  | nil => simp [isNumeral]
  | cons x body =>
    by_cases hx : isDigit x = true
    · simp [List.takeWhile, List.dropWhile, hx, isNumeral, List.dropWhile_eq_nil_iff]
    · simp [List.takeWhile, hx, isNumeral]

/-- The closing stage of form 6 accepts exactly the tails `isExtTail` describes. -/
theorem ext_result (ref : rsv2ce_ref) (r : List Char) :
    (parseref_ext ref r).1 = if isExtTail r = true then 0 else 1 := by
  cases r with
  | nil => simp [parseref_ext, scanLitU, isExtTail]
  | cons c rest =>
    by_cases hc : c = ':'
    · subst hc
      have key := scanSigned_end (rest.dropWhile isspace)
      unfold parseref_ext
      simp only [scanLitU, if_true, scanU, isExtTail, decide_True, Bool.true_and,
        isUnsignedField]
      cases h : scanSigned (rest.dropWhile isspace) with
      | none =>
        have : ¬ ∃ w, scanSigned (rest.dropWhile isspace) = some (w, []) := by
          rw [h]; simp
        rw [key] at this
        simp [this]
      | some p =>
        obtain ⟨w, tl⟩ := p
        cases tl with
        | nil =>
          have : ∃ w, scanSigned (rest.dropWhile isspace) = some (w, []) := ⟨w, h⟩
          rw [key] at this
          simp [this]
        | cons y tl =>
          have : ¬ ∃ w, scanSigned (rest.dropWhile isspace) = some (w, []) := by
            rw [h]; simp
          rw [key] at this
          simp [this]
    · simp [parseref_ext, scanLitU, hc, isExtTail]

theorem scanU_none_iff (s : List Char) : scanU s = none ↔ startsNumber s = false := by
  unfold scanU scanSigned startsNumber
  generalize afterSign (s.dropWhile isspace) = body
  cases body with
  | nil => simp
  | cons x body =>
    by_cases hx : isDigit x = true
    · simp [List.takeWhile, hx]
    · simp [List.takeWhile, hx]

theorem scanLitU_comma_none_iff (r : List Char) :
    scanLitU ',' r = none ↔ startsCommaNumber r = false := by
  cases r with
  | nil => simp [scanLitU, startsCommaNumber]
  | cons c rest =>
    by_cases hc : c = ','
    · simp [scanLitU, startsCommaNumber, hc, scanU_none_iff]
    · simp [scanLitU, startsCommaNumber, hc]

theorem mem_intset_add (s : intset) (x y : Nat) : y ∈ intset_add s x ↔ y ∈ s ∨ y = x := by
  unfold intset_add
  split
  · constructor
    · intro h; exact Or.inl h
    · rintro (h | h)
      · exact h
      · subst h; assumption
  · simp

theorem mem_foldl_intset_add (ws : List (List Char)) :
    ∀ (s : intset) (y : Nat),
      y ∈ ws.foldl (fun s w => intset_add s (numVal w)) s ↔ y ∈ s ∨ ∃ w ∈ ws, y = numVal w := by
  induction ws with
  | nil => intro s y; simp
  | cons w ws ih =>
    intro s y
    simp only [List.foldl_cons, ih, mem_intset_add, List.mem_cons]
    constructor
    · rintro ((h | h) | ⟨w', hw', h⟩)
      · exact Or.inl h
      · exact Or.inr ⟨w, Or.inl rfl, h⟩
      · exact Or.inr ⟨w', Or.inr hw', h⟩
    · rintro (h | ⟨w', hw' | hw', h⟩)
      · exact Or.inl (Or.inl h)
      · subst hw'; exact Or.inl (Or.inr h)
      · exact Or.inr ⟨w', hw', h⟩

theorem mem_verseSetOf (v : List Char) (ws : List (List Char)) (y : Nat) :
    y ∈ verseSetOf v ws ↔ y = numVal v ∨ ∃ w ∈ ws, y = numVal w := by
  unfold verseSetOf
  rw [mem_foldl_intset_add, mem_intset_add]
  simp [intset_new]

theorem stopsAt_digit_commaList (ws : List (List Char)) (r : List Char)
    (hr : stopsAt isDigit r = true) : stopsAt isDigit (commaList ws ++ r) = true := by
  cases ws with
  | nil => simpa [commaList] using hr
  | cons w ws => simp [commaList, stopsAt]; decide

theorem length_commaList (ws : List (List Char)) : ws.length ≤ (commaList ws).length := by
  induction ws with
  | nil => simp
  | cons w ws ih => simp [commaList]; omega

/-- The loop of form 3a on a list of comma-numbers followed by input `r` that
starts no further comma-number: every number is added and `r` is left. -/
theorem setloop_commaList (ws : List (List Char)) (r : List Char)
    (hws : ∀ w ∈ ws, isNumeral w = true ∧ numVal w < 4294967296)
    (hr : stopsAt isDigit r = true) (hstop : scanLitU ',' r = none) :
    ∀ (fuel : Nat) (set : intset), ws.length ≤ fuel →
      parseref_setloop fuel set (commaList ws ++ r) =
        (ws.foldl (fun s w => intset_add s (numVal w)) set, r) := by
  induction ws with
  | nil =>
    intro fuel set _
    cases fuel with
    | zero => simp [parseref_setloop, commaList]
    | succ n => simp [parseref_setloop, commaList, hstop]
  | cons w ws ih =>
    intro fuel set hf
    have hw := hws w (List.mem_cons_self _ _)
    have hrest : ∀ x ∈ ws, isNumeral x = true ∧ numVal x < 4294967296 :=
      fun x hx => hws x (List.mem_cons_of_mem _ hx)
    cases fuel with
    | zero => simp at hf
    | succ n =>
      have hscan := scanLitU_numeral ',' w (commaList ws ++ r) hw.1
        (stopsAt_digit_commaList ws r hr)
      simp only [commaList, List.cons_append, List.append_assoc, parseref_setloop, hscan,
        storeU_small _ hw.2, List.foldl_cons]
      exact ih hrest n _ (by simpa using hf)

/-- What an ExactSet query decides on a verse of the data model. -/
theorem exactset_matches_iff (re : RegexLib) (ref : rsv2ce_ref) (verse : rsv2ce_verse)
    (set : intset) (ht : ref.type = RSV2CE_REF_EXACT_SET) (hs : ref.verse_set = some set)
    (hv : verseOneBased verse) :
    rsv2ce_verse_matches re ref verse = true ↔
      (verse.book = (ref.book : Int)) ∧
      (ref.chapter = 0 ∨ verse.chapter = (ref.chapter : Int)) ∧
      verse.verse.toNat ∈ set := by
  obtain ⟨b0, b1, c0, c1, v0, v1⟩ := hv
  unfold rsv2ce_verse_matches
  simp only [ht, hs, RSV2CE_REF_EXACT, RSV2CE_REF_SEARCH, RSV2CE_REF_EXACT_SET]
  simp only [toU32_pos verse.book (by omega) b1, toU32_pos verse.chapter (by omega) c1,
    toU32_pos verse.verse (by omega) v1, intset_contains]
  simp
  constructor
  · rintro ⟨⟨h1, h2⟩, h3⟩
    exact ⟨by omega, by omega, h3⟩
  · rintro ⟨h1, h2, h3⟩
    exact ⟨⟨by omega, by omega⟩, h3⟩

/-- The stage after `<chapter>:<verse>` on a comma list of numerals followed
by `r`. -/
theorem afterverse_set (ref : rsv2ce_ref) (w : List Char) (ws : List (List Char))
    (r : List Char) (hw : isNumeral w = true ∧ numVal w < 4294967296)
    (hws : ∀ x ∈ ws, isNumeral x = true ∧ numVal x < 4294967296)
    (hr : stopsAt isDigit r = true) (hstop : scanLitU ',' r = none) :
    parseref_afterverse ref (commaList (w :: ws) ++ r) =
      if r.head? ≠ none then
        (1, { ref with
                verse_set := some ((w :: ws).foldl (fun s x => intset_add s (numVal x))
                  (intset_add intset_new ref.verse)) })
      else
        (0, { ref with
                verse_set := some ((w :: ws).foldl (fun s x => intset_add s (numVal x))
                  (intset_add intset_new ref.verse)),
                type := RSV2CE_REF_EXACT_SET }) := by
  have h1 : scanLitU '-' (',' :: (w ++ (commaList ws ++ r))) = none :=
    scanLitU_of_head_ne _ _ (by simp)
  have hscan := scanLitU_numeral ',' w (commaList ws ++ r) hw.1
    (stopsAt_digit_commaList ws r hr)
  have hloop := setloop_commaList ws r hws hr hstop (commaList ws ++ r).length
    (intset_add (intset_add intset_new ref.verse) (numVal w))
    (by rw [List.length_append]; have := length_commaList ws; omega)
  simp only [commaList, List.cons_append, List.append_assoc]
  unfold parseref_afterverse
  simp only [h1, hscan, storeU_small _ hw.2, hloop, List.foldl_cons]
  simp
theorem search_result (re : RegexLib) (ref : rsv2ce_ref) (p : List Char) :
    ((parseref_search re ref ('/' :: p)).1 = 2 ↔ re.compiles p = false) ∧
    (re.compiles p = true →
      parseref_search re ref ('/' :: p) =
        (0, { ref with type := RSV2CE_REF_SEARCH, search_str := some p, search := some p })) := by
  unfold parseref_search
  cases h : re.compiles p <;> simp [h]

theorem parseref_slash (re : RegexLib) (books : List rsv2ce_book) (p : List Char) :
    rsv2ce_parseref re books ('/' :: p) = parseref_search re ref_cleared ('/' :: p) := by
  have h : rsv2ce_scanbook ('/' :: p) = (false, 0) := by
    simp [rsv2ce_scanbook, rsv2ce_scanbook_loop, show isLetter '/' = false by decide,
      show isDigit '/' = false by decide]
  simp [rsv2ce_parseref, h]

theorem stopsAt_bookChar_slash (p : List Char) : stopsAt isBookChar ('/' :: p) = true := by
  simp [stopsAt, isBookChar]
  decide
/-! ## The book field through the parser -/

theorem book_fromname_first (books : List rsv2ce_book) (token : List Char) :
    ∀ (pre : List rsv2ce_book) (b : rsv2ce_book) (post : List rsv2ce_book),
      books = pre ++ b :: post → (∀ x ∈ pre, qualifies token x = false) →
      qualifies token b = true → rsv2ce_book_fromname books token = b.number := by
  intro pre
  induction pre generalizing books with
  | nil =>
    intro b post hbooks _ hq
    subst hbooks
    simp [rsv2ce_book_fromname, book_matches_eq, hq]
  | cons x pre ih =>
    intro b post hbooks hpre hq
    subst hbooks
    have hx := hpre x (List.mem_cons_self _ _)
    simp only [List.cons_append, rsv2ce_book_fromname, book_matches_eq, hx]
    exact ih _ b post rfl (fun y hy => hpre y (List.mem_cons_of_mem _ hy)) hq

theorem book_fromname_none (books : List rsv2ce_book) (token : List Char)
    (h : ∀ x ∈ books, qualifies token x = false) : rsv2ce_book_fromname books token = 0 := by
  induction books with
  | nil => rfl
  | cons x rest ih =>
    have hx := h x (List.mem_cons_self _ _)
    simp only [rsv2ce_book_fromname, book_matches_eq, hx]
    exact ih (fun y hy => h y (List.mem_cons_of_mem _ hy))
/-- What a RangeExt query decides on a verse of the data model when the start
chapter does not exceed the end chapter: the inclusive lexicographic span. -/
theorem rangeext_matches_of_le (re : RegexLib) (ref : rsv2ce_ref) (verse : rsv2ce_verse)
    (ht : ref.type = RSV2CE_REF_RANGE_EXT) (hv : verseOneBased verse)
    (hle : ref.chapter ≤ ref.chapter_end) :
    rsv2ce_verse_matches re ref verse = true ↔
      verse.book = (ref.book : Int) ∧
        inSpan ref.chapter ref.verse ref.chapter_end ref.verse_end
          verse.chapter verse.verse = true := by
  obtain ⟨b0, b1, c0, c1, v0, v1⟩ := hv
  unfold rsv2ce_verse_matches inSpan
  simp only [ht, RSV2CE_REF_EXACT, RSV2CE_REF_SEARCH, RSV2CE_REF_RANGE, RSV2CE_REF_EXACT_SET,
    RSV2CE_REF_RANGE_EXT]
  simp only [toU32_pos verse.book (by omega) b1, toU32_pos verse.chapter (by omega) c1,
    toU32_pos verse.verse (by omega) v1]
  simp
  omega

/-- What a RangeExt query decides when the start chapter exceeds the end
chapter: the tail of the start chapter and the head of the end chapter. -/
theorem rangeext_matches_of_gt (re : RegexLib) (ref : rsv2ce_ref) (verse : rsv2ce_verse)
    (ht : ref.type = RSV2CE_REF_RANGE_EXT) (hv : verseOneBased verse)
    (hgt : ref.chapter_end < ref.chapter) :
    rsv2ce_verse_matches re ref verse = true ↔
      verse.book = (ref.book : Int) ∧
        ((verse.chapter = (ref.chapter : Int) ∧ (ref.verse : Int) ≤ verse.verse) ∨
          (verse.chapter = (ref.chapter_end : Int) ∧ verse.verse ≤ (ref.verse_end : Int))) := by
  obtain ⟨b0, b1, c0, c1, v0, v1⟩ := hv
  unfold rsv2ce_verse_matches
  simp only [ht, RSV2CE_REF_EXACT, RSV2CE_REF_SEARCH, RSV2CE_REF_RANGE, RSV2CE_REF_EXACT_SET,
    RSV2CE_REF_RANGE_EXT]
  simp only [toU32_pos verse.book (by omega) b1, toU32_pos verse.chapter (by omega) c1,
    toU32_pos verse.verse (by omega) v1]
  simp
  omega
/-! ## The iteration bounds built into the loops are never reached -/

theorem chapter_bounds_loop_fuel (verses : List rsv2ce_verse) (direction maximum_steps : Int)
    (hdir : direction = 1 ∨ direction = -1) :
    ∀ (fuel1 fuel2 : Nat) (i steps : Int),
      (direction = 1 → (verses.length : Int) - i ≤ fuel1 ∧ (verses.length : Int) - i ≤ fuel2) →
      (direction = -1 → i + 1 ≤ fuel1 ∧ i + 1 ≤ fuel2) →
      rsv2ce_chapter_bounds_loop verses direction maximum_steps fuel1 i steps =
        rsv2ce_chapter_bounds_loop verses direction maximum_steps fuel2 i steps := by
  intro fuel1
  induction fuel1 with
  | zero =>
    intro fuel2 i steps h1 h2
    cases fuel2 with
    | zero => rfl
    | succ m =>
      have hout : ¬ (0 ≤ i ∧ i < (verses.length : Int)) := by
        rcases hdir with hd | hd
        · have := (h1 hd).1; omega
        · have := (h2 hd).1; omega
      simp [rsv2ce_chapter_bounds_loop, hout]
  | succ n ih =>
    intro fuel2 i steps h1 h2
    cases fuel2 with
    | zero =>
      have hout : ¬ (0 ≤ i ∧ i < (verses.length : Int)) := by
        rcases hdir with hd | hd
        · have := (h1 hd).2; omega
        · have := (h2 hd).2; omega
      simp [rsv2ce_chapter_bounds_loop, hout]
    | succ m =>
      unfold rsv2ce_chapter_bounds_loop
      by_cases hin : 0 ≤ i ∧ i < (verses.length : Int)
      · rw [if_pos hin, if_pos hin]
        split
        · rfl
        · split
          · rfl
          · split
            · rfl
            · apply ih
              · intro hd
                have := h1 hd
                omega
              · intro hd
                have := h2 hd
                omega
      · rw [if_neg hin, if_neg hin]

/-- More iterations than `length + 1` never change the result of
`rsv2ce_chapter_bounds`. -/
theorem chapter_bounds_fuel (verses : List rsv2ce_verse) (i direction maximum_steps : Int)
    (hdir : direction = 1 ∨ direction = -1) (fuel : Nat) (hf : verses.length + 1 ≤ fuel) :
    rsv2ce_chapter_bounds_loop verses direction maximum_steps fuel i 0 =
      rsv2ce_chapter_bounds verses i direction maximum_steps := by
  unfold rsv2ce_chapter_bounds
  by_cases hin : 0 ≤ i ∧ i < (verses.length : Int)
  · apply chapter_bounds_loop_fuel verses direction maximum_steps hdir
    · intro _; constructor <;> omega
    · intro _; constructor <;> (push_cast; omega)
  · cases fuel with
    | zero => omega
    | succ n => simp [rsv2ce_chapter_bounds_loop, hin]

theorem scanSigned_length (s : List Char) (v : Nat) (rest : List Char)
    (h : scanSigned s = some (v, rest)) : rest.length < s.length := by
  unfold scanSigned at h
  have hbody : (afterSign s).length ≤ s.length := by
    unfold afterSign
    split
    · simp
    · exact Nat.le_refl _
  have hsplit := List.takeWhile_append_dropWhile isDigit (afterSign s)
  have hlen := congrArg List.length hsplit
  rw [List.length_append] at hlen
  by_cases hds : (afterSign s).takeWhile isDigit = []
  · simp [hds] at h
  · simp only [hds, if_false, Option.some.injEq, Prod.mk.injEq] at h
    have hpos : 0 < ((afterSign s).takeWhile isDigit).length :=
      List.length_pos.mpr hds
    rw [← h.2]
    omega

theorem scanLitU_length (lit : Char) (s : List Char) (v : Nat) (rest : List Char)
    (h : scanLitU lit s = some (v, rest)) : rest.length < s.length := by
  cases s with
  | nil => simp [scanLitU] at h
  | cons c s =>
    by_cases hc : c = lit
    · simp only [scanLitU, hc, if_true, scanU] at h
      have h1 := scanSigned_length _ v rest h
      have h2 : (s.dropWhile isspace).length ≤ s.length :=
        (List.dropWhile_sublist isspace).length_le
      simp only [List.length_cons]
      omega
    · simp [scanLitU, hc] at h

/-- More iterations than the length of the input never change the result of
the loop of form 3a. -/
theorem setloop_fuel :
    ∀ (fuel1 fuel2 : Nat) (set : intset) (s : List Char),
      s.length ≤ fuel1 → s.length ≤ fuel2 →
      parseref_setloop fuel1 set s = parseref_setloop fuel2 set s := by
  intro fuel1
  induction fuel1 with
  | zero =>
    intro fuel2 set s h1 _
    have hs : s = [] := List.length_eq_zero.mp (by omega)
    subst hs
    cases fuel2 <;> simp [parseref_setloop, scanLitU]
  | succ n ih =>
    intro fuel2 set s h1 h2
    cases fuel2 with
    | zero =>
      have hs : s = [] := List.length_eq_zero.mp (by omega)
      subst hs
      simp [parseref_setloop, scanLitU]
    | succ m =>
      unfold parseref_setloop
      cases hscan : scanLitU ',' s with
      | none => rfl
      | some p =>
        obtain ⟨v, rest⟩ := p
        have := scanLitU_length ',' s v rest hscan
        exact ih m _ rest (by omega) (by omega)
theorem scanbook_loop_noletter (s : List Char) :
    ∀ i : Nat, (∀ c ∈ s, isLetter c = false) → (rsv2ce_scanbook_loop s i 0).2 = 0 := by
  induction s with
  | nil => intro i _; rfl
  | cons c s ih =>
    intro i h
    have hc := h c (List.mem_cons_self _ _)
    have ih2 := ih (i + 1) (fun x hx => h x (List.mem_cons_of_mem _ hx))
    unfold rsv2ce_scanbook_loop
    by_cases hs : c = ' '
    · simp [hs, ih2]
    · by_cases hd : isDigit c = true
      · simp [hs, hc, hd, ih2]
      · simp [hs, hc, hd]

theorem afterverse_reject (ref : rsv2ce_ref) (s : List Char) (hne : s ≠ [])
    (h1 : s.head? ≠ some '-') (h2 : s.head? ≠ some ',') :
    parseref_afterverse ref s = (1, ref) := by
  have hhead : s.head? ≠ none := by
    cases s with
    | nil => exact absurd rfl hne
    | cons x r => simp
  simp [parseref_afterverse, scanLitU_of_head_ne '-' s h1, scanLitU_of_head_ne ',' s h2, hhead]

/-! ## `rsv2ce_chapter_bounds`: what the loop computes -/

theorem chapter_bounds_after_loop (verses : List rsv2ce_verse) (maxs : Int) :
    ∀ (fuel : Nat) (i steps : Int), 0 ≤ i → i < verses.length →
      (verses.length : Int) - i ≤ fuel →
      i ≤ rsv2ce_chapter_bounds_loop verses 1 maxs fuel i steps ∧
      rsv2ce_chapter_bounds_loop verses 1 maxs fuel i steps < verses.length ∧
      (∀ j, i ≤ j → j < rsv2ce_chapter_bounds_loop verses 1 maxs fuel i steps →
        adjSame verses j = true) ∧
      (maxs ≠ -1 → steps ≤ maxs →
        steps + (rsv2ce_chapter_bounds_loop verses 1 maxs fuel i steps - i) ≤ maxs) ∧
      (maxs ≠ -1 → maxs ≤ steps →
        rsv2ce_chapter_bounds_loop verses 1 maxs fuel i steps = i) ∧
      (rsv2ce_chapter_bounds_loop verses 1 maxs fuel i steps + 1 = verses.length ∨
        adjSame verses (rsv2ce_chapter_bounds_loop verses 1 maxs fuel i steps) = false ∨
        (maxs ≠ -1 ∧
          maxs ≤ steps + (rsv2ce_chapter_bounds_loop verses 1 maxs fuel i steps - i))) := by
  intro fuel
  induction fuel with
  | zero => intro i steps h0 h1 hf; simp at hf; omega
  | succ n ih =>
    intro i steps h0 h1 hf
    unfold rsv2ce_chapter_bounds_loop
    rw [if_pos ⟨h0, h1⟩]
    by_cases hstop : maxs ≠ -1 ∧ steps ≥ maxs
    · rw [if_pos hstop]
      refine ⟨le_refl _, h1, ?_, ?_, ?_, ?_⟩
      · intro j hj1 hj2; omega
      · intro _ _; omega
      · intro _ _; rfl
      · right; right; exact ⟨hstop.1, by omega⟩
    · rw [if_neg hstop]
      by_cases hend : ((1 : Int) = -1 ∧ i = 0) ∨ ((1 : Int) = 1 ∧ i + 1 = verses.length)
      · rw [if_pos hend]
        have hL : i + 1 = verses.length := by
          rcases hend with h | h
          · omega
          · exact h.2
        refine ⟨le_refl _, h1, ?_, ?_, ?_, ?_⟩
        · intro j hj1 hj2; omega
        · intro _ _; omega
        · intro _ _; rfl
        · left; exact hL
      · rw [if_neg hend]
        have hL : i + 1 ≠ verses.length := fun h => hend (Or.inr ⟨rfl, h⟩)
        by_cases hdiff : (verseAt verses i).book ≠ (verseAt verses (i + 1)).book ∨
            (verseAt verses i).chapter ≠ (verseAt verses (i + 1)).chapter
        · rw [if_pos hdiff]
          refine ⟨le_refl _, h1, ?_, ?_, ?_, ?_⟩
          · intro j hj1 hj2; omega
          · intro _ _; omega
          · intro _ _; rfl
          · right; left
            simp only [adjSame, decide_eq_false_iff_not]
            intro h
            rcases hdiff with hd | hd
            · exact hd h.1
            · exact hd h.2
        · rw [if_neg hdiff]
          have hadj : adjSame verses i = true := by
            simp only [adjSame, decide_eq_true_eq]
            constructor
            · by_contra h; exact hdiff (Or.inl h)
            · by_contra h; exact hdiff (Or.inr h)
          obtain ⟨a1, a2, a3, a4, a5, a6⟩ := ih (i + 1) (steps + 1) (by omega) (by omega)
            (by push_cast at hf; omega)
          refine ⟨by omega, a2, ?_, ?_, ?_, ?_⟩
          · intro j hj1 hj2
            by_cases hji : j = i
            · rw [hji]; exact hadj
            · exact a3 j (by omega) hj2
          · intro hm hs
            have := a4 hm (by omega)
            omega
          · intro hm hs
            exact absurd ⟨hm, hs⟩ hstop
          · rcases a6 with h | h | h
            · left; exact h
            · right; left; exact h
            · right; right; exact ⟨h.1, by omega⟩

theorem chapter_bounds_before_loop (verses : List rsv2ce_verse) (maxs : Int) :
    ∀ (fuel : Nat) (i steps : Int), 0 ≤ i → i < verses.length → i + 1 ≤ fuel →
      rsv2ce_chapter_bounds_loop verses (-1) maxs fuel i steps ≤ i ∧
      0 ≤ rsv2ce_chapter_bounds_loop verses (-1) maxs fuel i steps ∧
      (∀ j, rsv2ce_chapter_bounds_loop verses (-1) maxs fuel i steps ≤ j → j < i →
        adjSame verses j = true) ∧
      (maxs ≠ -1 → steps ≤ maxs →
        steps + (i - rsv2ce_chapter_bounds_loop verses (-1) maxs fuel i steps) ≤ maxs) ∧
      (maxs ≠ -1 → maxs ≤ steps →
        rsv2ce_chapter_bounds_loop verses (-1) maxs fuel i steps = i) ∧
      (rsv2ce_chapter_bounds_loop verses (-1) maxs fuel i steps = 0 ∨
        adjSame verses (rsv2ce_chapter_bounds_loop verses (-1) maxs fuel i steps - 1) = false ∨
        (maxs ≠ -1 ∧
          maxs ≤ steps + (i - rsv2ce_chapter_bounds_loop verses (-1) maxs fuel i steps))) := by
  intro fuel
  induction fuel with
  | zero => intro i steps h0 h1 hf; simp at hf; omega
  | succ n ih =>
    intro i steps h0 h1 hf
    unfold rsv2ce_chapter_bounds_loop
    rw [if_pos ⟨h0, h1⟩]
    by_cases hstop : maxs ≠ -1 ∧ steps ≥ maxs
    · rw [if_pos hstop]
      refine ⟨le_refl _, h0, ?_, ?_, ?_, ?_⟩
      · intro j hj1 hj2; omega
      · intro _ _; omega
      · intro _ _; rfl
      · right; right; exact ⟨hstop.1, by omega⟩
    · rw [if_neg hstop]
      by_cases hend : ((-1 : Int) = -1 ∧ i = 0) ∨ ((-1 : Int) = 1 ∧ i + 1 = verses.length)
      · rw [if_pos hend]
        have hz : i = 0 := by
          rcases hend with h | h
          · exact h.2
          · omega
        refine ⟨le_refl _, h0, ?_, ?_, ?_, ?_⟩
        · intro j hj1 hj2; omega
        · intro _ _; omega
        · intro _ _; rfl
        · left; exact hz
      · rw [if_neg hend]
        have hz : i ≠ 0 := fun h => hend (Or.inl ⟨rfl, h⟩)
        have hi1 : i - 1 + 1 = i := by omega
        have hi2 : i + -1 = i - 1 := by omega
        by_cases hdiff : (verseAt verses i).book ≠ (verseAt verses (i + -1)).book ∨
            (verseAt verses i).chapter ≠ (verseAt verses (i + -1)).chapter
        · rw [if_pos hdiff]
          refine ⟨le_refl _, h0, ?_, ?_, ?_, ?_⟩
          · intro j hj1 hj2; omega
          · intro _ _; omega
          · intro _ _; rfl
          · right; left
            simp only [adjSame, decide_eq_false_iff_not, hi1]
            rw [hi2] at hdiff
            intro h
            rcases hdiff with hd | hd
            · exact hd h.1.symm
            · exact hd h.2.symm
        · rw [if_neg hdiff]
          have hadj : adjSame verses (i - 1) = true := by
            simp only [adjSame, decide_eq_true_eq, hi1]
            rw [hi2] at hdiff
            constructor
            · by_contra h; exact hdiff (Or.inl (fun e => h e.symm))
            · by_contra h; exact hdiff (Or.inr (fun e => h e.symm))
          obtain ⟨a1, a2, a3, a4, a5, a6⟩ := ih (i + -1) (steps + 1) (by omega) (by omega)
            (by push_cast at hf; omega)
          refine ⟨by omega, a2, ?_, ?_, ?_, ?_⟩
          · intro j hj1 hj2
            by_cases hji : j = i - 1
            · rw [hji]; exact hadj
            · exact a3 j hj1 (by omega)
          · intro hm hs
            have := a4 hm (by omega)
            omega
          · intro hm hs
            exact absurd ⟨hm, hs⟩ hstop
          · rcases a6 with h | h | h
            · left; exact h
            · right; left; exact h
            · right; right; exact ⟨h.1, by omega⟩

/-- What `winHi` is, for a position `m` of the corpus: the window stays in the
corpus, runs over adjacent entries of one book and chapter, respects the step
limit, and stops only at the corpus end, at a chapter boundary or at the limit. -/
theorem winHi_spec (verses : List rsv2ce_verse) (config : rsv2ce_config) (m : Int)
    (h0 : 0 ≤ m) (h1 : m < verses.length) :
    m ≤ winHi verses config m ∧ winHi verses config m < verses.length ∧
    (∀ j, m ≤ j → j < winHi verses config m → adjSame verses j = true) ∧
    (ctxAfter config ≠ -1 → 0 ≤ ctxAfter config →
      winHi verses config m - m ≤ ctxAfter config) ∧
    (ctxAfter config ≠ -1 → ctxAfter config ≤ 0 → winHi verses config m = m) ∧
    (winHi verses config m + 1 = verses.length ∨
      adjSame verses (winHi verses config m) = false ∨
      (ctxAfter config ≠ -1 ∧ ctxAfter config ≤ winHi verses config m - m)) := by
  have h := chapter_bounds_after_loop verses (ctxAfter config) (verses.length + 1) m 0 h0 h1
    (by push_cast; omega)
  simp only [winHi, rsv2ce_chapter_bounds, RSV2CE_DIRECTION_AFTER]
  obtain ⟨a1, a2, a3, a4, a5, a6⟩ := h
  refine ⟨a1, a2, a3, ?_, ?_, ?_⟩
  · intro hm hs; have := a4 hm hs; omega
  · intro hm hs; exact a5 hm hs
  · rcases a6 with h | h | h
    · left; exact h
    · right; left; exact h
    · right; right; exact ⟨h.1, by omega⟩

theorem winLo_spec (verses : List rsv2ce_verse) (config : rsv2ce_config) (m : Int)
    (h0 : 0 ≤ m) (h1 : m < verses.length) :
    winLo verses config m ≤ m ∧ 0 ≤ winLo verses config m ∧
    (∀ j, winLo verses config m ≤ j → j < m → adjSame verses j = true) ∧
    (ctxBefore config ≠ -1 → 0 ≤ ctxBefore config →
      m - winLo verses config m ≤ ctxBefore config) ∧
    (ctxBefore config ≠ -1 → ctxBefore config ≤ 0 → winLo verses config m = m) ∧
    (winLo verses config m = 0 ∨
      adjSame verses (winLo verses config m - 1) = false ∨
      (ctxBefore config ≠ -1 ∧ ctxBefore config ≤ m - winLo verses config m)) := by
  have h := chapter_bounds_before_loop verses (ctxBefore config) (verses.length + 1) m 0 h0 h1
    (by push_cast; omega)
  simp only [winLo, rsv2ce_chapter_bounds, RSV2CE_DIRECTION_BEFORE]
  obtain ⟨a1, a2, a3, a4, a5, a6⟩ := h
  refine ⟨a1, a2, a3, ?_, ?_, ?_⟩
  · intro hm hs; have := a4 hm hs; omega
  · intro hm hs; exact a5 hm hs
  · rcases a6 with h | h | h
    · left; exact h
    · right; left; exact h
    · right; right; exact ⟨h.1, by omega⟩

/-- Later positions have windows that end no earlier. -/
theorem winHi_mono (verses : List rsv2ce_verse) (config : rsv2ce_config) (m m' : Int)
    (h0 : 0 ≤ m) (hmm : m ≤ m') (h1 : m' < verses.length) :
    winHi verses config m ≤ winHi verses config m' := by
  obtain ⟨a1, a2, a3, a4, a5, a6⟩ := winHi_spec verses config m h0 (by omega)
  obtain ⟨b1, b2, b3, b4, b5, b6⟩ := winHi_spec verses config m' (by omega) h1
  by_contra hlt
  have hlt' : winHi verses config m' < winHi verses config m := by omega
  rcases b6 with h | h | h
  · omega
  · have := a3 (winHi verses config m') (by omega) hlt'
    rw [this] at h
    cases h
  · by_cases hpos : ctxAfter config ≤ 0
    · have := a5 h.1 hpos
      omega
    · have := a4 h.1 (by omega)
      omega

/-- Later positions have windows that start no earlier. -/
theorem winLo_mono (verses : List rsv2ce_verse) (config : rsv2ce_config) (m m' : Int)
    (h0 : 0 ≤ m) (hmm : m ≤ m') (h1 : m' < verses.length) :
    winLo verses config m ≤ winLo verses config m' := by
  obtain ⟨a1, a2, a3, a4, a5, a6⟩ := winLo_spec verses config m h0 (by omega)
  obtain ⟨b1, b2, b3, b4, b5, b6⟩ := winLo_spec verses config m' (by omega) h1
  by_contra hlt
  have hlt' : winLo verses config m' < winLo verses config m := by omega
  rcases a6 with h | h | h
  · omega
  · have := b3 (winLo verses config m - 1) (by omega) (by omega)
    rw [this] at h
    cases h
  · by_cases hpos : ctxBefore config ≤ 0
    · have := b5 h.1 hpos
      omega
    · have := b4 h.1 (by omega)
      omega

/-- What `rsv2ce_next_match` returns from a start position `i >= 0`: -1 when
no position from `i` on matches, otherwise the first matching position. -/
theorem next_match_spec (re : RegexLib) (verses : List rsv2ce_verse) (ref : rsv2ce_ref) :
    ∀ (k : Nat) (i : Int), 0 ≤ i → (verses.length : Int) - i ≤ k →
      (rsv2ce_next_match re ref verses i = -1 ∧
        ∀ j, i ≤ j → ¬ matchAt re verses ref j) ∨
      (i ≤ rsv2ce_next_match re ref verses i ∧
        matchAt re verses ref (rsv2ce_next_match re ref verses i) ∧
        ∀ j, i ≤ j → j < rsv2ce_next_match re ref verses i → ¬ matchAt re verses ref j) := by
  intro k
  induction k with
  | zero =>
    intro i h0 hk
    left
    have hlen : verses.length ≤ i.toNat := by omega
    constructor
    · simp [rsv2ce_next_match, List.drop_eq_nil_of_le hlen, rsv2ce_next_match_loop]
    · intro j hj hm
      have := hm.2.1
      omega
  | succ n ih =>
    intro i h0 hk
    by_cases hin : i < verses.length
    · have hlt : i.toNat < verses.length := by omega
      have hdrop : verses.drop i.toNat = verses[i.toNat] :: verses.drop (i.toNat + 1) :=
        List.drop_eq_getElem_cons hlt
      have hat : verseAt verses i = verses[i.toNat] := by
        simp [verseAt, List.getD_eq_getElem?_getD, List.getElem?_eq_getElem hlt]
      have hnext : rsv2ce_next_match re ref verses (i + 1) =
          rsv2ce_next_match_loop re ref (verses.drop (i.toNat + 1)) (i + 1) := by
        have : (i + 1).toNat = i.toNat + 1 := by omega
        simp [rsv2ce_next_match, this]
      by_cases hm : rsv2ce_verse_matches re ref verses[i.toNat] = true
      · right
        have hr : rsv2ce_next_match re ref verses i = i := by
          unfold rsv2ce_next_match
          rw [hdrop]
          simp only [rsv2ce_next_match_loop, hm, if_true]
        rw [hr]
        refine ⟨le_refl _, ⟨h0, hin, by rw [hat]; exact hm⟩, ?_⟩
        intro j hj1 hj2
        omega
      · have hr : rsv2ce_next_match re ref verses i =
            rsv2ce_next_match re ref verses (i + 1) := by
          rw [hnext]
          unfold rsv2ce_next_match
          rw [hdrop]
          simp only [rsv2ce_next_match_loop, hm]
          rfl
        have hnot : ¬ matchAt re verses ref i := by
          intro h
          have := h.2.2
          rw [hat] at this
          exact hm this
        rw [hr]
        rcases ih (i + 1) (by omega) (by push_cast at hk; omega) with h | h
        · left
          refine ⟨h.1, ?_⟩
          intro j hj
          by_cases hji : j = i
          · rw [hji]; exact hnot
          · exact h.2 j (by omega)
        · right
          refine ⟨by omega, h.2.1, ?_⟩
          intro j hj1 hj2
          by_cases hji : j = i
          · rw [hji]; exact hnot
          · exact h.2.2 j (by omega) hj2
    · left
      have hlen : verses.length ≤ i.toNat := by omega
      constructor
      · simp [rsv2ce_next_match, List.drop_eq_nil_of_le hlen, rsv2ce_next_match_loop]
      · intro j hj hm
        have := hm.2.1
        omega

/-! ## The iterator: one call of `rsv2ce_next_verse` -/

/-- The function `rsv2ce_next_verse` is the composition of its three blocks. -/
theorem next_verse_eq (re : RegexLib) (verses : List rsv2ce_verse) (ref : rsv2ce_ref)
    (config : rsv2ce_config) (next : rsv2ce_next_data) :
    rsv2ce_next_verse re verses ref config next =
      if next.current ≥ verses.length then (-1, next)
      else next_emit (next_scan re verses ref config (next_promote next)) := by
  rfl

theorem promote_current (s : rsv2ce_next_data) : (next_promote s).current = s.current := by
  unfold next_promote
  split <;> rfl

theorem promote_next_match (s : rsv2ce_next_data) :
    (next_promote s).next_match = s.next_match := by
  unfold next_promote
  split <;> rfl

theorem promote_keep (s : rsv2ce_next_data)
    (h : ¬ (s.matches0.start ≠ -1 ∧ s.matches0.end_ ≠ -1 ∧ s.current ≥ s.matches0.end_)) :
    next_promote s = s := by
  unfold next_promote
  rw [if_neg h]

theorem promote_move (s : rsv2ce_next_data)
    (h : s.matches0.start ≠ -1 ∧ s.matches0.end_ ≠ -1 ∧ s.current ≥ s.matches0.end_) :
    (next_promote s).matches0 = s.matches1 ∧ (next_promote s).matches1 = emptyRange := by
  unfold next_promote
  rw [if_pos h]
  exact ⟨rfl, rfl⟩

theorem scan_current (re : RegexLib) (verses : List rsv2ce_verse) (ref : rsv2ce_ref)
    (config : rsv2ce_config) (t : rsv2ce_next_data) :
    (next_scan re verses ref config t).current = t.current := by
  unfold next_scan rsv2ce_next_addrange
  split
  · split
    · split
      · rfl
      · split <;> rfl
    · rfl
  · rfl

theorem scan_skip (re : RegexLib) (verses : List rsv2ce_verse) (ref : rsv2ce_ref)
    (config : rsv2ce_config) (t : rsv2ce_next_data) (h : ¬ scanNeeded verses t) :
    next_scan re verses ref config t = t := by
  unfold next_scan
  unfold scanNeeded at h
  rw [if_neg h]

theorem scan_fail (re : RegexLib) (verses : List rsv2ce_verse) (ref : rsv2ce_ref)
    (config : rsv2ce_config) (t : rsv2ce_next_data)
    (h : rsv2ce_next_match re ref verses t.current = -1) :
    next_scan re verses ref config t = t := by
  unfold next_scan
  split
  · rw [if_neg (by rw [h]; decide)]
  · rfl

theorem scan_found (re : RegexLib) (verses : List rsv2ce_verse) (ref : rsv2ce_ref)
    (config : rsv2ce_config) (t : rsv2ce_next_data) (h : scanNeeded verses t)
    (hr : rsv2ce_next_match re ref verses t.current ≥ 0) :
    (next_scan re verses ref config t).next_match =
        rsv2ce_next_match re ref verses t.current ∧
    (t.matches0.start = -1 ∧ t.matches0.end_ = -1 →
      (next_scan re verses ref config t).matches0 =
          windowOf verses config (rsv2ce_next_match re ref verses t.current) ∧
        (next_scan re verses ref config t).matches1 = t.matches1) ∧
    (¬ (t.matches0.start = -1 ∧ t.matches0.end_ = -1) →
      (windowOf verses config (rsv2ce_next_match re ref verses t.current)).start <
          t.matches0.end_ →
      (next_scan re verses ref config t).matches0 =
          windowOf verses config (rsv2ce_next_match re ref verses t.current) ∧
        (next_scan re verses ref config t).matches1 = t.matches1) ∧
    (¬ (t.matches0.start = -1 ∧ t.matches0.end_ = -1) →
      ¬ ((windowOf verses config (rsv2ce_next_match re ref verses t.current)).start <
          t.matches0.end_) →
      (next_scan re verses ref config t).matches0 = t.matches0 ∧
        (next_scan re verses ref config t).matches1 =
          windowOf verses config (rsv2ce_next_match re ref verses t.current)) := by
  unfold scanNeeded at h
  unfold next_scan
  rw [if_pos h, if_pos hr]
  unfold rsv2ce_next_addrange
  refine ⟨?_, ?_, ?_, ?_⟩
  · split
    · rfl
    · split <;> rfl
  · intro he
    rw [if_pos he]
    exact ⟨rfl, rfl⟩
  · intro he hlt
    rw [if_neg he, if_pos hlt]
    exact ⟨rfl, rfl⟩
  · intro he hlt
    rw [if_neg he, if_neg hlt]
    exact ⟨rfl, rfl⟩

theorem emit_empty (u : rsv2ce_next_data) (h : u.matches0 = emptyRange) :
    next_emit u = (-1, u) := by
  unfold next_emit
  rw [if_pos (by rw [h]; exact ⟨rfl, rfl⟩)]

theorem emit_window (u : rsv2ce_next_data) (h : 0 ≤ u.matches0.start) :
    (next_emit u).1 = max u.current u.matches0.start ∧
    (next_emit u).2.current = max u.current u.matches0.start + 1 ∧
    (next_emit u).2.next_match = u.next_match ∧
    (next_emit u).2.matches0 = u.matches0 ∧
    (next_emit u).2.matches1 = u.matches1 := by
  unfold next_emit
  rw [if_neg (by intro hh; omega)]
  by_cases hc : u.current < u.matches0.start
  · rw [if_pos hc]
    refine ⟨?_, ?_, rfl, rfl, rfl⟩
    · show u.matches0.start = max u.current u.matches0.start
      omega
    · show u.matches0.start + 1 = max u.current u.matches0.start + 1
      omega
  · rw [if_neg hc]
    refine ⟨?_, ?_, rfl, rfl, rfl⟩
    · show u.current = max u.current u.matches0.start
      omega
    · show u.current + 1 = max u.current u.matches0.start + 1
      omega

theorem matchAt_window (re : RegexLib) (verses : List rsv2ce_verse) (ref : rsv2ce_ref)
    (config : rsv2ce_config) (m : Int) (h : matchAt re verses ref m) :
    0 ≤ winLo verses config m ∧ winLo verses config m ≤ m ∧ m ≤ winHi verses config m ∧
      winHi verses config m < verses.length ∧ 0 ≤ m ∧ m < verses.length := by
  have a := winLo_spec verses config m h.1 h.2.1
  have b := winHi_spec verses config m h.1 h.2.1
  exact ⟨a.2.1, a.1, b.1, b.2.1, h.1, h.2.1⟩

/-- Between the cursor and the window of the first match from the cursor on
there is no covered position, once the earlier windows have ended. -/
theorem no_covered_gap (re : RegexLib) (verses : List rsv2ce_verse) (ref : rsv2ce_ref)
    (config : rsv2ce_config) (cur r : Int) (hr : matchAt re verses ref r)
    (hnone : ∀ j, cur ≤ j → j < r → ¬ matchAt re verses ref j)
    (hpast : ∀ m, matchAt re verses ref m → m < cur → winHi verses config m < cur) :
    ∀ j, cur ≤ j → j < winLo verses config r → ¬ covered re verses ref config j := by
  intro j hj1 hj2 hc
  obtain ⟨m, hm, hlo, hhi⟩ := hc
  by_cases h1 : m < cur
  · have := hpast m hm h1
    omega
  · by_cases h2 : m < r
    · exact hnone m (by omega) h2 hm
    · have := winLo_mono verses config r m hr.1 (by omega) hm.2.1
      omega

theorem no_covered_after (re : RegexLib) (verses : List rsv2ce_verse) (ref : rsv2ce_ref)
    (config : rsv2ce_config) (cur : Int)
    (hnone : ∀ j, cur ≤ j → ¬ matchAt re verses ref j)
    (hpast : ∀ m, matchAt re verses ref m → m < cur → winHi verses config m < cur) :
    ∀ j, cur ≤ j → ¬ covered re verses ref config j := by
  intro j hj1 hc
  obtain ⟨m, hm, hlo, hhi⟩ := hc
  by_cases h1 : m < cur
  · have := hpast m hm h1
    omega
  · exact hnone m (by omega) hm

theorem windowOf_start_ne (re : RegexLib) (verses : List rsv2ce_verse) (ref : rsv2ce_ref)
    (config : rsv2ce_config) (m : Int) (h : matchAt re verses ref m) :
    (windowOf verses config m).start ≠ -1 ∧ (windowOf verses config m).end_ ≠ -1 := by
  have := matchAt_window re verses ref config m h
  simp only [windowOf]
  constructor <;> omega

/-- The promotion block takes a state between calls to a state described by
`PreInv`. -/
theorem pre_of_inv (re : RegexLib) (verses : List rsv2ce_verse) (ref : rsv2ce_ref)
    (config : rsv2ce_config) (s : rsv2ce_next_data)
    (hinv : IterInv re verses ref config s) (hL : s.current < verses.length) :
    PreInv re verses ref config (next_promote s) := by
  obtain ⟨h0, hpast, hcase⟩ := hinv
  rcases hcase with ⟨hA, hB, hnm⟩ | ⟨hm, hA, hB, hlo, hhi, hnone⟩ |
    ⟨a, ha, hA, hm, hB, hlo, hhi, hsep, hnone⟩
  · have hkeep : next_promote s = s :=
      promote_keep s (by rw [hA]; simp [emptyRange])
    rw [hkeep]
    refine ⟨h0, hL, Or.inl ⟨hA, hB, hnm, ?_⟩⟩
    intro m hmm hlt
    have hw := matchAt_window re verses ref config m hmm
    rcases hpast m hmm hlt with h | h
    · exact h
    · rw [hA] at h
      simp only [emptyRange] at h
      omega
  · have hw := matchAt_window re verses ref config _ hm
    by_cases hprom : s.current ≥ winHi verses config s.next_match + 1
    · have hcond : s.matches0.start ≠ -1 ∧ s.matches0.end_ ≠ -1 ∧
          s.current ≥ s.matches0.end_ := by
        rw [hA]
        exact ⟨(windowOf_start_ne re verses ref config _ hm).1,
          (windowOf_start_ne re verses ref config _ hm).2, hprom⟩
      obtain ⟨pA, pB⟩ := promote_move s hcond
      unfold PreInv
      rw [promote_current, promote_next_match, pA, pB, hB]
      refine ⟨h0, hL, Or.inl ⟨rfl, rfl, Or.inr ⟨hm, by omega⟩, ?_⟩⟩
      intro m hmm hlt
      rcases hpast m hmm hlt with h | h
      · exact h
      · rw [hA] at h
        simp only [windowOf] at h
        omega
    · have hkeep : next_promote s = s := by
        apply promote_keep
        rw [hA]
        simp only [windowOf]
        omega
      rw [hkeep]
      exact ⟨h0, hL, Or.inr (Or.inl ⟨hm, hA, hB, hlo, by omega, hnone, hpast⟩)⟩
  · have hwa := matchAt_window re verses ref config _ ha
    have hw := matchAt_window re verses ref config _ hm
    by_cases hprom : s.current ≥ winHi verses config a + 1
    · have hcond : s.matches0.start ≠ -1 ∧ s.matches0.end_ ≠ -1 ∧
          s.current ≥ s.matches0.end_ := by
        rw [hA]
        exact ⟨(windowOf_start_ne re verses ref config _ ha).1,
          (windowOf_start_ne re verses ref config _ ha).2, hprom⟩
      obtain ⟨pA, pB⟩ := promote_move s hcond
      unfold PreInv
      rw [promote_current, promote_next_match, pA, pB, hB]
      refine ⟨h0, hL, Or.inr (Or.inr (Or.inl ⟨hm, rfl, rfl, by omega, hnone, ?_⟩))⟩
      intro m hmm hlt
      rcases hpast m hmm hlt with h | h
      · exact h
      · rw [hA] at h
        simp only [windowOf] at h
        omega
    · have hkeep : next_promote s = s := by
        apply promote_keep
        rw [hA]
        simp only [windowOf]
        omega
      rw [hkeep]
      exact ⟨h0, hL, Or.inr (Or.inr (Or.inr
        ⟨a, ha, hA, hm, hB, hlo, by omega, hsep, hnone, hpast⟩))⟩

/-- The scan block takes a state described by `PreInv` to a state described by
`MidInv`; and when it looks for a match, slot B is empty. -/
theorem mid_of_pre (re : RegexLib) (verses : List rsv2ce_verse) (ref : rsv2ce_ref)
    (config : rsv2ce_config) (t : rsv2ce_next_data)
    (hpre : PreInv re verses ref config t) :
    MidInv re verses ref config (next_scan re verses ref config t) ∧
      (scanNeeded verses t → t.matches1 = emptyRange) := by
  obtain ⟨h0, hL, hcase⟩ := hpre
  have hscan := next_match_spec re verses ref verses.length t.current h0 (by omega)
  rcases hcase with ⟨hA, hB, hnm, hpast⟩ | ⟨hm, hA, hB, hlo, hhi, hnone, hpast⟩ |
    ⟨hm, hA, hB, hle, hnone, hpast⟩ | ⟨a, ha, hA, hm, hB, hlo, hhi, hsep, hnone, hpast⟩
  · -- no pending window: the scan runs
    refine ⟨?_, fun _ => hB⟩
    have hneed : scanNeeded verses t := by
      rcases hnm with h | h
      · exact ⟨Or.inl h, by rw [h]; omega⟩
      · exact ⟨Or.inr h.2, h.1.2.1⟩
    have hpc : pastCovered re verses ref config t.current t.matches0 :=
      fun m hmm hlt => Or.inl (hpast m hmm hlt)
    rcases hscan with ⟨hr, hno⟩ | ⟨hr1, hr2, hr3⟩
    · rw [scan_fail re verses ref config t hr]
      exact ⟨h0, hL, hpc, Or.inl ⟨hA, hB, hnm, hno,
        no_covered_after re verses ref config _ hno hpast⟩⟩
    · obtain ⟨u1, u2, _, _⟩ := scan_found re verses ref config t hneed (by omega)
      obtain ⟨uA, uB⟩ := u2 (by rw [hA]; exact ⟨rfl, rfl⟩)
      unfold MidInv
      rw [scan_current, u1, uA, uB, hB]
      refine ⟨h0, hL, fun m hmm hlt => Or.inl (hpast m hmm hlt),
        Or.inr (Or.inl ⟨hr2, rfl, rfl, hr1, hr3,
          fun _ => no_covered_gap re verses ref config _ _ hr2 hr3 hpast⟩)⟩
  · -- one pending window, not exhausted
    refine ⟨?_, fun _ => hB⟩
    have hw := matchAt_window re verses ref config _ hm
    by_cases hge : t.current ≤ t.next_match
    · have hskip : ¬ scanNeeded verses t := by
        intro h
        rcases h.1 with h1 | h1 <;> omega
      rw [scan_skip re verses ref config t hskip]
      refine ⟨h0, hL, hpast, Or.inr (Or.inl ⟨hm, hA, hB, hge, hnone, ?_⟩)⟩
      intro _ j hj1 hj2
      omega
    · have hneed : scanNeeded verses t := ⟨Or.inr (by omega), hm.2.1⟩
      rcases hscan with ⟨hr, hno⟩ | ⟨hr1, hr2, hr3⟩
      · rw [scan_fail re verses ref config t hr]
        exact ⟨h0, hL, hpast, Or.inr (Or.inr (Or.inl
          ⟨hm, hA, hB, by omega, hlo, hhi, hno⟩))⟩
      · obtain ⟨u1, _, u3, u4⟩ := scan_found re verses ref config t hneed (by omega)
        have hwr := matchAt_window re verses ref config _ hr2
        have hne : ¬ (t.matches0.start = -1 ∧ t.matches0.end_ = -1) := by
          rw [hA]
          intro h
          exact (windowOf_start_ne re verses ref config _ hm).1 h.1
        by_cases hov : (windowOf verses config
            (rsv2ce_next_match re ref verses t.current)).start < t.matches0.end_
        · obtain ⟨uA, uB⟩ := u3 hne hov
          unfold MidInv
          rw [scan_current, u1, uA, uB, hB]
          refine ⟨h0, hL, ?_, Or.inr (Or.inl ⟨hr2, rfl, rfl, hr1, hr3, ?_⟩)⟩
          · intro m hmm hlt
            right
            have := winHi_mono verses config m _ hmm.1 (by omega) hr2.2.1
            simp only [windowOf]
            omega
          · intro hnl j hj1 hj2
            rw [hA] at hov
            simp only [windowOf] at hov
            have := hnl _ _ hm hr2 (by omega) hov
            omega
        · obtain ⟨uA, uB⟩ := u4 hne hov
          unfold MidInv
          rw [scan_current, u1, uA, uB]
          rw [hA] at hov
          simp only [windowOf] at hov
          exact ⟨h0, hL, hpast, Or.inr (Or.inr (Or.inr
            ⟨t.next_match, hm, hA, hr2, rfl, hlo, hhi, by omega, hr3⟩))⟩
  · -- the window just promoted from slot B
    refine ⟨?_, fun _ => hB⟩
    have hskip : ¬ scanNeeded verses t := by
      intro h
      have := hm.1
      rcases h.1 with h1 | h1 <;> omega
    rw [scan_skip re verses ref config t hskip]
    exact ⟨h0, hL, fun m hmm hlt => Or.inl (hpast m hmm hlt),
      Or.inr (Or.inl ⟨hm, hA, hB, hle, hnone,
        fun _ => no_covered_gap re verses ref config _ _ hm hnone hpast⟩)⟩
  · -- two pending windows
    have hw := matchAt_window re verses ref config _ hm
    have hskip : ¬ scanNeeded verses t := by
      intro h
      rcases h.1 with h1 | h1 <;> omega
    refine ⟨?_, fun h => absurd h hskip⟩
    rw [scan_skip re verses ref config t hskip]
    exact ⟨h0, hL, hpast, Or.inr (Or.inr (Or.inr
      ⟨a, ha, hA, hm, hB, hlo, hhi, hsep, hnone⟩))⟩

/-- The last block of `rsv2ce_next_verse` on a state described by `MidInv`:
the state left satisfies the invariant; -1 is returned only when no match and
no covered position is left; a returned position is covered, and no match (and
under `noLoss` no covered position) lies between the cursor and it. -/
theorem emit_of_mid (re : RegexLib) (verses : List rsv2ce_verse) (ref : rsv2ce_ref)
    (config : rsv2ce_config) (u : rsv2ce_next_data)
    (hmid : MidInv re verses ref config u) :
    IterInv re verses ref config (next_emit u).2 ∧
    ((next_emit u).1 = -1 →
      (∀ j, u.current ≤ j → ¬ matchAt re verses ref j) ∧
      (∀ j, u.current ≤ j → ¬ covered re verses ref config j)) ∧
    ((next_emit u).1 ≠ -1 →
      u.current ≤ (next_emit u).1 ∧ (next_emit u).1 < verses.length ∧
      (next_emit u).2.current = (next_emit u).1 + 1 ∧
      covered re verses ref config (next_emit u).1 ∧
      (∀ j, u.current ≤ j → j < (next_emit u).1 → ¬ matchAt re verses ref j) ∧
      (noLoss re verses ref config →
        ∀ j, u.current ≤ j → j < (next_emit u).1 → ¬ covered re verses ref config j)) := by
  obtain ⟨h0, hL, hpast, hcase⟩ := hmid
  rcases hcase with ⟨hA, hB, hnm, hno, hnoc⟩ | ⟨hm, hA, hB, hle, hnone, hgap⟩ |
    ⟨hm, hA, hB, hlt, hlo, hhi, hno⟩ | ⟨a, ha, hA, hm, hB, hlo, hhi, hsep, hnone⟩
  · rw [emit_empty u hA]
    refine ⟨⟨h0, hpast, Or.inl ⟨hA, hB, hnm⟩⟩, fun _ => ⟨hno, hnoc⟩, fun h => absurd rfl h⟩
  · have hw := matchAt_window re verses ref config _ hm
    have hst : u.matches0.start = winLo verses config u.next_match := by rw [hA]; rfl
    obtain ⟨e1, e2, e3, e4, e5⟩ := emit_window u (by rw [hst]; exact hw.1)
    rw [hst] at e1 e2
    have hc1 : u.current ≤ (next_emit u).1 := by rw [e1]; omega
    have hc2 : (next_emit u).1 ≤ u.next_match := by rw [e1]; omega
    have hc3 : winLo verses config u.next_match ≤ (next_emit u).1 := by rw [e1]; omega
    refine ⟨?_, fun h => by omega, fun _ => ⟨hc1, by omega, by rw [e2, e1], ?_, ?_, ?_⟩⟩
    · unfold IterInv
      rw [e2, e3, e4, e5, ← e1]
      refine ⟨by omega, ?_, Or.inr (Or.inl ⟨hm, hA, hB, by omega, by omega, ?_⟩)⟩
      · intro m hmm hmlt
        by_cases h1 : m < u.current
        · rcases hpast m hmm h1 with h | h
          · left; omega
          · right; exact h
        · by_cases h2 : m < u.next_match
          · exact absurd hmm (hnone m (by omega) h2)
          · have : m = u.next_match := by omega
            right
            rw [this, hA]
            simp only [windowOf]
            omega
      · intro j hj1 hj2
        exact hnone j (by omega) hj2
    · exact ⟨u.next_match, hm, hc3, by omega⟩
    · intro j hj1 hj2
      exact hnone j hj1 (by omega)
    · intro hnl j hj1 hj2
      have hjlo : j < winLo verses config u.next_match := by
        rw [e1] at hj2
        omega
      exact hgap hnl j hj1 hjlo
  · have hw := matchAt_window re verses ref config _ hm
    have hst : u.matches0.start = winLo verses config u.next_match := by rw [hA]; rfl
    obtain ⟨e1, e2, e3, e4, e5⟩ := emit_window u (by rw [hst]; exact hw.1)
    rw [hst] at e1 e2
    have hc : (next_emit u).1 = u.current := by rw [e1]; omega
    refine ⟨?_, fun h => by omega, fun _ => ⟨by omega, by omega, by rw [e2, e1], ?_, ?_, ?_⟩⟩
    · unfold IterInv
      rw [e2, e3, e4, e5, ← e1, hc]
      refine ⟨by omega, ?_, Or.inr (Or.inl ⟨hm, hA, hB, by omega, by omega, ?_⟩)⟩
      · intro m hmm hmlt
        by_cases h1 : m < u.current
        · rcases hpast m hmm h1 with h | h
          · left; omega
          · right; exact h
        · exact absurd hmm (hno m (by omega))
      · intro j hj1 hj2
        omega
    · exact ⟨u.next_match, hm, by omega, by omega⟩
    · intro j hj1 hj2
      omega
    · intro _ j hj1 hj2
      omega
  · have hwa := matchAt_window re verses ref config _ ha
    have hw := matchAt_window re verses ref config _ hm
    have hst : u.matches0.start = winLo verses config a := by rw [hA]; rfl
    obtain ⟨e1, e2, e3, e4, e5⟩ := emit_window u (by rw [hst]; exact hwa.1)
    rw [hst] at e1 e2
    have hc : (next_emit u).1 = u.current := by rw [e1]; omega
    refine ⟨?_, fun h => by omega, fun _ => ⟨by omega, by omega, by rw [e2, e1], ?_, ?_, ?_⟩⟩
    · unfold IterInv
      rw [e2, e3, e4, e5, ← e1, hc]
      refine ⟨by omega, ?_, Or.inr (Or.inr
        ⟨a, ha, hA, hm, hB, by omega, by omega, hsep, ?_⟩)⟩
      · intro m hmm hmlt
        by_cases h1 : m < u.current
        · rcases hpast m hmm h1 with h | h
          · left; omega
          · right; exact h
        · exact absurd hmm (hnone m (by omega) (by omega))
      · intro j hj1 hj2
        exact hnone j (by omega) hj2
    · exact ⟨a, ha, by omega, by omega⟩
    · intro j hj1 hj2
      omega
    · intro _ j hj1 hj2
      omega

/-! ## The iterator: invariant and runs -/

theorem covered_lt_length (re : RegexLib) (verses : List rsv2ce_verse) (ref : rsv2ce_ref)
    (config : rsv2ce_config) (j : Int) (h : covered re verses ref config j) :
    0 ≤ j ∧ j < verses.length := by
  obtain ⟨m, hm, hlo, hhi⟩ := h
  have := matchAt_window re verses ref config m hm
  omega

/-- One call of `rsv2ce_next_verse` from a state that satisfies the invariant. -/
theorem step_spec (re : RegexLib) (verses : List rsv2ce_verse) (ref : rsv2ce_ref)
    (config : rsv2ce_config) (s : rsv2ce_next_data)
    (hinv : IterInv re verses ref config s) :
    IterInv re verses ref config (rsv2ce_next_verse re verses ref config s).2 ∧
    ((rsv2ce_next_verse re verses ref config s).1 = -1 →
      (∀ j, s.current ≤ j → ¬ matchAt re verses ref j) ∧
      (∀ j, s.current ≤ j → ¬ covered re verses ref config j)) ∧
    ((rsv2ce_next_verse re verses ref config s).1 ≠ -1 →
      s.current ≤ (rsv2ce_next_verse re verses ref config s).1 ∧
      (rsv2ce_next_verse re verses ref config s).1 < verses.length ∧
      (rsv2ce_next_verse re verses ref config s).2.current =
        (rsv2ce_next_verse re verses ref config s).1 + 1 ∧
      covered re verses ref config (rsv2ce_next_verse re verses ref config s).1 ∧
      (∀ j, s.current ≤ j → j < (rsv2ce_next_verse re verses ref config s).1 →
        ¬ matchAt re verses ref j) ∧
      (noLoss re verses ref config →
        ∀ j, s.current ≤ j → j < (rsv2ce_next_verse re verses ref config s).1 →
          ¬ covered re verses ref config j)) := by
  rw [next_verse_eq]
  by_cases hL : s.current ≥ verses.length
  · rw [if_pos hL]
    refine ⟨hinv, fun _ => ⟨?_, ?_⟩, fun h => absurd rfl h⟩
    · intro j hj hm
      have := hm.2.1
      omega
    · intro j hj hc
      have := covered_lt_length re verses ref config j hc
      omega
  · rw [if_neg hL]
    have hpre := pre_of_inv re verses ref config s hinv (by omega)
    have hmid := (mid_of_pre re verses ref config _ hpre).1
    have hcur : (next_scan re verses ref config (next_promote s)).current = s.current := by
      rw [scan_current, promote_current]
    have h := emit_of_mid re verses ref config _ hmid
    rw [hcur] at h
    exact h

theorem inv_initial (re : RegexLib) (verses : List rsv2ce_verse) (ref : rsv2ce_ref)
    (config : rsv2ce_config) : IterInv re verses ref config next_initial := by
  refine ⟨le_refl _, ?_, Or.inl ⟨rfl, rfl, Or.inl rfl⟩⟩
  intro m hm hlt
  have h0 := hm.1
  have : next_initial.current = 0 := rfl
  omega

/-- Every reachable state satisfies the invariant. -/
theorem inv_of_reachable (re : RegexLib) (verses : List rsv2ce_verse) (ref : rsv2ce_ref)
    (config : rsv2ce_config) (s : rsv2ce_next_data)
    (h : Reachable re verses ref config s) : IterInv re verses ref config s := by
  induction h with
  | init => exact inv_initial re verses ref config
  | step s _ ih => exact (step_spec re verses ref config s ih).1

/-- A run of the iterator from a state that satisfies the invariant: within
`n + 1` calls, where `n` bounds the distance of the cursor from the corpus end,
a call returns -1; the positions returned before are strictly increasing, lie
between the cursor and the corpus end, are covered, and include every match
(and under `noLoss` every covered position) from the cursor on. -/
theorem positions_spec (re : RegexLib) (verses : List rsv2ce_verse) (ref : rsv2ce_ref)
    (config : rsv2ce_config) :
    ∀ (n : Nat) (s : rsv2ce_next_data), IterInv re verses ref config s →
      (verses.length : Int) - s.current ≤ n →
      ∃ l, rsv2ce_positions re verses ref config (n + 1) s = some l ∧
        List.Pairwise (fun a b : Int => a < b) l ∧
        (∀ x ∈ l, s.current ≤ x ∧ x < verses.length ∧ covered re verses ref config x) ∧
        (∀ j, s.current ≤ j → matchAt re verses ref j → j ∈ l) ∧
        (noLoss re verses ref config →
          ∀ j, s.current ≤ j → covered re verses ref config j → j ∈ l) ∧
        l.length ≤ n := by
  intro n
  induction n with
  | zero =>
    intro s hinv hn
    obtain ⟨_, hneg, hpos⟩ := step_spec re verses ref config s hinv
    have hr : (rsv2ce_next_verse re verses ref config s).1 = -1 := by
      by_contra h
      have := hpos h
      omega
    refine ⟨[], ?_, List.Pairwise.nil, ?_, ?_, ?_, le_refl _⟩
    · simp [rsv2ce_positions, hr]
    · intro x hx; cases hx
    · intro j hj hm; exact absurd hm ((hneg hr).1 j hj)
    · intro _ j hj hc; exact absurd hc ((hneg hr).2 j hj)
  | succ n ih =>
    intro s hinv hn
    obtain ⟨hinv', hneg, hpos⟩ := step_spec re verses ref config s hinv
    by_cases hr : (rsv2ce_next_verse re verses ref config s).1 = -1
    · refine ⟨[], ?_, List.Pairwise.nil, ?_, ?_, ?_, Nat.zero_le _⟩
      · simp [rsv2ce_positions, hr]
      · intro x hx; cases hx
      · intro j hj hm; exact absurd hm ((hneg hr).1 j hj)
      · intro _ j hj hc; exact absurd hc ((hneg hr).2 j hj)
    · obtain ⟨c1, c2, c3, c4, c5, c6⟩ := hpos hr
      obtain ⟨l, hl, hsorted, hmem, hmatch, hcov, hlen⟩ :=
        ih (rsv2ce_next_verse re verses ref config s).2 hinv' (by rw [c3]; push_cast at hn; omega)
      refine ⟨(rsv2ce_next_verse re verses ref config s).1 :: l, ?_, ?_, ?_, ?_, ?_, ?_⟩
      · rw [rsv2ce_positions]
        simp [hr, hl]
      · refine List.Pairwise.cons ?_ hsorted
        intro x hx
        have := (hmem x hx).1
        rw [c3] at this
        omega
      · intro x hx
        rcases List.mem_cons.1 hx with h | h
        · rw [h]; exact ⟨c1, c2, c4⟩
        · have := hmem x h
          rw [c3] at this
          exact ⟨by omega, this.2.1, this.2.2⟩
      · intro j hj hm
        by_cases h1 : j < (rsv2ce_next_verse re verses ref config s).1
        · exact absurd hm (c5 j hj h1)
        · by_cases h2 : j = (rsv2ce_next_verse re verses ref config s).1
          · rw [h2]; exact List.mem_cons_self _ _
          · exact List.mem_cons_of_mem _ (hmatch j (by rw [c3]; omega) hm)
      · intro hnl j hj hc
        by_cases h1 : j < (rsv2ce_next_verse re verses ref config s).1
        · exact absurd hc (c6 hnl j hj h1)
        · by_cases h2 : j = (rsv2ce_next_verse re verses ref config s).1
          · rw [h2]; exact List.mem_cons_self _ _
          · exact List.mem_cons_of_mem _ (hcov hnl j (by rw [c3]; omega) hc)
      · simp only [List.length_cons]
        omega

/-- The run of the iterator from the initial state. -/
theorem positions_initial (re : RegexLib) (verses : List rsv2ce_verse) (ref : rsv2ce_ref)
    (config : rsv2ce_config) :
    ∃ l, rsv2ce_positions re verses ref config (verses.length + 1) next_initial = some l ∧
      List.Pairwise (fun a b : Int => a < b) l ∧
      (∀ x ∈ l, 0 ≤ x ∧ x < verses.length ∧ covered re verses ref config x) ∧
      (∀ j, matchAt re verses ref j → j ∈ l) ∧
      (noLoss re verses ref config → ∀ j, covered re verses ref config j → j ∈ l) ∧
      l.length ≤ verses.length := by
  obtain ⟨l, h1, h2, h3, h4, h5, h6⟩ := positions_spec re verses ref config verses.length
    next_initial (inv_initial re verses ref config)
    (by have : next_initial.current = 0 := rfl; omega)
  refine ⟨l, h1, h2, ?_, ?_, ?_, h6⟩
  · intro x hx
    have := h3 x hx
    have hc : next_initial.current = 0 := rfl
    rw [hc] at this
    exact this
  · intro j hm
    exact h4 j (by have : next_initial.current = 0 := rfl; have := hm.1; omega) hm
  · intro hnl j hc
    have := covered_lt_length re verses ref config j hc
    exact h5 hnl j (by have : next_initial.current = 0 := rfl; omega) hc

theorem verseAt_ofNat (verses : List rsv2ce_verse) (i : Nat) (h : i < verses.length) :
    verseAt verses (i : Int) = verses[i] := by
  simp [verseAt, List.getD_eq_getElem?_getD, List.getElem?_eq_getElem h]

theorem inWindow_iff (verses : List rsv2ce_verse) (config : rsv2ce_config) (m p : Int) :
    inWindow verses config m p = true ↔
      winLo verses config m ≤ p ∧ p ≤ winHi verses config m := by
  simp [inWindow, winLo, winHi, ctxBefore, ctxAfter]

/-- Entries joined by a chain of adjacent entries of one book and chapter have
the same book and chapter. -/
theorem same_chapter_chain (verses : List rsv2ce_verse) :
    ∀ (k : Nat) (a b : Int), b - a = k →
      (∀ j, a ≤ j → j < b → adjSame verses j = true) →
      (verseAt verses a).book = (verseAt verses b).book ∧
        (verseAt verses a).chapter = (verseAt verses b).chapter := by
  intro k
  induction k with
  | zero =>
    intro a b hk _
    have : b = a := by omega
    rw [this]
    exact ⟨rfl, rfl⟩
  | succ n ih =>
    intro a b hk hadj
    have h1 := ih a (b - 1) (by push_cast at hk; omega) (fun j hj1 hj2 => hadj j hj1 (by omega))
    have h2 := hadj (b - 1) (by push_cast at hk; omega) (by omega)
    simp only [adjSame, decide_eq_true_eq] at h2
    have hb : b - 1 + 1 = b := by omega
    rw [hb] at h2
    exact ⟨h1.1.trans h2.1, h1.2.trans h2.2⟩

/-- A position in the window of `m` has the book and chapter of `m`. -/
theorem window_same_chapter (verses : List rsv2ce_verse) (config : rsv2ce_config) (m x : Int)
    (h0 : 0 ≤ m) (h1 : m < verses.length)
    (hlo : winLo verses config m ≤ x) (hhi : x ≤ winHi verses config m) :
    (verseAt verses x).book = (verseAt verses m).book ∧
      (verseAt verses x).chapter = (verseAt verses m).chapter := by
  have a := winLo_spec verses config m h0 h1
  have b := winHi_spec verses config m h0 h1
  by_cases hx : x ≤ m
  · exact same_chapter_chain verses (m - x).toNat x m (by omega)
      (fun j hj1 hj2 => a.2.2.1 j (by omega) hj2)
  · have := same_chapter_chain verses (x - m).toNat m x (by omega)
      (fun j hj1 hj2 => b.2.2.1 j hj1 (by omega))
    exact ⟨this.1.symm, this.2.symm⟩

/-- Two strictly increasing lists with the same members are equal. -/
theorem sorted_ext (l1 l2 : List Int)
    (h1 : List.Pairwise (fun a b : Int => a < b) l1)
    (h2 : List.Pairwise (fun a b : Int => a < b) l2)
    (h : ∀ x, x ∈ l1 ↔ x ∈ l2) : l1 = l2 := by
  have d1 : l1.Nodup := h1.imp (fun h => ne_of_lt h)
  have d2 : l2.Nodup := h2.imp (fun h => ne_of_lt h)
  have hp : l1.Perm l2 := (List.perm_ext_iff_of_nodup d1 d2).2 h
  have s1 : List.Sorted (fun a b : Int => a ≤ b) l1 := h1.imp (fun h => le_of_lt h)
  have s2 : List.Sorted (fun a b : Int => a ≤ b) l2 := h2.imp (fun h => le_of_lt h)
  exact List.eq_of_perm_of_sorted hp s1 s2

/-- When no window of a later match starts inside an earlier window after the
position that follows the earlier match, the iterator returns exactly the
covered positions, in ascending order. -/
theorem positions_exact (re : RegexLib) (verses : List rsv2ce_verse) (ref : rsv2ce_ref)
    (config : rsv2ce_config) (hnl : noLoss re verses ref config) (expected : List Int)
    (hsorted : List.Pairwise (fun a b : Int => a < b) expected)
    (hmem : ∀ x, x ∈ expected ↔ covered re verses ref config x) :
    rsv2ce_positions re verses ref config (verses.length + 1) next_initial =
      some expected := by
  obtain ⟨l, h1, h2, h3, _, h5, _⟩ := positions_initial re verses ref config
  rw [h1]
  congr 1
  apply sorted_ext l expected h2 hsorted
  intro x
  rw [hmem]
  exact ⟨fun hx => (h3 x hx).2.2, fun hc => h5 hnl x hc⟩

theorem sameRun_iff (verses : List rsv2ce_verse) (m p : Int)
    (hm0 : 0 ≤ m) (hm1 : m < verses.length) (hp0 : 0 ≤ p) (hp1 : p < verses.length) :
    sameRun verses m p = true ↔
      ∀ j : Int, min m p ≤ j → j < max m p → adjSame verses j = true := by
  simp only [sameRun, List.all_eq_true, List.mem_range, Bool.or_eq_true, Bool.not_eq_true',
    decide_eq_false_iff_not, Int.ofNat_eq_coe]
  constructor
  · intro h j hj1 hj2
    have hj : ((j.toNat : Nat) : Int) = j := by omega
    rcases h j.toNat (by omega) with h' | h'
    · rw [hj] at h'
      exact absurd ⟨hj1, hj2⟩ h'
    · rw [hj] at h'
      exact h'
  · intro h j hj
    by_cases hb : min m p ≤ (j : Int) ∧ (j : Int) < max m p
    · exact Or.inr (h j hb.1 hb.2)
    · exact Or.inl hb

/-- With `context_chapter` set, the window of a match is its whole run. -/
theorem window_chapter_iff (verses : List rsv2ce_verse) (config : rsv2ce_config)
    (hc : config.context_chapter = true) (m x : Int)
    (hm0 : 0 ≤ m) (hm1 : m < verses.length) (hx0 : 0 ≤ x) (hx1 : x < verses.length) :
    (winLo verses config m ≤ x ∧ x ≤ winHi verses config m) ↔
      ∀ j : Int, min m x ≤ j → j < max m x → adjSame verses j = true := by
  have hcb : ctxBefore config = -1 := by simp [ctxBefore, hc]
  have hca : ctxAfter config = -1 := by simp [ctxAfter, hc]
  obtain ⟨a1, a2, a3, _, _, a6⟩ := winLo_spec verses config m hm0 hm1
  obtain ⟨b1, b2, b3, _, _, b6⟩ := winHi_spec verses config m hm0 hm1
  constructor
  · rintro ⟨h1, h2⟩ j hj1 hj2
    by_cases hjm : j < m
    · exact a3 j (by omega) hjm
    · exact b3 j (by omega) (by omega)
  · intro h
    constructor
    · by_contra hlt
      rcases a6 with h0 | h0 | h0
      · omega
      · have := h (winLo verses config m - 1) (by omega) (by omega)
        rw [this] at h0
        cases h0
      · exact h0.1 hcb
    · by_contra hlt
      rcases b6 with h0 | h0 | h0
      · omega
      · have := h (winHi verses config m) (by omega) (by omega)
        rw [this] at h0
        cases h0
      · exact h0.1 hca

theorem noLoss_chapter (re : RegexLib) (verses : List rsv2ce_verse) (ref : rsv2ce_ref)
    (config : rsv2ce_config) (hc : config.context_chapter = true) :
    noLoss re verses ref config := by
  intro m m' hm hm' hlt hov
  have hcb : ctxBefore config = -1 := by simp [ctxBefore, hc]
  obtain ⟨a1, a2, a3, _, _, a6⟩ := winLo_spec verses config m' hm'.1 hm'.2.1
  obtain ⟨b1, b2, b3, _, _, _⟩ := winHi_spec verses config m hm.1 hm.2.1
  have hm0 := hm.1
  by_contra hgt
  rcases a6 with h0 | h0 | h0
  · omega
  · have := b3 (winLo verses config m' - 1) (by omega) (by omega)
    rw [this] at h0
    cases h0
  · exact h0.1 hcb

theorem mem_chapterRunPositions (re : RegexLib) (verses : List rsv2ce_verse)
    (ref : rsv2ce_ref) (x : Int) :
    x ∈ chapterRunPositions re verses ref ↔
      0 ≤ x ∧ x < verses.length ∧
        ∃ m, matchAt re verses ref m ∧ sameRun verses m x = true := by
  simp only [chapterRunPositions, List.mem_map, List.mem_filter, List.mem_range,
    List.any_eq_true, Bool.and_eq_true, Int.ofNat_eq_coe]
  constructor
  · rintro ⟨p, ⟨hp, m, hm, hmm, hrun⟩, rfl⟩
    exact ⟨by omega, by omega, (m : Int), ⟨by omega, by omega, hmm⟩, hrun⟩
  · rintro ⟨h0, h1, m, hm, hrun⟩
    have hx : ((x.toNat : Nat) : Int) = x := by omega
    have hmn : ((m.toNat : Nat) : Int) = m := by have := hm.1; omega
    refine ⟨x.toNat, ⟨by omega, m.toNat, by have := hm.2.1; omega, ?_, ?_⟩, hx⟩
    · rw [hmn]; exact hm.2.2
    · rw [hmn, hx]; exact hrun

theorem sorted_chapterRunPositions (re : RegexLib) (verses : List rsv2ce_verse)
    (ref : rsv2ce_ref) :
    List.Pairwise (fun a b : Int => a < b) (chapterRunPositions re verses ref) := by
  unfold chapterRunPositions
  apply List.Pairwise.map (R := fun a b : Nat => a < b)
  · intro a b h
    exact Int.ofNat_lt.2 h
  · exact List.Pairwise.filter _ (List.pairwise_lt_range _)
/-! ## Renderer: lemmas -/

theorem strtok_loop_nonempty (s : List Char) :
    ∀ token : List Char, ∀ w ∈ strtok_loop s token, w ≠ [] := by
  induction s with
  | nil =>
    intro token w hw
    unfold strtok_loop at hw
    by_cases ht : token = []
    · simp [ht] at hw
    · simp [ht] at hw
      rw [hw]; exact ht
  | cons c s ih =>
    intro token w hw
    unfold strtok_loop at hw
    by_cases hc : c = ' '
    · by_cases ht : token = []
      · simp only [hc, ht, if_true] at hw
        exact ih [] w hw
      · simp only [hc, ht, if_true, if_false, List.mem_cons] at hw
        rcases hw with h | h
        · rw [h]; exact ht
        · exact ih [] w h
    · simp only [hc, if_false] at hw
      exact ih _ w hw

/-- The tokens hold the characters of the text other than the space, in order. -/
theorem strtok_loop_flatten (s : List Char) :
    ∀ token : List Char, ' ' ∉ token →
      (strtok_loop s token).flatten = token ++ s.filter (fun c => c ≠ ' ') ∧
      ∀ w ∈ strtok_loop s token, ' ' ∉ w := by
  induction s with
  | nil =>
    intro token ht
    unfold strtok_loop
    by_cases h : token = []
    · simp [h]
    · simp [h, ht]
  | cons c s ih =>
    intro token ht
    unfold strtok_loop
    by_cases hc : c = ' '
    · by_cases h : token = []
      · have := ih [] (by simp)
        simp [hc, h, this.1]
        exact this.2
      · have := ih [] (by simp)
        simp only [hc, h, if_true, if_false, List.flatten_cons, this.1, List.nil_append]
        refine ⟨by simp, ?_⟩
        intro w hw
        rcases List.mem_cons.1 hw with e | e
        · rw [e]; exact ht
        · exact this.2 w e
    · have := ih (token ++ [c]) (by
        simp only [List.mem_append, List.mem_singleton, not_or]
        exact ⟨ht, fun e => hc e.symm⟩)
      simp only [hc, if_false]
      refine ⟨?_, this.2⟩
      rw [this.1]
      simp [hc]

theorem joinWith_cons_cons (sep x : List Char) (rest : List (List Char)) (h : rest ≠ []) :
    joinWith sep (x :: rest) = x ++ sep ++ joinWith sep rest := by
  cases rest with
  | nil => exact absurd rfl h
  | cons y ys => rfl

theorem joinWith_snoc (sep w : List Char) (cur : List (List Char)) (h : cur ≠ []) :
    joinWith sep (cur ++ [w]) = joinWith sep cur ++ sep ++ w := by
  induction cur with
  | nil => exact absurd rfl h
  | cons x xs ih =>
    cases xs with
    | nil => simp [joinWith]
    | cons y ys =>
      have := ih (by simp)
      simp only [List.cons_append] at this ⊢
      rw [joinWith_cons_cons sep x _ (by simp), this, joinWith_cons_cons sep x _ (by simp)]
      simp [List.append_assoc]

theorem lineText_pos (cur : List (List Char)) (h : cur ≠ []) (hw : ∀ w ∈ cur, w ≠ []) :
    0 < (lineText cur).length := by
  cases cur with
  | nil => exact absurd rfl h
  | cons x xs =>
    have hx : x ≠ [] := hw x (List.mem_cons_self _ _)
    have hxl : 0 < x.length := List.length_pos.2 hx
    cases xs with
    | nil => simpa [lineText, joinWith] using hxl
    | cons y ys =>
      simp only [lineText, joinWith, List.length_append]
      omega

/-- The loop of `rsv2ce_output_verse` lays the words out in lines: continuing
a line `cur` already written, what it writes is the rest of that line and the
following lines; the words appear in order, and every line is within the limit
or holds at most one word. -/
theorem output_loop_lines (limit : Nat) :
    ∀ (ws : List (List Char)) (cur : List (List Char)),
      (∀ w ∈ ws, w ≠ []) → (∀ w ∈ cur, w ≠ []) →
      ((lineText cur).length ≤ limit ∨ cur.length ≤ 1) →
      ∃ (ext : List (List Char)) (lines : List (List (List Char))),
        lineText cur ++ output_verse_loop limit ws (lineText cur).length =
          linesText ((cur ++ ext) :: lines) ∧
        ext ++ lines.flatten = ws ∧
        ∀ line ∈ (cur ++ ext) :: lines, (lineText line).length ≤ limit ∨ line.length ≤ 1 := by
  intro ws
  induction ws with
  | nil =>
    intro cur _ _ hcur
    refine ⟨[], [], ?_, rfl, ?_⟩
    · simp [output_verse_loop, linesText, joinWith]
    · intro line hl
      simp only [List.append_nil, List.mem_singleton] at hl
      rw [hl]; exact hcur
  | cons w ws ih =>
    intro cur hws hcw hcur
    have hw : w ≠ [] := hws w (List.mem_cons_self _ _)
    have hwl : 0 < w.length := List.length_pos.2 hw
    have hws' : ∀ x ∈ ws, x ≠ [] := fun x hx => hws x (List.mem_cons_of_mem _ hx)
    by_cases hwrap : (lineText cur).length + w.length +
        (if (lineText cur).length > 0 then 1 else 0) > limit
    · -- the word starts a new line
      obtain ⟨ext, lines, h1, h2, h3⟩ := ih [w] hws'
        (by intro x hx; rw [List.mem_singleton.1 hx]; exact hw) (Or.inr (by simp))
      refine ⟨[], ([w] ++ ext) :: lines, ?_, ?_, ?_⟩
      · have hlt : lineText [w] = w := rfl
        rw [hlt] at h1
        have hstep : output_verse_loop limit (w :: ws) (lineText cur).length =
            ['\n', '\t'] ++ (w ++ output_verse_loop limit ws w.length) := by
          rw [output_verse_loop]
          simp [hwrap]
        rw [hstep, h1]
        simp only [linesText, List.map_cons, joinWith, List.append_assoc, List.append_nil]
      · simp only [List.nil_append, List.flatten_cons, List.append_assoc]
        rw [h2]
        rfl
      · intro line hl
        simp only [List.append_nil, List.mem_cons] at hl
        rcases hl with e | e
        · rw [e]; exact hcur
        · exact h3 line (List.mem_cons.2 e)
    · -- the word goes on the current line
      have hfit : (lineText cur).length + w.length +
          (if (lineText cur).length > 0 then 1 else 0) ≤ limit := by omega
      have hsnoc : lineText (cur ++ [w]) =
          lineText cur ++ (if (lineText cur).length > 0 then [' '] else []) ++ w := by
        by_cases hc : cur = []
        · subst hc
          simp [lineText, joinWith]
        · have hpos := lineText_pos cur hc hcw
          simp only [lineText] at hpos ⊢
          rw [joinWith_snoc _ _ _ hc]
          simp [hpos]
      have hlen : (lineText (cur ++ [w])).length =
          (if (lineText cur).length > 0 then (lineText cur).length + 1
            else (lineText cur).length) + w.length := by
        rw [hsnoc]
        by_cases hp : (lineText cur).length > 0
        · simp [hp]; omega
        · simp [hp]
      obtain ⟨ext, lines, h1, h2, h3⟩ := ih (cur ++ [w]) hws'
        (by
          intro x hx
          rcases List.mem_append.1 hx with e | e
          · exact hcw x e
          · rw [List.mem_singleton.1 e]; exact hw)
        (Or.inl (by
          rw [hlen]
          by_cases hp : (lineText cur).length > 0
          · simp only [hp, if_true] at hfit ⊢; omega
          · simp only [hp, if_false] at hfit ⊢; omega))
      refine ⟨w :: ext, lines, ?_, ?_, ?_⟩
      · have hcat : cur ++ w :: ext = cur ++ [w] ++ ext := by simp
        have hstep : output_verse_loop limit (w :: ws) (lineText cur).length =
            (if (lineText cur).length > 0 then [' '] else []) ++ w ++
              output_verse_loop limit ws
                ((if (lineText cur).length > 0 then (lineText cur).length + 1
                  else (lineText cur).length) + w.length) := by
          rw [output_verse_loop]
          simp [hwrap]
        rw [hcat, ← h1, hlen, hsnoc, hstep]
        simp only [List.append_assoc]
      · simp only [List.cons_append]
        rw [h2]
      · intro line hl
        have hcat : cur ++ w :: ext = cur ++ [w] ++ ext := by simp
        rw [hcat] at hl
        exact h3 line hl
theorem output_loop_eq (re : RegexLib) (verses : List rsv2ce_verse) (ref : rsv2ce_ref)
    (config : rsv2ce_config) :
    ∀ (fuel : Nat) (next : rsv2ce_next_data) (last : Option Int),
      rsv2ce_output_loop re verses ref config fuel next last =
        (rsv2ce_positions re verses ref config fuel next).map
          (fun l => (itemsOf verses last l, finalLast last l)) := by
  intro fuel
  induction fuel with
  | zero => intro next last; rfl
  | succ n ih =>
    intro next last
    unfold rsv2ce_output_loop rsv2ce_positions
    by_cases hr : (rsv2ce_next_verse re verses ref config next).1 = -1
    · simp [hr, itemsOf, finalLast]
    · simp only [hr, if_false]
      rw [ih]
      cases rsv2ce_positions re verses ref config n
          (rsv2ce_next_verse re verses ref config next).2 with
      | none => rfl
      | some l =>
        cases last with
        | none => simp [itemsOf, finalLast]
        | some j => simp [itemsOf, finalLast]

theorem finalLast_isSome (l : List Int) :
    ∀ last : Option Int, (finalLast last l).isSome = true ↔ (last.isSome = true ∨ l ≠ []) := by
  induction l with
  | nil => intro last; simp [finalLast]
  | cons i rest ih =>
    intro last
    simp [finalLast, ih]

theorem headersOf_append_verse (pre : List rsv2ce_emitted) (i : Int)
    (rest : List rsv2ce_emitted) (b : List Int) (h : headersOf pre = b) :
    headersOf (pre ++ rsv2ce_emitted.verse i :: rest) = b ++ headersOf rest := by
  subst h
  induction pre with
  | nil => simp [headersOf]
  | cons x xs ih =>
    cases x with
    | blank => simpa [headersOf] using ih
    | header c => simp [headersOf, ih]
    | verse p => simpa [headersOf] using ih

theorem headersOf_itemsOf (verses : List rsv2ce_verse) (l : List Int) :
    ∀ last : Option Int,
      headersOf (itemsOf verses last l) =
        headerBooks (last.map (fun j => (verseAt verses j).book))
          (l.map (fun i => (verseAt verses i).book)) := by
  induction l with
  | nil => intro last; rfl
  | cons i rest ih =>
    intro last
    have ih' := ih (some i)
    simp only [Option.map_some'] at ih'
    cases last with
    | none =>
      simp only [itemsOf, Option.map_none', List.map_cons, headerBooks]
      rw [headersOf_append_verse [rsv2ce_emitted.header (verseAt verses i).book] _ _
        [(verseAt verses i).book] rfl, ih']
      simp
    | some j =>
      simp only [itemsOf, Option.map_some', List.map_cons, headerBooks]
      by_cases hb : (verseAt verses i).book = (verseAt verses j).book
      · simp only [hb, ne_eq, not_true_eq_false, if_false]
        rw [headersOf_append_verse [] _ _ [] rfl, ih', hb]
        simp
      · have hb' : ¬ (verseAt verses j).book = (verseAt verses i).book := fun e => hb e.symm
        have hb'' : ¬ (some (verseAt verses j).book = some (verseAt verses i).book) :=
          fun e => hb' (Option.some.inj e)
        simp only [hb, ne_eq, not_false_eq_true, if_true, hb'', if_false]
        rw [headersOf_append_verse
          [rsv2ce_emitted.blank, rsv2ce_emitted.header (verseAt verses i).book] _ _
          [(verseAt verses i).book] rfl, ih']

theorem headerBooks_some (bs : List Int) :
    ∀ p : Int, List.Pairwise (fun a b : Int => a ≤ b) (p :: bs) →
      List.Pairwise (fun a b : Int => a < b) (headerBooks (some p) bs) ∧
      ∀ x, x ∈ headerBooks (some p) bs ↔ (x ∈ bs ∧ x ≠ p) := by
  induction bs with
  | nil => intro p _; simp [headerBooks]
  | cons b bs ih =>
    intro p hp
    have hpb : p ≤ b := (List.pairwise_cons.1 hp).1 b (List.mem_cons_self _ _)
    have hbs : List.Pairwise (fun a b : Int => a ≤ b) (b :: bs) := (List.pairwise_cons.1 hp).2
    have hb_le : ∀ x ∈ bs, b ≤ x := (List.pairwise_cons.1 hbs).1
    obtain ⟨i1, i2⟩ := ih b hbs
    by_cases he : p = b
    · subst he
      simp only [headerBooks, if_true, List.nil_append]
      refine ⟨i1, ?_⟩
      intro x
      rw [i2]
      simp only [List.mem_cons]
      constructor
      · rintro ⟨h1, h2⟩; exact ⟨Or.inr h1, h2⟩
      · rintro ⟨h1 | h1, h2⟩
        · exact absurd h1 h2
        · exact ⟨h1, h2⟩
    · have hne : ¬ (some p = some b) := fun e => he (Option.some.inj e)
      simp only [headerBooks, hne, if_false, List.singleton_append]
      constructor
      · refine List.Pairwise.cons ?_ i1
        intro x hx
        have := (i2 x).1 hx
        have := hb_le x this.1
        omega
      · intro x
        simp only [List.mem_cons]
        rw [i2]
        constructor
        · rintro (h | ⟨h1, h2⟩)
          · exact ⟨Or.inl h, by omega⟩
          · have := hb_le x h1
            exact ⟨Or.inr h1, by omega⟩
        · rintro ⟨h1 | h1, h2⟩
          · exact Or.inl h1
          · by_cases hx : x = b
            · exact Or.inl hx
            · exact Or.inr ⟨h1, hx⟩

theorem headerBooks_none (bs : List Int) (h : List.Pairwise (fun a b : Int => a ≤ b) bs) :
    List.Pairwise (fun a b : Int => a < b) (headerBooks none bs) ∧
    ∀ x, x ∈ headerBooks none bs ↔ x ∈ bs := by
  cases bs with
  | nil => simp [headerBooks]
  | cons b bs =>
    obtain ⟨i1, i2⟩ := headerBooks_some bs b h
    have hb_le : ∀ x ∈ bs, b ≤ x := (List.pairwise_cons.1 h).1
    have hns : ¬ ((none : Option Int) = some b) := fun e => Option.noConfusion e
    simp only [headerBooks, hns, List.singleton_append, if_false]
    constructor
    · refine List.Pairwise.cons ?_ i1
      intro x hx
      have := (i2 x).1 hx
      have := hb_le x this.1
      omega
    · intro x
      simp only [List.mem_cons]
      rw [i2]
      constructor
      · rintro (h | ⟨h1, _⟩)
        · exact Or.inl h
        · exact Or.inr h1
      · rintro (h1 | h1)
        · exact Or.inl h1
        · by_cases hx : x = b
          · exact Or.inl hx
          · exact Or.inr ⟨h1, hx⟩

/-- The books of strictly increasing positions of a corpus sorted by book are
non-decreasing. -/
theorem books_sorted (verses : List rsv2ce_verse)
    (hsorted : List.Pairwise (fun a b : rsv2ce_verse => a.book ≤ b.book) verses)
    (l : List Int) (hl : List.Pairwise (fun a b : Int => a < b) l)
    (hr : ∀ x ∈ l, 0 ≤ x ∧ x < verses.length) :
    List.Pairwise (fun a b : Int => a ≤ b) (l.map (fun i => (verseAt verses i).book)) := by
  rw [List.pairwise_map]
  have hget := List.pairwise_iff_getElem.1 hsorted
  refine (List.Pairwise.and_mem.1 hl).imp ?_
  rintro a b ⟨ha, hb, hab⟩
  have ra := hr a ha
  have rb := hr b hb
  have ea : verseAt verses a = verses.get ⟨a.toNat, by omega⟩ := by
    have h1 : verseAt verses ((a.toNat : Nat) : Int) = verseAt verses a := by
      congr 1; omega
    rw [← h1, verseAt_ofNat verses a.toNat (by omega)]
    rfl
  have eb : verseAt verses b = verses.get ⟨b.toNat, by omega⟩ := by
    have h1 : verseAt verses ((b.toNat : Nat) : Int) = verseAt verses b := by
      congr 1; omega
    rw [← h1, verseAt_ofNat verses b.toNat (by omega)]
    rfl
  rw [ea, eb]
  exact hget a.toNat b.toNat (by omega) (by omega) (by omega)

theorem verses_itemsOf (verses : List rsv2ce_verse) (l : List Int) :
    ∀ last : Option Int,
      (itemsOf verses last l).filterMap (fun e => match e with
        | rsv2ce_emitted.verse p => some p
        | _ => none) = l := by
  induction l with
  | nil => intro last; rfl
  | cons i rest ih =>
    intro last
    cases last with
    | none => simp [itemsOf, ih]
    | some j =>
      by_cases hb : (verseAt verses i).book = (verseAt verses j).book
      · simp [itemsOf, ih, hb]
      · simp [itemsOf, ih, hb]

theorem strtok_loop_splitOn (s : List Char) :
    ∀ token : List Char, ' ' ∉ token →
      strtok_loop s token = ((token ++ s).splitOn ' ').filter (fun w => w ≠ []) := by
  induction s with
  | nil =>
    intro token ht
    have h1 : (token ++ []).splitOn ' ' = [token] := by
      rw [List.append_nil]
      apply List.splitOnP_eq_single
      intro x hx hp
      have : x = ' ' := by simpa using hp
      exact ht (this ▸ hx)
    rw [h1]
    unfold strtok_loop
    by_cases he : token = []
    · simp [he]
    · simp [he]
  | cons c s ih =>
    intro token ht
    by_cases hc : c = ' '
    · subst hc
      have h1 : (token ++ ' ' :: s).splitOn ' ' = token :: s.splitOn ' ' := by
        apply List.splitOnP_first
        · intro x hx hp
          have : x = ' ' := by simpa using hp
          exact ht (this ▸ hx)
        · simp
      have ih0 := ih [] (by simp)
      rw [List.nil_append] at ih0
      rw [h1, strtok_loop]
      by_cases he : token = []
      · simp [he, ih0]
      · simp [he, ih0]
    · have ih1 := ih (token ++ [c]) (by
        intro hm
        rcases List.mem_append.1 hm with h | h
        · exact ht h
        · have : ' ' = c := by simpa using h
          exact hc this.symm)
      rw [strtok_loop, if_neg hc, ih1]
      simp

/-! ## Claims -/

/-- C1, evaluated where the code departs from it: with two verses of context
after each match and matches at positions 0 and 2 of a four-verse chapter, the
windows are [0, 2] and [2, 3], so the claim's list is 0, 1, 2, 3; the iterator
returns 0, 2, 3 and then -1, losing the context verse at position 1. -/
theorem C1_context_verse_lost :
    rsv2ce_parseref literalRegex sampleBooks "Gen 1:1,3".toList =
      (0, { ref_cleared with
              type := RSV2CE_REF_EXACT_SET, book := 1, chapter := 1, verse := 1,
              verse_set := some [1, 3] }) ∧
    rsv2ce_positions literalRegex sampleVerses
      (rsv2ce_parseref literalRegex sampleBooks "Gen 1:1,3".toList).2 afterTwoConfig 5
      next_initial = some [0, 2, 3] ∧
    windowPositions literalRegex sampleVerses
      (rsv2ce_parseref literalRegex sampleBooks "Gen 1:1,3".toList).2 afterTwoConfig =
      [0, 1, 2, 3] := by
  decide

/-- C2, evaluated where the code departs from it: for the RangeExt query of
`Gen 6:1-5:1`, whose start chapter exceeds its end chapter, the span
`(6, 1) <= (chapter, verse) <= (5, 1)` is empty, yet the verse 6:5 matches. -/
theorem C2_range_ext_reversed :
    rsv2ce_parseref literalRegex sampleBooks "Gen 6:1-5:1".toList =
      (0, { ref_cleared with
              type := RSV2CE_REF_RANGE_EXT, book := 1, chapter := 6, verse := 1,
              chapter_end := 5, verse_end := 1 }) ∧
    rsv2ce_verse_matches literalRegex
      (rsv2ce_parseref literalRegex sampleBooks "Gen 6:1-5:1".toList).2
      { book := 1, chapter := 6, verse := 5, text := "epsilon".toList } = true ∧
    inSpan 6 1 5 1 6 5 = false := by
  decide
/-- C4: with `norm` removing every space and lower-casing every letter,
`rsv2ce_book_fromname` returns the `number` of the first book in list order
whose normalised abbreviation equals the normalised token or whose normalised
name has the normalised token as a prefix, and 0 when no book qualifies; an
earlier book that qualifies by prefix wins over any later book. -/
theorem C4_book_fromname_first_match (books : List rsv2ce_book) (token : List Char) :
    rsv2ce_book_fromname books token = resolveSpec books token ∧
    (∀ (pre : List rsv2ce_book) (b : rsv2ce_book) (post : List rsv2ce_book),
      books = pre ++ b :: post → (∀ x ∈ pre, qualifies token x = false) →
      qualifies token b = true → rsv2ce_book_fromname books token = b.number) ∧
    ((∀ x ∈ books, qualifies token x = false) → rsv2ce_book_fromname books token = 0) :=
  ⟨book_fromname_eq_resolveSpec books token, book_fromname_first books token,
    book_fromname_none books token⟩

theorem C4_book_fromname_first_match_witness :
    norm "J o".toList = norm "Jo".toList ∧
    rsv2ce_book_fromname prefixBooks "J o".toList = 1 :=
  ⟨by decide,
    (C4_book_fromname_first_match prefixBooks "J o".toList).2.1 []
      { number := 1, name := "Joshua".toList, abbr := "Josh".toList }
      [{ number := 2, name := "Job".toList, abbr := "Jo".toList }] rfl (by decide) (by decide)⟩

/-- C5: two tokens that become equal after removing all spaces and
lower-casing all letters resolve to the same book identifier. -/
theorem C5_book_fromname_insensitive (books : List rsv2ce_book) (s t : List Char)
    (h : norm s = norm t) :
    rsv2ce_book_fromname books s = rsv2ce_book_fromname books t :=
  book_fromname_congr books s t h

theorem C5_book_fromname_insensitive_witness :
    rsv2ce_book_fromname sampleBooks "GenEsis".toList =
        rsv2ce_book_fromname sampleBooks "G e n e s i s".toList ∧
    rsv2ce_book_fromname sampleBooks "genesis".toList = 1 ∧
    rsv2ce_book_fromname sampleBooks "G e n e s i s".toList = 1 :=
  ⟨C5_book_fromname_insensitive sampleBooks "GenEsis".toList "G e n e s i s".toList
      (by decide), by decide, by decide⟩
/-- C6: for a book token `t` and numerals `c`, `v` with `1 <= c, v < 2^32`,
`rsv2ce_parseref` accepts `t`, `t[:]c` and `t[:]c:v` and yields the Exact query
with the resolved book, the chapter and verse given (0 when absent) and every
other field cleared; that query matches a verse of the data model exactly when
the verse's book is the resolved book and each component given in the string
equals the verse's; and in a corpus strictly sorted by (book, chapter, verse)
the query of `t[:]c:v` matches at most one position. -/
theorem C6_exact_forms (re : RegexLib) (books : List rsv2ce_book) (t c v : List Char)
    (colon : Bool)
    (hb : booksOneBased books) (ht : isBookToken t = true)
    (hc : isNumeral c = true) (hv : isNumeral v = true)
    (hc1 : 1 ≤ numVal c) (hc2 : numVal c < 4294967296)
    (hv1 : 1 ≤ numVal v) (hv2 : numVal v < 4294967296) :
    rsv2ce_parseref re books t =
        (0, { ref_cleared with
                type := RSV2CE_REF_EXACT, book := (rsv2ce_book_fromname books t).toNat }) ∧
    rsv2ce_parseref re books (t ++ (optColon colon ++ c)) =
        (0, { ref_cleared with
                type := RSV2CE_REF_EXACT, book := (rsv2ce_book_fromname books t).toNat,
                chapter := numVal c }) ∧
    rsv2ce_parseref re books (t ++ (optColon colon ++ (c ++ ':' :: v))) =
        (0, { ref_cleared with
                type := RSV2CE_REF_EXACT, book := (rsv2ce_book_fromname books t).toNat,
                chapter := numVal c, verse := numVal v }) ∧
    (∀ verse : rsv2ce_verse, verseOneBased verse →
      (rsv2ce_verse_matches re (rsv2ce_parseref re books t).2 verse = true ↔
        verse.book = rsv2ce_book_fromname books t) ∧
      (rsv2ce_verse_matches re
          (rsv2ce_parseref re books (t ++ (optColon colon ++ c))).2 verse = true ↔
        verse.book = rsv2ce_book_fromname books t ∧ verse.chapter = numVal c) ∧
      (rsv2ce_verse_matches re
          (rsv2ce_parseref re books (t ++ (optColon colon ++ (c ++ ':' :: v)))).2 verse = true ↔
        verse.book = rsv2ce_book_fromname books t ∧ verse.chapter = numVal c ∧
          verse.verse = numVal v)) ∧
    (∀ verses : List rsv2ce_verse, (∀ x ∈ verses, verseOneBased x) →
      List.Pairwise verseLt verses →
      ∀ (i j : Nat) (hi : i < verses.length) (hj : j < verses.length),
        rsv2ce_verse_matches re
          (rsv2ce_parseref re books (t ++ (optColon colon ++ (c ++ ':' :: v)))).2
          verses[i] = true →
        rsv2ce_verse_matches re
          (rsv2ce_parseref re books (t ++ (optColon colon ++ (c ++ ':' :: v)))).2
          verses[j] = true →
        i = j) := by
  have hbk := book_fromname_range books t hb
  have hU : toU32 (rsv2ce_book_fromname books t) = (rsv2ce_book_fromname books t).toNat :=
    toU32_pos _ hbk.1 hbk.2
  have e1 : rsv2ce_parseref re books t =
      (0, { ref_cleared with
              type := RSV2CE_REF_EXACT, book := (rsv2ce_book_fromname books t).toNat }) := by
    have := parseref_book re books t [] ht rfl
    rw [List.append_nil] at this
    rw [this, afterbook_nil, hU]
  have e2 : rsv2ce_parseref re books (t ++ (optColon colon ++ c)) =
      (0, { ref_cleared with
              type := RSV2CE_REF_EXACT, book := (rsv2ce_book_fromname books t).toNat,
              chapter := numVal c }) := by
    have h1 := parseref_book re books t (optColon colon ++ (c ++ [])) ht
      (stopsAt_bookChar_chapter colon c [] hc)
    have h2 := afterbook_chapter re
      { ref_cleared with book := toU32 (rsv2ce_book_fromname books t) } colon c [] hc rfl
    rw [List.append_nil] at h1 h2
    rw [h1, h2, afterchapter_nil, hU, storeU_small _ hc2]
  have e3 : rsv2ce_parseref re books (t ++ (optColon colon ++ (c ++ ':' :: v))) =
      (0, { ref_cleared with
              type := RSV2CE_REF_EXACT, book := (rsv2ce_book_fromname books t).toNat,
              chapter := numVal c, verse := numVal v }) := by
    have h1 := parseref_book re books t (optColon colon ++ (c ++ ':' :: v)) ht
      (stopsAt_bookChar_chapter colon c _ hc)
    have h2 := afterbook_chapter re
      { ref_cleared with book := toU32 (rsv2ce_book_fromname books t) } colon c (':' :: v) hc
      (stopsAt_digit_cons ':' v (by decide))
    have h3 := afterchapter_verse re
      { ref_cleared with book := toU32 (rsv2ce_book_fromname books t),
                         chapter := storeU false (numVal c) } v [] hv rfl
    rw [List.append_nil] at h3
    rw [h1, h2, h3, afterverse_nil, hU, storeU_small _ hc2, storeU_small _ hv2]
  have m3 : ∀ verse : rsv2ce_verse, verseOneBased verse →
      (rsv2ce_verse_matches re
          (rsv2ce_parseref re books (t ++ (optColon colon ++ (c ++ ':' :: v)))).2 verse = true ↔
        verse.book = rsv2ce_book_fromname books t ∧ verse.chapter = numVal c ∧
          verse.verse = numVal v) := by
    intro verse hvo
    rw [e3, exact_matches_iff re _ verse rfl hvo]
    simp only [ref_cleared]
    omega
  refine ⟨e1, e2, e3, ?_, ?_⟩
  · intro verse hvo
    refine ⟨?_, ?_, m3 verse hvo⟩
    · rw [e1, exact_matches_iff re _ verse rfl hvo]
      simp only [ref_cleared, true_or, and_true]
      omega
    · rw [e2, exact_matches_iff re _ verse rfl hvo]
      simp only [ref_cleared, true_or, and_true]
      omega
  · intro verses hall hsorted i j hi hj mi mj
    have hi' := (m3 verses[i] (hall _ (List.getElem_mem hi))).1 mi
    have hj' := (m3 verses[j] (hall _ (List.getElem_mem hj))).1 mj
    rw [List.pairwise_iff_getElem] at hsorted
    rcases Nat.lt_trichotomy i j with h | h | h
    · have := hsorted i j hi hj h
      simp only [verseLt] at this
      omega
    · exact h
    · have := hsorted j i hj hi h
      simp only [verseLt] at this
      omega

theorem C6_exact_forms_witness :
    rsv2ce_parseref literalRegex sampleBooks "Gen ".toList =
        (0, { ref_cleared with type := RSV2CE_REF_EXACT, book := 1 }) ∧
    rsv2ce_parseref literalRegex sampleBooks "Gen 1:3".toList =
        (0, { ref_cleared with type := RSV2CE_REF_EXACT, book := 1, chapter := 1, verse := 3 }) ∧
    (rsv2ce_verse_matches literalRegex
        (rsv2ce_parseref literalRegex sampleBooks "Gen 1:3".toList).2
        { book := 1, chapter := 1, verse := 3, text := "gamma".toList } = true ↔
      (1 : Int) = 1 ∧ (1 : Int) = 1 ∧ (3 : Int) = 3) := by
  have h := C6_exact_forms literalRegex sampleBooks "Gen ".toList "1".toList "3".toList false
    (by decide) (by decide) (by decide) (by decide) (by decide) (by decide) (by decide)
    (by decide)
  exact ⟨h.1, h.2.2.1,
    (h.2.2.2.1 { book := 1, chapter := 1, verse := 3, text := "gamma".toList }
      (by decide)).2.2⟩
/-- C7: for a book token `t` and numerals `c`, `d`, `v`, `w` with values in
`[1, 2^32)` (for `c`, below `2^32` suffices), `rsv2ce_parseref` accepts `t[:]c-d` and yields the Range query with
the resolved book, `chapter = c`, `chapter_end = d` and no verse bounds, which
matches a verse of the data model exactly when its book is the resolved book
and `c <= chapter <= d`; and it accepts `t[:]c:v-w` and yields the Range query
with `chapter = c`, `chapter_end = 0`, `verse = v`, `verse_end = w`, which
matches exactly when the book is the resolved book, the chapter is `c` and
`v <= verse <= w`. -/
theorem C7_range_forms (re : RegexLib) (books : List rsv2ce_book) (t c d v w : List Char)
    (colon : Bool)
    (hb : booksOneBased books) (ht : isBookToken t = true)
    (hc : isNumeral c = true) (hd : isNumeral d = true)
    (hv : isNumeral v = true) (hw : isNumeral w = true)
    (hc2 : numVal c < 4294967296)
    (hd1 : 1 ≤ numVal d) (hd2 : numVal d < 4294967296)
    (hv1 : 1 ≤ numVal v) (hv2 : numVal v < 4294967296)
    (hw1 : 1 ≤ numVal w) (hw2 : numVal w < 4294967296) :
    rsv2ce_parseref re books (t ++ (optColon colon ++ (c ++ '-' :: d))) =
        (0, { ref_cleared with
                type := RSV2CE_REF_RANGE, book := (rsv2ce_book_fromname books t).toNat,
                chapter := numVal c, chapter_end := numVal d }) ∧
    rsv2ce_parseref re books (t ++ (optColon colon ++ (c ++ ':' :: (v ++ '-' :: w)))) =
        (0, { ref_cleared with
                type := RSV2CE_REF_RANGE, book := (rsv2ce_book_fromname books t).toNat,
                chapter := numVal c, verse := numVal v, verse_end := numVal w }) ∧
    (∀ verse : rsv2ce_verse, verseOneBased verse →
      (rsv2ce_verse_matches re
          (rsv2ce_parseref re books (t ++ (optColon colon ++ (c ++ '-' :: d)))).2
          verse = true ↔
        verse.book = rsv2ce_book_fromname books t ∧
          (numVal c : Int) ≤ verse.chapter ∧ verse.chapter ≤ numVal d) ∧
      (rsv2ce_verse_matches re
          (rsv2ce_parseref re books
            (t ++ (optColon colon ++ (c ++ ':' :: (v ++ '-' :: w))))).2 verse = true ↔
        verse.book = rsv2ce_book_fromname books t ∧ verse.chapter = numVal c ∧
          (numVal v : Int) ≤ verse.verse ∧ verse.verse ≤ numVal w)) := by
  have hbk := book_fromname_range books t hb
  have hU : toU32 (rsv2ce_book_fromname books t) = (rsv2ce_book_fromname books t).toNat :=
    toU32_pos _ hbk.1 hbk.2
  have e4 : rsv2ce_parseref re books (t ++ (optColon colon ++ (c ++ '-' :: d))) =
      (0, { ref_cleared with
              type := RSV2CE_REF_RANGE, book := (rsv2ce_book_fromname books t).toNat,
              chapter := numVal c, chapter_end := numVal d }) := by
    rw [parseref_book re books t _ ht (stopsAt_bookChar_chapter colon c _ hc),
      afterbook_chapter re _ colon c ('-' :: d) hc (stopsAt_digit_cons '-' d (by decide)),
      afterchapter_range re _ d hd, hU, storeU_small _ hc2, storeU_small _ hd2]
  have e5 : rsv2ce_parseref re books
      (t ++ (optColon colon ++ (c ++ ':' :: (v ++ '-' :: w)))) =
      (0, { ref_cleared with
              type := RSV2CE_REF_RANGE, book := (rsv2ce_book_fromname books t).toNat,
              chapter := numVal c, verse := numVal v, verse_end := numVal w }) := by
    rw [parseref_book re books t _ ht (stopsAt_bookChar_chapter colon c _ hc),
      afterbook_chapter re _ colon c (':' :: (v ++ '-' :: w)) hc
        (stopsAt_digit_cons ':' _ (by decide)),
      afterchapter_verse re _ v ('-' :: w) hv (stopsAt_digit_cons '-' w (by decide)),
      afterverse_range _ w hw, hU, storeU_small _ hc2, storeU_small _ hv2,
      storeU_small _ hw2]
  refine ⟨e4, e5, ?_⟩
  intro verse hvo
  constructor
  · rw [e4, range_matches_iff re _ verse rfl hvo]
    simp only [ref_cleared, true_or, and_true]
    omega
  · rw [e5, range_matches_iff re _ verse rfl hvo]
    simp only [ref_cleared, true_and]
    have := hvo.2.2.1
    omega

theorem C7_range_forms_witness :
    rsv2ce_parseref literalRegex sampleBooks "Gen 1:2-3".toList =
        (0, { ref_cleared with
                type := RSV2CE_REF_RANGE, book := 1, chapter := 1, verse := 2,
                verse_end := 3 }) ∧
    (rsv2ce_verse_matches literalRegex
        (rsv2ce_parseref literalRegex sampleBooks "Gen 1:2-3".toList).2
        { book := 1, chapter := 1, verse := 4, text := "delta".toList } = true ↔
      (1 : Int) = 1 ∧ (1 : Int) = 1 ∧ (2 : Int) ≤ 4 ∧ (4 : Int) ≤ 3) := by
  have h := C7_range_forms literalRegex sampleBooks "Gen ".toList "1".toList "2".toList
    "2".toList "3".toList false (by decide) (by decide) (by decide) (by decide) (by decide)
    (by decide) (by decide) (by decide) (by decide) (by decide) (by decide) (by decide)
    (by decide)
  exact ⟨h.2.1,
    (h.2.2 { book := 1, chapter := 1, verse := 4, text := "delta".toList } (by decide)).2⟩
/-- C8, the claim as stated fails: after the dash-number of `Gen 1:2-3` the
input `: 4` is not a colon followed by a numeral, yet the string is accepted
as a RangeExt query with `verse_end = 4` instead of failing with return value 1. -/
theorem C8_counterexample :
    isNumeral " 4".toList = false ∧
    rsv2ce_parseref literalRegex sampleBooks ("Gen 1:2-3".toList ++ ':' :: " 4".toList) =
      (0, { ref_cleared with
              type := RSV2CE_REF_RANGE_EXT, book := 1, chapter := 1, verse := 2,
              chapter_end := 3, verse_end := 4 }) := by
  decide

/-- C8 (amended): for a book token `t` and numerals `c`, `v`, `d`, `w` below
`2^32`, `rsv2ce_parseref` accepts `t[:]c:v-d:w` and yields the RangeExt query
with the resolved book, `chapter = c`, `verse = v`, `chapter_end = d`,
`verse_end = w`; and when input `r` remains after the dash-number `d`, the
parse succeeds if `r` is a colon followed by what `%u` reads to the end of the
string (optional white space, an optional sign, a numeral) and fails with
return value 1 for every other `r`. -/
theorem C8_range_ext_form (re : RegexLib) (books : List rsv2ce_book) (t c v d w : List Char)
    (colon : Bool)
    (hb : booksOneBased books) (ht : isBookToken t = true)
    (hc : isNumeral c = true) (hv : isNumeral v = true)
    (hd : isNumeral d = true) (hw : isNumeral w = true)
    (hc2 : numVal c < 4294967296) (hv2 : numVal v < 4294967296)
    (hd2 : numVal d < 4294967296) (hw2 : numVal w < 4294967296) :
    rsv2ce_parseref re books
        (t ++ (optColon colon ++ (c ++ ':' :: (v ++ '-' :: (d ++ ':' :: w))))) =
      (0, { ref_cleared with
              type := RSV2CE_REF_RANGE_EXT, book := (rsv2ce_book_fromname books t).toNat,
              chapter := numVal c, verse := numVal v, chapter_end := numVal d,
              verse_end := numVal w }) ∧
    (∀ r : List Char, r ≠ [] → stopsAt isDigit r = true →
      (rsv2ce_parseref re books
          (t ++ (optColon colon ++ (c ++ ':' :: (v ++ '-' :: (d ++ r)))))).1 =
        if isExtTail r = true then 0 else 1) := by
  have hbk := book_fromname_range books t hb
  have hU : toU32 (rsv2ce_book_fromname books t) = (rsv2ce_book_fromname books t).toNat :=
    toU32_pos _ hbk.1 hbk.2
  have stage : ∀ r : List Char, r ≠ [] → stopsAt isDigit r = true →
      rsv2ce_parseref re books
          (t ++ (optColon colon ++ (c ++ ':' :: (v ++ '-' :: (d ++ r))))) =
        parseref_ext
          { ref_cleared with
              book := (rsv2ce_book_fromname books t).toNat, chapter := numVal c,
              verse := numVal v, chapter_end := numVal d } r := by
    intro r hne hr
    rw [parseref_book re books t _ ht (stopsAt_bookChar_chapter colon c _ hc),
      afterbook_chapter re _ colon c _ hc (stopsAt_digit_cons ':' _ (by decide)),
      afterchapter_verse re _ v _ hv (stopsAt_digit_cons '-' _ (by decide)),
      afterverse_ext _ d r hd hr hne, hU, storeU_small _ hc2, storeU_small _ hv2,
      storeU_small _ hd2]
  constructor
  · rw [stage (':' :: w) (by simp) (stopsAt_digit_cons ':' w (by decide)),
      ext_verse _ w hw, storeU_small _ hw2]
  · intro r hne hr
    rw [stage r hne hr, ext_result]

theorem C8_range_ext_form_witness :
    rsv2ce_parseref literalRegex sampleBooks "Gen 1:2-3:4".toList =
        (0, { ref_cleared with
                type := RSV2CE_REF_RANGE_EXT, book := 1, chapter := 1, verse := 2,
                chapter_end := 3, verse_end := 4 }) ∧
    (rsv2ce_parseref literalRegex sampleBooks "Gen 1:2-3:4x".toList).1 = 1 := by
  have h := C8_range_ext_form literalRegex sampleBooks "Gen ".toList "1".toList "2".toList
    "3".toList "4".toList false (by decide) (by decide) (by decide) (by decide) (by decide)
    (by decide) (by decide) (by decide) (by decide) (by decide)
  exact ⟨h.1, h.2 ":4x".toList (by decide) (by decide)⟩
/-- C9, the claim as stated fails for the chapter numeral `0`: the query of
`Gen 0:1,3` matches verse 1 of chapter 1, whose chapter is not 0. -/
theorem C9_counterexample :
    rsv2ce_parseref literalRegex sampleBooks "Gen 0:1,3".toList =
      (0, { ref_cleared with
              type := RSV2CE_REF_EXACT_SET, book := 1, chapter := 0, verse := 1,
              verse_set := some [1, 3] }) ∧
    rsv2ce_verse_matches literalRegex
      (rsv2ce_parseref literalRegex sampleBooks "Gen 0:1,3".toList).2
      { book := 1, chapter := 1, verse := 1, text := "alpha".toList } = true ∧
    (1 : Int) ≠ numVal "0".toList := by
  decide

/-- C9 (amended): for a book token `t`, numerals `c`, `v` and a non-empty list
of numerals `w, ws` (all below `2^32`), `rsv2ce_parseref` accepts
`t[:]c:v,w,...` and yields the ExactSet query with the resolved book,
`chapter = c` and a verse set whose members are exactly the values of `v`, `w`
and `ws`; that query matches a verse of the data model exactly when its book
is the resolved book, its chapter is `c` (any chapter when `c` is 0) and its
verse number is one of those values.  Any non-empty remainder that does not
begin a further comma-number (a comma, optional white space, an optional sign,
a digit) makes the parse fail with return value 1. -/
theorem C9_exact_set_form (re : RegexLib) (books : List rsv2ce_book) (t c v w : List Char)
    (ws : List (List Char)) (colon : Bool)
    (hb : booksOneBased books) (ht : isBookToken t = true)
    (hc : isNumeral c = true) (hv : isNumeral v = true)
    (hw : isNumeral w = true ∧ numVal w < 4294967296)
    (hws : ∀ x ∈ ws, isNumeral x = true ∧ numVal x < 4294967296)
    (hc2 : numVal c < 4294967296) (hv2 : numVal v < 4294967296) :
    rsv2ce_parseref re books
        (t ++ (optColon colon ++ (c ++ ':' :: (v ++ commaList (w :: ws))))) =
      (0, { ref_cleared with
              type := RSV2CE_REF_EXACT_SET, book := (rsv2ce_book_fromname books t).toNat,
              chapter := numVal c, verse := numVal v,
              verse_set := some (verseSetOf v (w :: ws)) }) ∧
    (∀ y : Nat, y ∈ verseSetOf v (w :: ws) ↔ y = numVal v ∨ ∃ x ∈ w :: ws, y = numVal x) ∧
    (∀ verse : rsv2ce_verse, verseOneBased verse →
      (rsv2ce_verse_matches re
          (rsv2ce_parseref re books
            (t ++ (optColon colon ++ (c ++ ':' :: (v ++ commaList (w :: ws)))))).2
          verse = true ↔
        verse.book = rsv2ce_book_fromname books t ∧
          (numVal c = 0 ∨ verse.chapter = numVal c) ∧
          (verse.verse = numVal v ∨ ∃ x ∈ w :: ws, verse.verse = numVal x))) ∧
    (∀ r : List Char, r ≠ [] → stopsAt isDigit r = true → startsCommaNumber r = false →
      (rsv2ce_parseref re books
          (t ++ (optColon colon ++ (c ++ ':' :: (v ++ (commaList (w :: ws) ++ r)))))).1 = 1) := by
  have hbk := book_fromname_range books t hb
  have hU : toU32 (rsv2ce_book_fromname books t) = (rsv2ce_book_fromname books t).toNat :=
    toU32_pos _ hbk.1 hbk.2
  have stage : ∀ r : List Char, stopsAt isDigit r = true → scanLitU ',' r = none →
      rsv2ce_parseref re books
          (t ++ (optColon colon ++ (c ++ ':' :: (v ++ (commaList (w :: ws) ++ r))))) =
        if r.head? ≠ none then
          (1, { ref_cleared with
                  book := (rsv2ce_book_fromname books t).toNat, chapter := numVal c,
                  verse := numVal v, verse_set := some (verseSetOf v (w :: ws)) })
        else
          (0, { ref_cleared with
                  type := RSV2CE_REF_EXACT_SET,
                  book := (rsv2ce_book_fromname books t).toNat, chapter := numVal c,
                  verse := numVal v, verse_set := some (verseSetOf v (w :: ws)) }) := by
    intro r hr hstop
    rw [parseref_book re books t _ ht (stopsAt_bookChar_chapter colon c _ hc),
      afterbook_chapter re _ colon c _ hc (stopsAt_digit_cons ':' _ (by decide)),
      afterchapter_verse re _ v _ hv (stopsAt_digit_commaList (w :: ws) r hr),
      afterverse_set _ w ws r hw hws hr hstop, hU, storeU_small _ hc2, storeU_small _ hv2]
    rfl
  have e : rsv2ce_parseref re books
      (t ++ (optColon colon ++ (c ++ ':' :: (v ++ commaList (w :: ws))))) =
      (0, { ref_cleared with
              type := RSV2CE_REF_EXACT_SET, book := (rsv2ce_book_fromname books t).toNat,
              chapter := numVal c, verse := numVal v,
              verse_set := some (verseSetOf v (w :: ws)) }) := by
    have := stage [] rfl rfl
    simpa using this
  refine ⟨e, mem_verseSetOf v (w :: ws), ?_, ?_⟩
  · intro verse hvo
    rw [e, exactset_matches_iff re _ verse (verseSetOf v (w :: ws)) rfl rfl hvo,
      mem_verseSetOf]
    have hv0 := hvo.2.2.2.2.1
    simp only [ref_cleared]
    constructor
    · rintro ⟨h1, h2, h3 | ⟨x, hx, h3⟩⟩
      · exact ⟨by omega, by omega, Or.inl (by omega)⟩
      · exact ⟨by omega, by omega, Or.inr ⟨x, hx, by omega⟩⟩
    · rintro ⟨h1, h2, h3 | ⟨x, hx, h3⟩⟩
      · exact ⟨by omega, by omega, Or.inl (by omega)⟩
      · exact ⟨by omega, by omega, Or.inr ⟨x, hx, by omega⟩⟩
  · intro r hne hr hstop
    have hhead : r.head? ≠ none := by
      cases r with
      | nil => exact absurd rfl hne
      | cons x r => simp
    rw [stage r hr ((scanLitU_comma_none_iff r).2 hstop), if_pos hhead]

theorem C9_exact_set_form_witness :
    rsv2ce_parseref literalRegex sampleBooks "Gen 1:1,3,4".toList =
        (0, { ref_cleared with
                type := RSV2CE_REF_EXACT_SET, book := 1, chapter := 1, verse := 1,
                verse_set := some [1, 3, 4] }) ∧
    (rsv2ce_parseref literalRegex sampleBooks "Gen 1:1,3,4,".toList).1 = 1 := by
  have h := C9_exact_set_form literalRegex sampleBooks "Gen ".toList "1".toList "1".toList
    "3".toList ["4".toList] false (by decide) (by decide) (by decide) (by decide) (by decide)
    (by decide) (by decide) (by decide)
  exact ⟨h.1, h.2.2.2 ",".toList (by decide) (by decide) (by decide)⟩
/-- C10, the claim as stated fails: the claim takes every numeral `c`, but the
chapter is read with `%u` into an `unsigned int`, so for the numeral
4294967297 (`2^32 + 1`) the query of `Gen 4294967297/a` has chapter 1, not
4294967297. -/
theorem C10_counterexample :
    isNumeral "4294967297".toList = true ∧
    numVal "4294967297".toList = 4294967297 ∧
    literalRegex.compiles "a".toList = true ∧
    rsv2ce_parseref literalRegex sampleBooks "Gen 4294967297/a".toList =
      (0, { ref_cleared with
              type := RSV2CE_REF_SEARCH, book := 1, chapter := 1,
              search_str := some "a".toList, search := some "a".toList }) := by
  decide

/-- C10 (amended): with regular-expression compilation abstract
(`re.compiles`), for every pattern text `p`, book token `t` and numeral `c`
below `2^32`, `rsv2ce_parseref` on `/p`, on `t/p` and on `t[:]c/p` returns 2
exactly when `p` fails to compile, and otherwise returns 0 with the Search
query whose pattern is `p`, whose book is 0 for `/p` and the resolved book
otherwise, and whose chapter is `c` when given and 0 otherwise. -/
theorem C10_search_forms (re : RegexLib) (books : List rsv2ce_book) (p t c : List Char)
    (colon : Bool)
    (hb : booksOneBased books) (ht : isBookToken t = true)
    (hc : isNumeral c = true) (hc2 : numVal c < 4294967296) :
    (((rsv2ce_parseref re books ('/' :: p)).1 = 2 ↔ re.compiles p = false) ∧
      (re.compiles p = true →
        rsv2ce_parseref re books ('/' :: p) =
          (0, { ref_cleared with
                  type := RSV2CE_REF_SEARCH, search_str := some p, search := some p }))) ∧
    (((rsv2ce_parseref re books (t ++ '/' :: p)).1 = 2 ↔ re.compiles p = false) ∧
      (re.compiles p = true →
        rsv2ce_parseref re books (t ++ '/' :: p) =
          (0, { ref_cleared with
                  type := RSV2CE_REF_SEARCH, book := (rsv2ce_book_fromname books t).toNat,
                  search_str := some p, search := some p }))) ∧
    (((rsv2ce_parseref re books (t ++ (optColon colon ++ (c ++ '/' :: p)))).1 = 2 ↔
        re.compiles p = false) ∧
      (re.compiles p = true →
        rsv2ce_parseref re books (t ++ (optColon colon ++ (c ++ '/' :: p))) =
          (0, { ref_cleared with
                  type := RSV2CE_REF_SEARCH, book := (rsv2ce_book_fromname books t).toNat,
                  chapter := numVal c, search_str := some p, search := some p }))) := by
  have hbk := book_fromname_range books t hb
  have hU : toU32 (rsv2ce_book_fromname books t) = (rsv2ce_book_fromname books t).toNat :=
    toU32_pos _ hbk.1 hbk.2
  refine ⟨?_, ?_, ?_⟩
  · rw [parseref_slash]
    exact search_result re _ p
  · rw [parseref_book re books t _ ht (stopsAt_bookChar_slash p), afterbook_search, hU]
    exact search_result re _ p
  · rw [parseref_book re books t _ ht (stopsAt_bookChar_chapter colon c _ hc),
      afterbook_chapter re _ colon c _ hc (stopsAt_digit_cons '/' _ (by decide)),
      afterchapter_search, hU, storeU_small _ hc2]
    exact search_result re _ p

theorem C10_search_forms_witness :
    rsv2ce_parseref literalRegex sampleBooks "/love".toList =
        (0, { ref_cleared with
                type := RSV2CE_REF_SEARCH, search_str := some "love".toList,
                search := some "love".toList }) ∧
    (rsv2ce_parseref literalRegex sampleBooks "/[".toList).1 = 2 ∧
    rsv2ce_parseref literalRegex sampleBooks "Gen 1/love".toList =
        (0, { ref_cleared with
                type := RSV2CE_REF_SEARCH, book := 1, chapter := 1,
                search_str := some "love".toList, search := some "love".toList }) :=
  ⟨(C10_search_forms literalRegex sampleBooks "love".toList "Gen ".toList "1".toList false
      (by decide) (by decide) (by decide) (by decide)).1.2 (by decide),
   ((C10_search_forms literalRegex sampleBooks "[".toList "Gen ".toList "1".toList false
      (by decide) (by decide) (by decide) (by decide)).1.1).2 (by decide),
   (C10_search_forms literalRegex sampleBooks "love".toList "Gen ".toList "1".toList false
      (by decide) (by decide) (by decide) (by decide)).2.2.2 (by decide)⟩

/-- C11: on every input that contains no ASCII letter and does not begin with
`/` (the empty string and `3:16` included) `rsv2ce_parseref` returns 1 and
leaves the record cleared, so its type is 0 and it is none of the five query
variants. -/
theorem C11_no_letter_rejected (re : RegexLib) (books : List rsv2ce_book) (s : List Char)
    (hl : ∀ c ∈ s, isLetter c = false) (hs : s.head? ≠ some '/') :
    rsv2ce_parseref re books s = (1, ref_cleared) ∧
    (rsv2ce_parseref re books s).2.type = 0 ∧
    (rsv2ce_parseref re books s).2.type ≠ RSV2CE_REF_SEARCH ∧
    (rsv2ce_parseref re books s).2.type ≠ RSV2CE_REF_EXACT ∧
    (rsv2ce_parseref re books s).2.type ≠ RSV2CE_REF_EXACT_SET ∧
    (rsv2ce_parseref re books s).2.type ≠ RSV2CE_REF_RANGE ∧
    (rsv2ce_parseref re books s).2.type ≠ RSV2CE_REF_RANGE_EXT := by
  have h : rsv2ce_parseref re books s = (1, ref_cleared) := by
    have hm := scanbook_loop_noletter s 0 hl
    unfold rsv2ce_parseref rsv2ce_scanbook
    simp [hm, hs]
  rw [h]
  exact ⟨rfl, rfl, by decide, by decide, by decide, by decide, by decide⟩

theorem C11_no_letter_rejected_witness :
    rsv2ce_parseref literalRegex sampleBooks "3:16".toList = (1, ref_cleared) ∧
    rsv2ce_parseref literalRegex sampleBooks [] = (1, ref_cleared) :=
  ⟨(C11_no_letter_rejected literalRegex sampleBooks "3:16".toList (by decide) (by decide)).1,
   (C11_no_letter_rejected literalRegex sampleBooks [] (by decide) (by decide)).1⟩

/-- C12: for a book token `t`, numerals `c`, `v` and a non-empty suffix `s`
whose first character is not `-`, not `,` and not a digit, `rsv2ce_parseref`
on `t[:]c:v` followed by `s` fails with return value 1; so `Jn 3:16:` and
`Jn 3:16/love` are rejected. -/
theorem C12_verse_suffix_rejected (re : RegexLib) (books : List rsv2ce_book)
    (t c v s : List Char) (colon : Bool)
    (ht : isBookToken t = true) (hc : isNumeral c = true) (hv : isNumeral v = true)
    (hne : s ≠ []) (h1 : s.head? ≠ some '-') (h2 : s.head? ≠ some ',')
    (h3 : stopsAt isDigit s = true) :
    (rsv2ce_parseref re books (t ++ (optColon colon ++ (c ++ ':' :: (v ++ s))))).1 = 1 := by
  rw [parseref_book re books t _ ht (stopsAt_bookChar_chapter colon c _ hc),
    afterbook_chapter re _ colon c _ hc (stopsAt_digit_cons ':' _ (by decide)),
    afterchapter_verse re _ v s hv h3, afterverse_reject _ s hne h1 h2]

theorem C12_verse_suffix_rejected_witness :
    (rsv2ce_parseref literalRegex sampleBooks "Jn 3:16:".toList).1 = 1 ∧
    (rsv2ce_parseref literalRegex sampleBooks "Jn 3:16/love".toList).1 = 1 :=
  ⟨C12_verse_suffix_rejected literalRegex sampleBooks "Jn ".toList "3".toList "16".toList
      ":".toList false (by decide) (by decide) (by decide) (by decide) (by decide) (by decide)
      (by decide),
   C12_verse_suffix_rejected literalRegex sampleBooks "Jn ".toList "3".toList "16".toList
      "/love".toList false (by decide) (by decide) (by decide) (by decide) (by decide)
      (by decide) (by decide)⟩

/-- C14: for every corpus, query and configuration the iterator, started from
the initial state, returns -1 within `length + 1` calls, and before that it
returns every corpus position whose verse satisfies `rsv2ce_verse_matches`. -/
theorem C14_matches_returned (re : RegexLib) (verses : List rsv2ce_verse) (ref : rsv2ce_ref)
    (config : rsv2ce_config) :
    ∃ l, rsv2ce_positions re verses ref config (verses.length + 1) next_initial = some l ∧
      ∀ (i : Nat) (hi : i < verses.length),
        rsv2ce_verse_matches re ref (verses.get ⟨i, hi⟩) = true → (i : Int) ∈ l := by
  obtain ⟨l, h1, _, _, h4, _, _⟩ := positions_initial re verses ref config
  refine ⟨l, h1, ?_⟩
  intro i hi hm
  apply h4
  refine ⟨by omega, by omega, ?_⟩
  rw [verseAt_ofNat verses i hi]
  exact hm

/-- C15: for every corpus, query and configuration the positions returned by
successive calls of `rsv2ce_next_verse` from the initial state are strictly
increasing and lie in `[0, length)`; so none is returned twice, there are at
most `length` of them, and -1 is returned within `length + 1` calls. -/
theorem C15_positions_increasing (re : RegexLib) (verses : List rsv2ce_verse)
    (ref : rsv2ce_ref) (config : rsv2ce_config) :
    ∃ l, rsv2ce_positions re verses ref config (verses.length + 1) next_initial = some l ∧
      List.Pairwise (fun a b : Int => a < b) l ∧
      (∀ x ∈ l, 0 ≤ x ∧ x < verses.length) ∧
      l.Nodup ∧ l.length ≤ verses.length := by
  obtain ⟨l, h1, h2, h3, _, _, h6⟩ := positions_initial re verses ref config
  refine ⟨l, h1, h2, fun x hx => ⟨(h3 x hx).1, (h3 x hx).2.1⟩, ?_, h6⟩
  exact h2.imp (fun h => ne_of_lt h)

/-- C19: with non-negative context sizes, every position the iterator returns
lies in the context window of some matching position `m`; it therefore has the
book and chapter of `m` and, unless `context_chapter` is set, is at most
`context_before` positions before and `context_after` positions after `m`. -/
theorem C19_positions_in_window (re : RegexLib) (verses : List rsv2ce_verse)
    (ref : rsv2ce_ref) (config : rsv2ce_config)
    (hb : 0 ≤ config.context_before) (ha : 0 ≤ config.context_after) :
    ∃ l, rsv2ce_positions re verses ref config (verses.length + 1) next_initial = some l ∧
      ∀ x ∈ l, ∃ m, matchAt re verses ref m ∧ inWindow verses config m x = true ∧
        (verseAt verses x).book = (verseAt verses m).book ∧
        (verseAt verses x).chapter = (verseAt verses m).chapter ∧
        (config.context_chapter = false →
          m - config.context_before ≤ x ∧ x ≤ m + config.context_after) := by
  obtain ⟨l, h1, _, h3, _, _, _⟩ := positions_initial re verses ref config
  refine ⟨l, h1, ?_⟩
  intro x hx
  obtain ⟨m, hm, hlo, hhi⟩ := (h3 x hx).2.2
  have hs := window_same_chapter verses config m x hm.1 hm.2.1 hlo hhi
  refine ⟨m, hm, (inWindow_iff verses config m x).2 ⟨hlo, hhi⟩, hs.1, hs.2, ?_⟩
  intro hc
  have a := winLo_spec verses config m hm.1 hm.2.1
  have b := winHi_spec verses config m hm.1 hm.2.1
  have hcb : ctxBefore config = config.context_before := by simp [ctxBefore, hc]
  have hca : ctxAfter config = config.context_after := by simp [ctxAfter, hc]
  have a4 := a.2.2.2.1 (by rw [hcb]; omega) (by rw [hcb]; exact hb)
  have b4 := b.2.2.2.1 (by rw [hca]; omega) (by rw [hca]; exact ha)
  rw [hcb] at a4
  rw [hca] at b4
  constructor <;> omega

theorem C19_positions_in_window_witness :
    ∃ l, rsv2ce_positions literalRegex sampleVerses
        (rsv2ce_parseref literalRegex sampleBooks "Gen 1:1,3".toList).2 afterTwoConfig
        (sampleVerses.length + 1) next_initial = some l ∧
      ∀ x ∈ l, ∃ m,
        matchAt literalRegex sampleVerses
          (rsv2ce_parseref literalRegex sampleBooks "Gen 1:1,3".toList).2 m ∧
        inWindow sampleVerses afterTwoConfig m x = true ∧
        (verseAt sampleVerses x).book = (verseAt sampleVerses m).book ∧
        (verseAt sampleVerses x).chapter = (verseAt sampleVerses m).chapter ∧
        (afterTwoConfig.context_chapter = false →
          m - afterTwoConfig.context_before ≤ x ∧ x ≤ m + afterTwoConfig.context_after) :=
  C19_positions_in_window literalRegex sampleVerses
    (rsv2ce_parseref literalRegex sampleBooks "Gen 1:1,3".toList).2 afterTwoConfig
    (by decide) (by decide)

/-- C20: in every state reachable from the initial state by calls of
`rsv2ce_next_verse`, a call that stores a window in slot B finds slot B empty
at that moment; and whenever slot B is occupied, slot A is occupied, the end of
slot A is at most the start of slot B, and `current <= next_match` with
`next_match` inside slot B. -/
theorem C20_slot_B_never_overwritten (re : RegexLib) (verses : List rsv2ce_verse)
    (ref : rsv2ce_ref) (config : rsv2ce_config) (s : rsv2ce_next_data)
    (hreach : Reachable re verses ref config s) :
    (storesInB re verses ref config s → (next_promote s).matches1 = emptyRange) ∧
    (¬ (s.matches1.start = -1 ∧ s.matches1.end_ = -1) →
      ¬ (s.matches0.start = -1 ∧ s.matches0.end_ = -1) ∧
      s.matches0.end_ ≤ s.matches1.start ∧
      s.current ≤ s.next_match ∧
      s.matches1.start ≤ s.next_match ∧ s.next_match < s.matches1.end_) := by
  have hinv := inv_of_reachable re verses ref config s hreach
  constructor
  · intro hst
    have hpre := pre_of_inv re verses ref config s hinv hst.1
    exact (mid_of_pre re verses ref config _ hpre).2 hst.2.1
  · intro hB
    obtain ⟨_, _, hcase⟩ := hinv
    rcases hcase with ⟨_, hBe, _⟩ | ⟨_, _, hBe, _⟩ | ⟨a, ha, hA, hm, hBw, hlo, hhi, hsep, _⟩
    · rw [hBe] at hB
      exact absurd ⟨rfl, rfl⟩ hB
    · rw [hBe] at hB
      exact absurd ⟨rfl, rfl⟩ hB
    · have hwa := matchAt_window re verses ref config _ ha
      have hw := matchAt_window re verses ref config _ hm
      rw [hA, hBw]
      simp only [windowOf]
      refine ⟨?_, hsep, by omega, hw.2.1, by omega⟩
      intro h
      omega

theorem C20_slot_B_never_overwritten_witness :
    (rsv2ce_next_verse literalRegex sampleVerses
        (rsv2ce_parseref literalRegex sampleBooks "Gen 1:1,3".toList).2 afterOneConfig
        (rsv2ce_next_verse literalRegex sampleVerses
          (rsv2ce_parseref literalRegex sampleBooks "Gen 1:1,3".toList).2 afterOneConfig
          next_initial).2).2 =
      { current := 2, next_match := 2, matches0 := { start := 0, end_ := 2 },
        matches1 := { start := 2, end_ := 4 } } ∧
    ((2 : Int) ≤ 2 ∧ (2 : Int) ≤ 2 ∧ (2 : Int) ≤ 2 ∧ (2 : Int) < 4) := by
  have h := (C20_slot_B_never_overwritten literalRegex sampleVerses
    (rsv2ce_parseref literalRegex sampleBooks "Gen 1:1,3".toList).2 afterOneConfig _
    (Reachable.step _ (Reachable.step _ Reachable.init))).2
  have hs : (rsv2ce_next_verse literalRegex sampleVerses
        (rsv2ce_parseref literalRegex sampleBooks "Gen 1:1,3".toList).2 afterOneConfig
        (rsv2ce_next_verse literalRegex sampleVerses
          (rsv2ce_parseref literalRegex sampleBooks "Gen 1:1,3".toList).2 afterOneConfig
          next_initial).2).2 =
      { current := 2, next_match := 2, matches0 := { start := 0, end_ := 2 },
        matches1 := { start := 2, end_ := 4 } } := by decide
  rw [hs] at h
  exact ⟨hs, (h (by decide)).2⟩

/-- C13: when positions `p .. p+3` exist and share one book and chapter, the
matching positions are exactly `p` and `p + 2`, and the configuration is
`context_before = 0`, `context_after = 1`, `context_chapter = false`, the
iterator started from the initial state returns `p, p+1, p+2, p+3` in that
order and then -1. -/
theorem C13_adjacent_windows_merge (re : RegexLib) (verses : List rsv2ce_verse)
    (ref : rsv2ce_ref) (config : rsv2ce_config) (p : Nat)
    (hp : p + 3 < verses.length)
    (hsame : ∀ k : Nat, k < 4 →
      (verseAt verses ((p + k : Nat) : Int)).book = (verseAt verses (p : Int)).book ∧
      (verseAt verses ((p + k : Nat) : Int)).chapter = (verseAt verses (p : Int)).chapter)
    (hmatch : ∀ i : Nat, i < verses.length →
      (rsv2ce_verse_matches re ref (verseAt verses (i : Int)) = true ↔ (i = p ∨ i = p + 2)))
    (hb : config.context_before = 0) (ha : config.context_after = 1)
    (hc : config.context_chapter = false) :
    rsv2ce_positions re verses ref config (verses.length + 1) next_initial =
      some [(p : Int), (p : Int) + 1, (p : Int) + 2, (p : Int) + 3] := by
  have hcb : ctxBefore config = 0 := by simp [ctxBefore, hc, hb]
  have hca : ctxAfter config = 1 := by simp [ctxAfter, hc, ha]
  have hM : ∀ j : Int, matchAt re verses ref j ↔ (j = p ∨ j = (p : Int) + 2) := by
    intro j
    constructor
    · rintro ⟨h0, h1, hm⟩
      have hj : ((j.toNat : Nat) : Int) = j := by omega
      rw [← hj] at hm
      have := (hmatch j.toNat (by omega)).1 hm
      omega
    · intro h
      have h0 : 0 ≤ j := by omega
      have h1 : j < verses.length := by omega
      refine ⟨h0, h1, ?_⟩
      have hj : ((j.toNat : Nat) : Int) = j := by omega
      rw [← hj]
      exact (hmatch j.toNat (by omega)).2 (by omega)
  have hadj : ∀ j : Int, (p : Int) ≤ j → j < (p : Int) + 3 → adjSame verses j = true := by
    intro j h1 h2
    have e1 : (((p + (j - p).toNat : Nat)) : Int) = j := by omega
    have e2 : (((p + ((j - p).toNat + 1) : Nat)) : Int) = j + 1 := by omega
    have s1 := hsame (j - p).toNat (by omega)
    have s2 := hsame ((j - p).toNat + 1) (by omega)
    rw [e1] at s1
    rw [e2] at s2
    simp only [adjSame, decide_eq_true_eq]
    exact ⟨s1.1.trans s2.1.symm, s1.2.trans s2.2.symm⟩
  have hlo : ∀ m : Int, 0 ≤ m → m < verses.length → winLo verses config m = m := by
    intro m h0 h1
    exact (winLo_spec verses config m h0 h1).2.2.2.2.1 (by rw [hcb]; decide)
      (by rw [hcb])
  have hhi : ∀ m : Int, (p : Int) ≤ m → m < (p : Int) + 3 → winHi verses config m = m + 1 := by
    intro m h0 h1
    obtain ⟨b1, b2, b3, b4, b5, b6⟩ := winHi_spec verses config m (by omega) (by omega)
    have b4' := b4 (by rw [hca]; decide) (by rw [hca]; decide)
    rw [hca] at b4' b6
    rcases b6 with h | h | h
    · by_contra hne
      have : winHi verses config m = m := by omega
      omega
    · by_contra hne
      have hm : winHi verses config m = m := by omega
      rw [hm, hadj m h0 h1] at h
      cases h
    · omega
  have hP : (0 : Int) ≤ p := by omega
  have hcov : ∀ x : Int, covered re verses ref config x ↔
      (x = p ∨ x = (p : Int) + 1 ∨ x = (p : Int) + 2 ∨ x = (p : Int) + 3) := by
    intro x
    have l1 := hlo p hP (by omega)
    have l2 := hlo ((p : Int) + 2) (by omega) (by omega)
    have u1 := hhi p (le_refl _) (by omega)
    have u2 := hhi ((p : Int) + 2) (by omega) (by omega)
    constructor
    · rintro ⟨m, hm, h1, h2⟩
      rcases (hM m).1 hm with h | h
      · rw [h] at h1 h2
        omega
      · rw [h] at h1 h2
        omega
    · intro h
      by_cases hx : x ≤ (p : Int) + 1
      · exact ⟨p, (hM p).2 (Or.inl rfl), by omega, by omega⟩
      · exact ⟨(p : Int) + 2, (hM _).2 (Or.inr rfl), by omega, by omega⟩
  have hnl : noLoss re verses ref config := by
    intro m m' hm hm' hlt hov
    have e1 := (hM m).1 hm
    have e2 := (hM m').1 hm'
    have hm1 : m = p := by omega
    have hm2 : m' = (p : Int) + 2 := by omega
    rw [hm1, hm2] at hov
    rw [hlo ((p : Int) + 2) (by omega) (by omega), hhi p (le_refl _) (by omega)] at hov
    omega
  apply positions_exact re verses ref config hnl
  · simp only [List.pairwise_cons, List.mem_cons, List.mem_singleton, List.not_mem_nil,
      List.Pairwise.nil, and_true, or_false]
    refine ⟨?_, ?_, ?_, ?_⟩
    · intro x hx; omega
    · intro x hx; omega
    · intro x hx; omega
    · intro x hx; exact hx.elim
  · intro x
    rw [hcov]
    simp only [List.mem_cons, List.mem_singleton, List.not_mem_nil, or_false]

theorem C13_adjacent_windows_merge_witness :
    rsv2ce_positions literalRegex sampleVerses
      (rsv2ce_parseref literalRegex sampleBooks "Gen 1:1,3".toList).2 afterOneConfig
      (sampleVerses.length + 1) next_initial = some [0, 1, 2, 3] :=
  C13_adjacent_windows_merge literalRegex sampleVerses
    (rsv2ce_parseref literalRegex sampleBooks "Gen 1:1,3".toList).2 afterOneConfig 0
    (by decide) (by decide) (by decide) rfl rfl rfl

/-- C16: when `context_chapter` is set, whatever `context_before` and
`context_after` are, the iterator returns exactly, in ascending order, the
positions of the maximal runs of adjacent corpus entries with equal book and
chapter that contain at least one matching position, and then -1. -/
theorem C16_whole_chapter_runs (re : RegexLib) (verses : List rsv2ce_verse)
    (ref : rsv2ce_ref) (config : rsv2ce_config) (hc : config.context_chapter = true) :
    rsv2ce_positions re verses ref config (verses.length + 1) next_initial =
      some (chapterRunPositions re verses ref) := by
  apply positions_exact re verses ref config (noLoss_chapter re verses ref config hc)
  · exact sorted_chapterRunPositions re verses ref
  · intro x
    rw [mem_chapterRunPositions]
    constructor
    · rintro ⟨h0, h1, m, hm, hrun⟩
      have := (window_chapter_iff verses config hc m x hm.1 hm.2.1 h0 h1).2
        ((sameRun_iff verses m x hm.1 hm.2.1 h0 h1).1 hrun)
      exact ⟨m, hm, this.1, this.2⟩
    · intro hcov
      have hx := covered_lt_length re verses ref config x hcov
      obtain ⟨m, hm, hlo, hhi⟩ := hcov
      refine ⟨hx.1, hx.2, m, hm, ?_⟩
      exact (sameRun_iff verses m x hm.1 hm.2.1 hx.1 hx.2).2
        ((window_chapter_iff verses config hc m x hm.1 hm.2.1 hx.1 hx.2).1 ⟨hlo, hhi⟩)

theorem C16_whole_chapter_runs_witness :
    rsv2ce_positions literalRegex twoChapterVerses
        (rsv2ce_parseref literalRegex sampleBooks "Gen 2:2".toList).2 chapterConfig
        (twoChapterVerses.length + 1) next_initial =
      some (chapterRunPositions literalRegex twoChapterVerses
        (rsv2ce_parseref literalRegex sampleBooks "Gen 2:2".toList).2) ∧
    chapterRunPositions literalRegex twoChapterVerses
        (rsv2ce_parseref literalRegex sampleBooks "Gen 2:2".toList).2 = [2, 3] :=
  ⟨C16_whole_chapter_runs literalRegex twoChapterVerses
      (rsv2ce_parseref literalRegex sampleBooks "Gen 2:2".toList).2 chapterConfig rfl,
    by decide⟩

/-- C17, the claim as stated fails. With `maximum_line_length` 12 the text
"abc" is printed whole on a line of its own, 3 characters where the claim
allows 12 - 10 = 2: a word is never split, so a word longer than the bound
cannot meet it. With `maximum_line_length` 5 the claimed bound 5 - 10 is
negative, which no line can meet: "a b" is printed on one line of 3
characters. -/
theorem C17_counterexample :
    (rsv2ce_output_verse
        { book := 1, chapter := 1, verse := 1, text := "abc".toList } narrowConfig =
      verseLabel { book := 1, chapter := 1, verse := 1, text := "abc".toList } ++
        "\n\tabc\n".toList ∧
      ¬ (("abc".toList.length : Int) ≤ narrowConfig.maximum_line_length - 10)) ∧
    (rsv2ce_output_verse
        { book := 1, chapter := 1, verse := 1, text := "a b".toList } tinyConfig =
      verseLabel { book := 1, chapter := 1, verse := 1, text := "a b".toList } ++
        "a b\n".toList ∧
      ¬ (("a b".toList.length : Int) ≤ tinyConfig.maximum_line_length - 10)) := by
  decide

/-- C17 (amended): for a `maximum_line_length` from 10 up to the largest `int`
and a verse text that fits the 1024-byte buffer, `rsv2ce_output_verse` prints
the label and then lines of words, the words of a line joined by single spaces
and the lines separated by a newline and a tab; the words of the lines, taken
in order, are exactly the space-separated words of the text (the non-empty
pieces of the text split at every space), each whole; and each line either has
at most `maximum_line_length - 10` characters or holds a single word (one too
long to fit). -/
theorem C17_lines_within_limit (verse : rsv2ce_verse) (config : rsv2ce_config)
    (h10 : 10 ≤ config.maximum_line_length)
    (hmax : config.maximum_line_length ≤ 2147483647)
    (_hbuf : verse.text.length < 1024) :
    ∃ lines : List (List (List Char)),
      rsv2ce_output_verse verse config = verseLabel verse ++ linesText lines ++ ['\n'] ∧
      lines.flatten = (verse.text.splitOn ' ').filter (fun w => w ≠ []) ∧
      ∀ line ∈ lines,
        ((lineText line).length : Int) ≤ config.maximum_line_length - 10 ∨
          line.length ≤ 1 := by
  have hne : ∀ w ∈ strtok_words verse.text, w ≠ [] :=
    strtok_loop_nonempty verse.text []
  have hsp : strtok_words verse.text =
      (verse.text.splitOn ' ').filter (fun w => w ≠ []) := by
    have h := strtok_loop_splitOn verse.text [] (by simp)
    rw [List.nil_append] at h
    exact h
  obtain ⟨ext, lines, h1, h2, h3⟩ :=
    output_loop_lines (toU64 (config.maximum_line_length - 8 - 2))
      (strtok_words verse.text) [] hne (by simp) (Or.inr (by simp))
  have hlim : ((toU64 (config.maximum_line_length - 8 - 2) : Nat) : Int) =
      config.maximum_line_length - 10 := by
    unfold toU64
    omega
  refine ⟨([] ++ ext) :: lines, ?_, ?_, ?_⟩
  · unfold rsv2ce_output_verse
    rw [← h1]
    simp [lineText, joinWith]
  · rw [← hsp]
    simpa using h2
  · intro line hline
    rcases h3 line hline with h | h
    · left
      rw [← hlim]
      exact_mod_cast h
    · exact Or.inr h

theorem C17_lines_within_limit_witness :
    ∃ lines : List (List (List Char)),
      rsv2ce_output_verse
          { book := 1, chapter := 1, verse := 1, text := "in the beginning God".toList }
          twentyConfig =
        verseLabel
          { book := 1, chapter := 1, verse := 1, text := "in the beginning God".toList } ++
          linesText lines ++ ['\n'] ∧
      lines.flatten = ("in the beginning God".toList.splitOn ' ').filter (fun w => w ≠ []) ∧
      ∀ line ∈ lines,
        ((lineText line).length : Int) ≤ twentyConfig.maximum_line_length - 10 ∨
          line.length ≤ 1 :=
  C17_lines_within_limit
    { book := 1, chapter := 1, verse := 1, text := "in the beginning God".toList }
    twentyConfig (by decide) (by decide) (by decide)

/-- C18: for a corpus sorted ascending by book number, `rsv2ce_output` prints
what the iterator yields, with the header of any given book at most once; the
number of headers is the number of distinct books among the yielded verses, and
the return value is true exactly when at least one verse was yielded. -/
theorem C18_one_header_per_book (re : RegexLib) (verses : List rsv2ce_verse)
    (ref : rsv2ce_ref) (config : rsv2ce_config)
    (hsorted : List.Pairwise (fun a b : rsv2ce_verse => a.book ≤ b.book) verses) :
    ∃ (items : List rsv2ce_emitted) (ret : Bool) (l : List Int),
      rsv2ce_output re verses ref config = some (items, ret) ∧
      rsv2ce_positions re verses ref config (verses.length + 1) next_initial = some l ∧
      items.filterMap (fun e => match e with
        | rsv2ce_emitted.verse p => some p
        | _ => none) = l ∧
      (∀ b : Int, (headersOf items).count b ≤ 1) ∧
      (headersOf items).length =
        ((l.map (fun i => (verseAt verses i).book)).dedup).length ∧
      (ret = true ↔ l ≠ []) := by
  obtain ⟨l, h1, h2, h3, _, _, _⟩ := positions_initial re verses ref config
  have hb := books_sorted verses hsorted l h2
    (fun x hx => ⟨(h3 x hx).1, (h3 x hx).2.1⟩)
  obtain ⟨g1, g2⟩ := headerBooks_none _ hb
  have hh := headersOf_itemsOf verses l none
  simp only [Option.map_none'] at hh
  have hnd : (headersOf (itemsOf verses none l)).Nodup := by
    rw [hh]
    exact g1.imp (fun h => ne_of_lt h)
  refine ⟨itemsOf verses none l, (finalLast none l).isSome, l, ?_, h1, ?_, ?_, ?_, ?_⟩
  · unfold rsv2ce_output
    rw [output_loop_eq, h1]
    rfl
  · exact verses_itemsOf verses l none
  · intro b
    exact List.nodup_iff_count_le_one.1 hnd b
  · apply List.Perm.length_eq
    rw [List.perm_ext_iff_of_nodup hnd (List.nodup_dedup _)]
    intro x
    rw [hh, g2, List.mem_dedup]
  · rw [finalLast_isSome]
    simp

theorem C18_one_header_per_book_witness :
    ∃ (items : List rsv2ce_emitted) (ret : Bool) (l : List Int),
      rsv2ce_output literalRegex sampleVerses
          (rsv2ce_parseref literalRegex sampleBooks "Gen 1:1,3".toList).2
          afterOneConfig = some (items, ret) ∧
      rsv2ce_positions literalRegex sampleVerses
          (rsv2ce_parseref literalRegex sampleBooks "Gen 1:1,3".toList).2
          afterOneConfig (sampleVerses.length + 1) next_initial = some l ∧
      items.filterMap (fun e => match e with
        | rsv2ce_emitted.verse p => some p
        | _ => none) = l ∧
      (∀ b : Int, (headersOf items).count b ≤ 1) ∧
      (headersOf items).length =
        ((l.map (fun i => (verseAt sampleVerses i).book)).dedup).length ∧
      (ret = true ↔ l ≠ []) :=
  C18_one_header_per_book literalRegex sampleVerses
    (rsv2ce_parseref literalRegex sampleBooks "Gen 1:1,3".toList).2
    afterOneConfig (by decide)

end Rsv2ce
